import Mathlib

set_option maxHeartbeats 4000000
set_option maxRecDepth 10000

/-!
Shallow embedding of the sfpriorityq repository (src/include/priorityq.h,
src/src/priorityq.c): a lazy, starvation-free bounded priority queue built
from a rotating 8-bit priority counter, eight intrusive bucket lists, and
"immediate" / "done" staging lists.

Modelling conventions:
* an item (`priority_t`) is identified by a natural number `Pid`; the caller's
  item records live in a total map `items : Pid → Item` inside the queue state;
* intrusive lists become `List Pid` in queue order (head = next to pop,
  `list_nq` appends at the tail);
* `uint8_t` arithmetic is `Nat` with explicit `% 256`; the `uint32_t` size
  counters use `% 4294967296` (`inc32` / `dec32`), since the C code can
  underflow them;
* `node_in_list` (`n->next != NULL`) is the `linked` flag of an item;
  `node_unlink_only` removes an id from the lists without clearing the flag,
  `node_unlink` also clears it;
* `get_high_index32` is `31 - __builtin_clz n`, which for `n ≠ 0` is
  `Nat.log2 n`; the C function is undefined at 0 (its doc comment warns
  "Do NOT input zero"), the model returns the junk value `Nat.log2 0 = 0`
  there and we prove separately where the code feeds it 0;
* `priorityq_dequeue`'s unbounded `do … while` loop takes explicit fuel.
-/

abbrev Pid := Nat

inductive Loc where
  | none : Loc
  | done : Loc
  | imed : Loc
  | q : Loc
deriving DecidableEq, Repr

/-- One `priority_t` record: `info[PRIORITY_ABS]`, `info[PRIORITY_REL]`,
`info[PRIORITY_LOC]`, `info[PRIORITY_URG]`, and the intrusive-node state
(`linked` is `node_in_list`, i.e. `next != NULL`). The opaque payload is
dropped; no claim mentions it. -/
structure Item where
  abs : Nat
  rel : Nat
  loc : Loc
  urg : Bool
  linked : Bool
deriving DecidableEq, Repr

def item0 : Item := ⟨0, 0, Loc.none, false, false⟩

/-- The `priorityq_t` state plus the caller-owned item records. -/
structure PQ where
  pc : Nat
  counter_imed : Nat
  size : Nat
  size_done : Nat
  size_imed : Nat
  size_q : Nat
  done : List Pid
  immediate : List Pid
  processing : List Pid
  bins : List (List Pid)
  items : Pid → Item

def M32 : Nat := 4294967296

/-- `uint32_t` increment: equals `(n + 1) % 2^32` on every representable
value `n < 2^32` (the case split avoids `Nat.mod` on open terms). -/
def inc32 (n : Nat) : Nat := if n + 1 = M32 then 0 else n + 1

/-- `uint32_t` decrement: equals `(n + 2^32 - 1) % 2^32` on every
representable value `n < 2^32`; in particular `dec32 0 = 4294967295`. -/
def dec32 (n : Nat) : Nat := if n = 0 then M32 - 1 else n - 1

def upd (f : Pid → Item) (i : Pid) (v : Item) : Pid → Item :=
  fun j => if j = i then v else f j

/-- Floor base-2 logarithm by structural recursion (`fuel` bounds the bit
width; 32 suffices for every `uint32_t` value). -/
def hiGo : Nat → Nat → Nat
  | 0, _ => 0
  | fuel + 1, n => if n ≥ 2 then hiGo fuel (n / 2) + 1 else 0

/-- `31 - __builtin_clz n` for `n ≠ 0`; undefined (junk 0 here) at `n = 0`. -/
def get_high_index32 (n : Nat) : Nat := hiGo 32 n

/-- `priority_set`: urgent (128) stores `abs = 0, urg = 1`, otherwise the
priority itself. The C parameter is `uint8_t`, hence the `% 256`. -/
def priority_set (it : Item) (priority : Nat) : Item :=
  let v := priority % 256
  if v ≠ 128 then { it with abs := v, urg := false }
  else { it with abs := 0, urg := true }

/-- `priorityq_init`: zeroed state, all lists self-looped (empty). Items are
zeroed separately by `priority_init`; the initial map is all-zero records. -/
def priorityq_init : PQ :=
  ⟨0, 0, 0, 0, 0, 0, [], [], [], List.replicate 8 [], fun _ => item0⟩

/-- The argument the bucket-placement code hands to `get_high_index32`:
`rel ^ pc` in the non-wrapping case (`nrp ≥ pc`), `rel & pc` in the
wrapping case. (`nrp = rp - 1` in `uint8_t`, i.e. `(rp + 255) % 256` for
`rp < 256`, written as a case split.) -/
def nqArg (pc rp : Nat) : Nat :=
  if (if rp = 0 then 255 else rp - 1) ≥ pc then rp ^^^ pc else rp &&& pc

/-- `priorityq_nq_only`: push the item onto `bins[index]` where `index` is the
highest set bit of `nqArg` (the dead `apc` computation of the C wrap branch is
omitted; it has no effect on the state). -/
def priorityq_nq_only (q : PQ) (i : Pid) : PQ :=
  let index := get_high_index32 (nqArg q.pc (q.items i).rel)
  { q with bins := q.bins.set index (q.bins.getD index [] ++ [i]) }

/-- The index-search loop of `priorityq_advance_priority_counter`:
advance `idx` while `idx < 7` and not (bin nonempty and bit `idx` of `pc`
clear); `rem` counts the remaining tests (7 at entry). -/
def advGo (bins : List (List Pid)) (pc : Nat) : Nat → Nat → Nat
  | idx, 0 => idx
  | idx, r + 1 =>
    if bins.getD idx [] ≠ [] ∧ (pc >>> idx) % 2 = 0 then idx
    else advGo bins pc (idx + 1) r

/-- `list_append(&q->processing, q->bins + j)`: splice bin `j` onto the tail
of `processing` (a no-op when the bin is empty, as in the C `list_has` test). -/
def splice (q : PQ) (j : Nat) : PQ :=
  if q.bins.getD j [] = [] then q
  else { q with processing := q.processing ++ q.bins.getD j [],
                bins := q.bins.set j [] }

/-- The `while (bits)` splice loop of the counter advance; `bits < 256`, so
8 units of fuel always run it to completion. -/
def spliceBits : Nat → PQ → Nat → Nat → PQ
  | 0, q, _, _ => q
  | fuel + 1, q, idx, bits =>
    if bits = 0 then q
    else
      let q1 := if bits % 2 = 1 then splice q idx else q
      spliceBits fuel q1 (idx + 1) (bits >>> 1)

/-- `priorityq_advance_priority_counter`. -/
def priorityq_advance_priority_counter (q : PQ) : PQ :=
  let pc := q.pc
  let index := advGo q.bins pc 0 7
  -- `uint8_t` sum: `pc | mask ≤ 255` for `pc < 256`, so the `% 256` of the
  -- stored value is the single-wrap case split below.
  let newpc := if (pc ||| (2 ^ index - 1)) + 1 = 256 then 0
               else (pc ||| (2 ^ index - 1)) + 1
  let q1 := splice q index
  let bits := (((pc ^^^ newpc) &&& 128) ||| (((255 ^^^ pc) &&& newpc) &&& 127)) >>> (index + 1)
  let q2 := spliceBits 8 q1 (index + 1) bits
  { q2 with pc := newpc }

/-- `priorityq_advance_immediates`: the lazy immediate→done drain. Note the
moved nodes keep their `loc = IMED` tag (the C code does not update it). The
`[]` match arms are unreachable when the size counters agree with the lists. -/
def priorityq_advance_immediates (q : PQ) : PQ :=
  if q.size_imed ≠ 0 then
    if q.counter_imed ≠ 0 then
      match q.immediate with
      | [] => q
      | x :: rest =>
        let q1 := { q with immediate := rest, done := q.done ++ [x],
                           size_imed := dec32 q.size_imed,
                           size_done := inc32 q.size_done }
        if q1.size_done < q1.size_imed then
          if q1.size_imed % 2 = 0 then
            match q1.immediate with
            | [] => q1
            | y :: rest2 =>
              { q1 with immediate := rest2, done := q1.done ++ [y],
                        size_imed := dec32 q1.size_imed,
                        size_done := inc32 q1.size_done,
                        counter_imed := q1.counter_imed >>> 1 }
          else { q1 with counter_imed := dec32 q1.counter_imed }
        else { q1 with counter_imed := q1.counter_imed >>> 2 }
    else { q with counter_imed := get_high_index32 q.size_imed + 1 }
  else q

/-- The `do … while (--limit_q && list_has(&q->processing))` body of
`priorityq_advance_priority_queue`; entered with `limit ≥ 1` and a nonempty
processing list. -/
def drainBatch : Nat → PQ → PQ
  | 0, q => q
  | l + 1, q =>
    match q.processing with
    | [] => q
    | n :: rest =>
      let it := q.items n
      let q1 := { q with processing := rest }
      let q2 :=
        if it.rel ≠ q1.pc then priorityq_nq_only q1 n
        else { q1 with items := upd q1.items n { it with loc := Loc.imed },
                       size_q := dec32 q1.size_q,
                       size_imed := inc32 q1.size_imed,
                       immediate := q1.immediate ++ [n] }
      if 0 < l ∧ q2.processing ≠ [] then drainBatch l q2 else q2

/-- `priorityq_advance_priority_queue`. -/
def priorityq_advance_priority_queue (q : PQ) : PQ :=
  if q.size_q ≠ 0 then
    if q.processing ≠ [] then drainBatch (get_high_index32 q.size_q + 1) q
    else priorityq_advance_priority_counter q
  else q

/-- One iteration of `priorityq_dequeue`'s loop: advance immediates, advance
the priority queue, then `list_dq(&q->done)` (which clears the node links). -/
def dequeue_loop : Nat → PQ → Option Pid × PQ
  | 0, q => (none, q)
  | fuel + 1, q =>
    let q2 := priorityq_advance_priority_queue (priorityq_advance_immediates q)
    match q2.done with
    | [] => dequeue_loop fuel q2
    | n :: rest =>
      let it := q2.items n
      (some n, { q2 with done := rest,
                         items := upd q2.items n { it with linked := false } })

/-- `priorityq_dequeue` with explicit fuel for the unbounded loop. On success
it decrements `size_done` and `size` and resets the item location. -/
def priorityq_dequeue (q : PQ) (fuel : Nat) : Option Pid × PQ :=
  if q.size ≠ 0 then
    match dequeue_loop fuel q with
    | (some n, q1) =>
      let it := q1.items n
      (some n, { q1 with size_done := dec32 q1.size_done,
                         size := dec32 q1.size,
                         items := upd q1.items n { it with loc := Loc.none } })
    | (none, q1) => (none, q1)
  else (none, q)

/-- Remove an id from every queue list (`node_unlink_only`; an item sits in at
most one list in any state the C code can produce). -/
def eraseFromLists (q : PQ) (i : Pid) : PQ :=
  { q with done := q.done.erase i,
           immediate := q.immediate.erase i,
           processing := q.processing.erase i,
           bins := q.bins.map (fun l => l.erase i) }

/-- The fresh-enqueue tail of `priorityq_enqueue` (its last four blocks). -/
def freshNq (q : PQ) (i : Pid) : PQ :=
  let it := q.items i
  if it.abs ≠ 0 then
    -- `uint8_t` sum `abs + pc`: one wrap suffices since both are `< 256`.
    let rel := if it.abs + q.pc ≥ 256 then it.abs + q.pc - 256 else it.abs + q.pc
    let q1 := { q with items := upd q.items i { it with rel := rel, loc := Loc.q, linked := true },
                       size_q := inc32 q.size_q }
    let q2 := priorityq_nq_only q1 i
    { q2 with size := inc32 q2.size }
  else if it.urg then
    { q with items := upd q.items i { it with rel := q.pc, loc := Loc.done, linked := true },
             size_done := inc32 q.size_done,
             done := q.done ++ [i],
             size := inc32 q.size }
  else
    { q with items := upd q.items i { it with rel := q.pc, loc := Loc.imed, linked := true },
             size_imed := inc32 q.size_imed,
             immediate := q.immediate ++ [i],
             size := inc32 q.size }

/-- `priorityq_enqueue`. The reprioritization test
`info[ABS] >= (info[REL] - (uint8_t)q->pc)` subtracts promoted `int`s, so it
is a signed comparison, not a mod-256 one. -/
def priorityq_enqueue (q : PQ) (i : Pid) : PQ :=
  let it := q.items i
  if it.loc = Loc.done then q
  else if it.linked then
    if it.urg then
      let q1 := eraseFromLists q i
      let q2 := { q1 with done := q1.done ++ [i] }
      let q3 :=
        if it.loc = Loc.imed then { q2 with size_imed := dec32 q2.size_imed }
        else { q2 with size_q := dec32 q2.size_q }
      { q3 with size_done := inc32 q3.size_done,
                items := upd q3.items i { it with loc := Loc.done } }
    else if it.loc = Loc.imed ∨ (it.abs : Int) ≥ (it.rel : Int) - (q.pc : Int) then q
    else
      let q1 := eraseFromLists q i
      let q2 := { q1 with size_q := dec32 q1.size_q, size := dec32 q1.size }
      freshNq q2 i
  else freshNq q i

/-- `priorityq_remove`. An unlinked item (`location NONE`, null links) is left
untouched; otherwise unlink, decrement the counter named by the location tag
(`priorityq_decrement_queue` hits `size_q` for any tag other than DONE/IMED),
decrement `size`, reset the location. -/
def priorityq_remove (q : PQ) (i : Pid) : PQ :=
  let it := q.items i
  if it.linked then
    let q1 := eraseFromLists q i
    let q2 :=
      match it.loc with
      | Loc.done => { q1 with size_done := dec32 q1.size_done }
      | Loc.imed => { q1 with size_imed := dec32 q1.size_imed }
      | _ => { q1 with size_q := dec32 q1.size_q }
    { q2 with size := dec32 q2.size,
              items := upd q2.items i { it with loc := Loc.none, linked := false } }
  else q

/-- `priority_set` on the stored record followed by `priorityq_enqueue`, the
way every test drives the queue. -/
def enqueueWith (q : PQ) (i : Pid) (priority : Nat) : PQ :=
  priorityq_enqueue { q with items := upd q.items i (priority_set (q.items i) priority) } i

/-!  Scenario definitions used by the claims.  -/

/-- One priming round of the brute-force property P8: enqueue the priority-1
item (id 0), then dequeue it. Each round advances `pc` by exactly one. -/
def primeRound (q : PQ) : PQ := (priorityq_dequeue (enqueueWith q 0 1) 64).2

/-- Prime a fresh queue so that its counter equals `n`. -/
def primeN : Nat → PQ
  | 0 => priorityq_init
  | n + 1 => primeRound (primeN n)

/-- Fresh queue holding a priority-12 item (id 0) then a priority-3 item
(id 1), the S2 scenario. -/
def c1state : PQ := enqueueWith (enqueueWith priorityq_init 0 12) 1 3

/-- Three priority-0 items, one dequeue (which drains ids 0 and 1 to `done`
but returns only id 0), then `priorityq_remove` of id 1 — an item physically
in `done` whose location tag still says IMMEDIATE, so the remove decrements
`size_imed` instead of `size_done`. -/
def c8state : PQ :=
  let q0 := enqueueWith (enqueueWith (enqueueWith priorityq_init 0 0) 1 0) 2 0
  priorityq_remove (priorityq_dequeue q0 64).2 1

/-- Same stale-location setup, but instead remove id 2 (still in `immediate`)
and then re-enqueue id 1 (in `done`, location tag IMMEDIATE) as urgent:
`--q->size_imed` runs with `size_imed == 0` and wraps around. -/
def c5state : PQ :=
  let q0 := enqueueWith (enqueueWith (enqueueWith priorityq_init 0 0) 1 0) 2 0
  let q1 := priorityq_remove (priorityq_dequeue q0 64).2 2
  enqueueWith q1 1 128

/-- Enqueue `n` urgent items with ids `n-1, …, 1, 0`. -/
def mkUrgents : Nat → PQ → PQ
  | 0, q => q
  | n + 1, q => mkUrgents n (enqueueWith q n 128)

/-- The adversarial schedule of P5: each step enqueues two fresh urgent items
(ids `nid`, `nid+1`) and then dequeues once; `true` iff item `x` is returned
by one of the first `n` dequeues. -/
def c3found (x : Pid) : Nat → Nat → PQ → Bool
  | 0, _, _ => false
  | n + 1, nid, q =>
    let q1 := enqueueWith (enqueueWith q nid 128) (nid + 1) 128
    let p := priorityq_dequeue q1 64
    if p.1 = some x then true else c3found x n (nid + 2) p.2

/-- Queue primed to `pc = 131` holding one item (id 1) enqueued with absolute
priority 126: its relative priority is `(126 + 131) % 256 = 1`, a wrapped
bucket item (`rel < pc`). -/
def c6state : PQ := enqueueWith (primeN 131) 1 126

/-- The C6 enqueue argument: the same queue after the caller has re-set the
item's priority to 100 (`priority_set`), just before `priorityq_enqueue`. -/
def c6arg : PQ :=
  { c6state with items := upd c6state.items 1 (priority_set (c6state.items 1) 100) }

/-- An urgent-only operation: enqueue item `i` as urgent, or dequeue. -/
inductive UOp where
  | nq : Pid → UOp
  | dq : UOp

/-- Run an urgent-only operation sequence against the model, collecting the
result of every dequeue; the dequeue loop gets `fuel + 1` units of fuel. -/
def runUrgent (fuel : Nat) : PQ → List UOp → List (Option Pid)
  | _, [] => []
  | q, UOp.nq i :: rest => runUrgent fuel (enqueueWith q i 128) rest
  | q, UOp.dq :: rest =>
    let p := priorityq_dequeue q (fuel + 1)
    p.1 :: runUrgent fuel p.2 rest

/-- Reference machine for the spec sentence "urgent items are delivered in
insertion order": a plain FIFO of ids (re-enqueueing a held id is a no-op). -/
def fifoRun : List Pid → List UOp → List (Option Pid)
  | _, [] => []
  | f, UOp.nq i :: rest => fifoRun (if i ∈ f then f else f ++ [i]) rest
  | [], UOp.dq :: rest => none :: fifoRun [] rest
  | x :: r, UOp.dq :: rest => some x :: fifoRun r rest

/-- The splice mask computed by the counter advance, before shifting:
bit 7 of `pc XOR newpc` plus the low seven bits of `NOT pc AND newpc`. -/
def advBits (pc newpc : Nat) : Nat :=
  ((pc ^^^ newpc) &&& 128) ||| (((255 ^^^ pc) &&& newpc) &&& 127)

/-- The claim's description of the set of fired bins: bin `i` itself, plus
every bin `j > i` whose bit flips 0-to-1 among the low 7 bits between `pc`
and `newpc`, plus bin 7 whenever the top bit changes in either direction. -/
def c7fired (pc newpc i j : Nat) : Prop :=
  j = i ∨ (i < j ∧ ((j < 7 ∧ (pc >>> j) % 2 = 0 ∧ (newpc >>> j) % 2 = 1) ∨
    (j = 7 ∧ ¬(pc >>> 7) % 2 = (newpc >>> 7) % 2)))

instance (pc newpc i j : Nat) : Decidable (c7fired pc newpc i j) := by
  unfold c7fired
  infer_instance

/-- State relation for urgent-only runs: the queue is exactly a FIFO `f` held
in `done`, everything else empty, counters in sync, and item records
consistent (members staged DONE, non-members unlinked and located NONE). -/
def UrgInv (q : PQ) (f : List Pid) : Prop :=
  q.done = f ∧ q.immediate = [] ∧ q.processing = [] ∧ q.bins = List.replicate 8 [] ∧
  q.size = f.length ∧ q.size_done = f.length ∧ q.size_imed = 0 ∧ q.size_q = 0 ∧
  f.Nodup ∧
  (∀ i ∈ f, (q.items i).loc = Loc.done) ∧
  (∀ i, i ∉ f → (q.items i).loc = Loc.none ∧ (q.items i).linked = false)

/-- The adversarial urgent-only schedule of the C3 counterexample: 129 urgent
items (ids 0..128) enqueued first, then the watched item `x` = id 129 as
urgent, then 128 steps each enqueueing two fresh urgent items before one
dequeue. -/
def c3ops : List UOp :=
  (List.range 130).map UOp.nq ++
    (List.range 128).flatMap (fun k => [UOp.nq (130 + 2 * k), UOp.nq (131 + 2 * k), UOp.dq])



/-- Enqueue a list of (id, priority) pairs in order. -/
def enqAll : PQ → List (Pid × Nat) → PQ
  | q, [] => q
  | q, e :: rest => enqAll (enqueueWith q e.1 e.2) rest

/-- Dequeue up to `n` items (each dequeue with the given fuel), collecting the
returned ids; stops early if a dequeue returns nothing. -/
def drainAll : Nat → Nat → PQ → List Pid
  | 0, _, _ => []
  | n + 1, fuel, q =>
    match priorityq_dequeue q fuel with
    | (some i, q2) => i :: drainAll n fuel q2
    | (none, _) => []

/-- The ids held in the bins, in bin order. -/
def binsFlat (q : PQ) : List Pid := (List.range 8).flatMap (fun b => q.bins.getD b [])

/-- The ids still owned by the priority-queue stage (processing plus bins). -/
def restIds (q : PQ) : List Pid := q.processing ++ binsFlat q

/-- The ids of `l` listed in increasing order of their relative priority. -/
def sortR (q : PQ) (l : List Pid) : List Pid :=
  (List.range 128).flatMap (fun r => l.filter (fun i => decide ((q.items i).rel = r)))

/-- Invariant of the drain phase: `st` is the queue of staged outputs
(`done` then `immediate`, in order); the bins and processing list hold the
remaining positive items, bucketed consistently with `pc`. -/
structure DrainInv (q : PQ) (st : List Pid) : Prop where
  hdi : q.done ++ q.immediate = st
  hlen8 : q.bins.length = 8
  hpc : q.pc ≤ 128
  hsd : q.size_done = q.done.length
  hsi : q.size_imed = q.immediate.length
  hsq : q.size_q = (restIds q).length
  hsz : q.size = st.length + (restIds q).length
  hbound : st.length + (restIds q).length < M32
  hrel : ∀ i ∈ restIds q, 1 ≤ (q.items i).rel ∧ (q.items i).rel ≤ 127
  hproc : ∀ i ∈ q.processing, q.pc ≤ (q.items i).rel
  hbin : ∀ b, b < 8 → ∀ i ∈ q.bins.getD b [],
      (q.items i).rel >>> (b + 1) = q.pc >>> (b + 1) ∧
      ((q.items i).rel >>> b) % 2 = 1 ∧ (q.pc >>> b) % 2 = 0
  hnd : (st ++ restIds q).Nodup
  hdist : ((restIds q).map (fun i => (q.items i).rel)).Nodup

/-- Termination weight of a processing entry. -/
def wProc (q : PQ) (i : Pid) : Nat :=
  if (q.items i).rel = q.pc then 1 else 2 * get_high_index32 ((q.items i).rel ^^^ q.pc) + 4

/-- Loop measure: weighted bin contents, weighted processing entries, the
immediate backlog, and the counter-reset stall bit. -/
def MM (q : PQ) : Nat :=
  4 * ((List.range 8).map (fun b => (q.bins.getD b []).length * (2 * b + 3))).sum
    + 4 * (q.processing.map (wProc q)).sum
    + 2 * q.immediate.length
    + (if q.counter_imed = 0 then 1 else 0)

/-- The state after `drainBatch` stages the processing head `n` (its relative
priority equals the counter) onto the immediate list. -/
def stageQ (q : PQ) (n : Pid) (rest : List Pid) : PQ :=
  { q with processing := rest,
           items := upd q.items n { q.items n with loc := Loc.imed },
           size_q := dec32 q.size_q,
           size_imed := inc32 q.size_imed,
           immediate := q.immediate ++ [n] }

/-- The state after `drainBatch` pushes the processing head `n` back into the
bucket of the highest bit of `rel XOR pc`. -/
def rebinQ (q : PQ) (n : Pid) (rest : List Pid) : PQ :=
  { q with processing := rest,
           bins := q.bins.set (get_high_index32 ((q.items n).rel ^^^ q.pc))
             (q.bins.getD (get_high_index32 ((q.items n).rel ^^^ q.pc)) [] ++ [n]) }

/-!  Theorems.  -/

/-- C1, counterexample. Enqueue a priority-12 item (id 0) then a priority-3
item (id 1) into a fresh queue: the first dequeue returns the priority-3 item
and the second the priority-12 item — the reverse of the claimed order. -/
theorem c1_counterexample :
    (c1state.items 0).abs = 12 ∧ (c1state.items 1).abs = 3 ∧
    (priorityq_dequeue c1state 64).1 = some 1 ∧
    (priorityq_dequeue (priorityq_dequeue c1state 64).2 64).1 = some 0 := by
  refine ⟨by decide, by decide, by decide, by decide⟩

/-- C2. At counter value `c = 130` (reached by 130 rounds of
enqueue-then-dequeue of a priority-1 item) and priority `p = 127`, the enqueue
computes relative priority `(127 + 130) % 256 = 1`, takes the wrap branch
(`nrp = 0 < pc`), and hands `rel & pc = 1 & 130 = 0` to `get_high_index32`,
whose behavior on 0 (`31 - __builtin_clz(0)`) is undefined — so the
brute-force property P8 fails at this state. -/
theorem c2_undefined_helper_call :
    (primeN 130).pc = 130 ∧ (primeN 130).size = 0 ∧
    ((127 + (primeN 130).pc) % 256 = 1 ∧ ¬((1 + 255) % 256 ≥ (primeN 130).pc)) ∧
    nqArg (primeN 130).pc 1 = 0 := by
  refine ⟨by decide, by decide, ⟨by decide, by decide⟩, by decide⟩

/-- C4. A reachable state (counter primed to 130, then a fresh enqueue of an
absolute priority 127 item) on which bucket placement is in the wrapping case
and passes `rel_priority AND pc = 1 AND 130 = 0` to `get_high_index32` —
contradicting the claim that the helper is never applied to 0. -/
theorem c4_zero_argument_reachable :
    ((enqueueWith (primeN 130) 1 127).items 1).rel = 1 ∧
    (enqueueWith (primeN 130) 1 127).pc = 130 ∧
    (1 + 255) % 256 < 130 ∧ nqArg 130 1 = 1 &&& 130 ∧ (1 : Nat) &&& 130 = 0 := by
  refine ⟨by decide, by decide, by decide, by decide, by decide⟩

/-- C5. After enqueueing three priority-0 items, dequeueing once, removing the
item left in `done` with a stale IMMEDIATE location tag is mis-accounted, and
an urgent re-enqueue of it then decrements `size_imed` below zero: the
`uint32_t` wraps to 4294967295 and
`size == size_done + size_imed + size_q` fails. -/
theorem c5_invariant_violated :
    c5state.size = 1 ∧ c5state.size_done = 2 ∧
    c5state.size_imed = 4294967295 ∧ c5state.size_q = 0 ∧
    c5state.size ≠ c5state.size_done + c5state.size_imed + c5state.size_q := by
  refine ⟨by decide, by decide, by decide, by decide, by decide⟩

/-- Helper for C8: on the corrupted state the dequeue loop body is the
identity — `size_imed = 0` skips the immediate drain even though the last item
sits in `immediate`, and `size_q = 0` skips the priority-queue advance. -/
theorem c8_loop_body_fixed :
    priorityq_advance_priority_queue (priorityq_advance_immediates c8state) = c8state := by
  have h1 : priorityq_advance_immediates c8state = c8state := by
    unfold priorityq_advance_immediates
    rw [if_neg]
    decide
  rw [h1]
  unfold priorityq_advance_priority_queue
  rw [if_neg]
  decide

/-- Helper for C8: the loop never produces an item, for any amount of fuel. -/
theorem c8_loop_diverges : ∀ fuel, dequeue_loop fuel c8state = (none, c8state) := by
  intro fuel
  induction fuel with
  | zero => rfl
  | succ n ih =>
    show dequeue_loop (n + 1) c8state = (none, c8state)
    rw [dequeue_loop, c8_loop_body_fixed]
    have hd : c8state.done = [] := by decide
    rw [hd]
    exact ih

/-- C8. A reachable state (three priority-0 items, one dequeue, then a remove
of the item that was staged into `done` with a stale IMMEDIATE location tag)
on which `size = 1` yet `priorityq_dequeue` loops forever: every iteration
leaves the state unchanged and `done` empty, so no amount of fuel makes it
return an item — the dequeue does not terminate although `size > 0`. -/
theorem c8_dequeue_diverges :
    c8state.size = 1 ∧ c8state.immediate ≠ [] ∧
    ∀ fuel, priorityq_dequeue c8state fuel = (none, c8state) := by
  refine ⟨by decide, by decide, fun fuel => ?_⟩
  unfold priorityq_dequeue
  rw [if_pos (by decide : c8state.size ≠ 0), c8_loop_diverges fuel]

/-- C10. `priorityq_remove` is idempotent: a second remove of the same item
finds null links and changes nothing, and removing an item that is in no list
(`location NONE`, null links) leaves queue and item untouched. -/
theorem c10_remove_idempotent (q : PQ) (i : Pid) :
    priorityq_remove (priorityq_remove q i) i = priorityq_remove q i ∧
    ((q.items i).linked = false → priorityq_remove q i = q) := by
  constructor
  · by_cases h : (q.items i).linked = true
    · have h2 : ((priorityq_remove q i).items i).linked = false := by
        unfold priorityq_remove
        rw [if_pos h]
        cases hloc : (q.items i).loc <;> simp [upd]
      conv_lhs => rw [priorityq_remove]
      rw [if_neg]
      rw [h2]
      simp
    · have hf : (q.items i).linked = false := by
        cases hl : (q.items i).linked
        · rfl
        · exact absurd hl h
      have hq : priorityq_remove q i = q := by
        unfold priorityq_remove
        rw [if_neg]
        rw [hf]
        simp
      rw [hq]
      exact hq
  · intro hf
    unfold priorityq_remove
    rw [if_neg]
    rw [hf]
    simp

/-- C10 witness: in the fresh queue item 0 has null links, and removing it
changes nothing. -/
theorem c10_remove_idempotent_witness :
    (priorityq_init.items 0).linked = false ∧
    priorityq_remove priorityq_init 0 = priorityq_init :=
  ⟨rfl, (c10_remove_idempotent priorityq_init 0).2 rfl⟩

/-- C3, amended. For every priority `p ∈ [0,128]` (128 = urgent), an item `x`
enqueued into a freshly initialized queue that already holds two urgent items
is returned by one of the first 128 dequeues of the adversarial schedule that
enqueues two fresh urgent items before every dequeue. -/
theorem c3_amended_no_starvation (p : Nat) (hp : p ≤ 128) :
    c3found 2 128 3
      (enqueueWith (enqueueWith (enqueueWith priorityq_init 0 128) 1 128) 2 p) = true := by
  revert p hp
  decide

/-- C3 witness: the amended theorem applied at priority 64. -/
theorem c3_amended_no_starvation_witness :
    (64 : Nat) ≤ 128 ∧
    c3found 2 128 3
      (enqueueWith (enqueueWith (enqueueWith priorityq_init 0 128) 1 128) 2 64) = true :=
  ⟨by decide, c3_amended_no_starvation 64 (by decide)⟩

/-- Helper for C6: under the no-op conditions the enqueue falls through to
the fresh-enqueue path after unlinking and decrementing `size_q`, `size`. -/
theorem enqueue_replaces (q : PQ) (i : Pid)
    (hl : (q.items i).linked = true) (hu : ¬(q.items i).urg = true)
    (hd : ¬(q.items i).loc = Loc.done)
    (hc : ¬((q.items i).loc = Loc.imed ∨
        ((q.items i).abs : Int) ≥ ((q.items i).rel : Int) - (q.pc : Int))) :
    priorityq_enqueue q i =
      freshNq { eraseFromLists q i with
                  size_q := dec32 (eraseFromLists q i).size_q,
                  size := dec32 (eraseFromLists q i).size } i := by
  unfold priorityq_enqueue
  rw [if_neg hd, if_pos hl, if_neg hu, if_neg hc]

/-- Helper for C6: when it re-places the item, the enqueue stores a relative
priority strictly below the old one, so the state really changes. -/
theorem enqueue_changes_rel (q : PQ) (i : Pid)
    (hl : (q.items i).linked = true) (hu : ¬(q.items i).urg = true)
    (hd : ¬(q.items i).loc = Loc.done)
    (hc : ¬((q.items i).loc = Loc.imed ∨
        ((q.items i).abs : Int) ≥ ((q.items i).rel : Int) - (q.pc : Int))) :
    ((priorityq_enqueue q i).items i).rel ≠ (q.items i).rel := by
  have hlt : (q.items i).abs + q.pc < (q.items i).rel := by
    rcases not_or.1 hc with ⟨-, h2⟩
    have : ((q.items i).abs : Int) < ((q.items i).rel : Int) - (q.pc : Int) := lt_of_not_ge h2
    omega
  rw [enqueue_replaces q i hl hu hd hc]
  by_cases ha : (q.items i).abs ≠ 0
  · have hrw : ((freshNq { eraseFromLists q i with
        size_q := dec32 (eraseFromLists q i).size_q,
        size := dec32 (eraseFromLists q i).size } i).items i).rel
          = (if (q.items i).abs + q.pc ≥ 256 then (q.items i).abs + q.pc - 256
             else (q.items i).abs + q.pc) := by
      simp [freshNq, eraseFromLists, priorityq_nq_only, upd, ha]
    rw [hrw]
    intro hrel
    by_cases hof : (q.items i).abs + q.pc ≥ 256
    · rw [if_pos hof] at hrel; omega
    · rw [if_neg hof] at hrel; omega
  · have hb : (q.items i).urg = false := by
      cases hv : (q.items i).urg
      · rfl
      · exact absurd hv hu
    have hrw : ((freshNq { eraseFromLists q i with
        size_q := dec32 (eraseFromLists q i).size_q,
        size := dec32 (eraseFromLists q i).size } i).items i).rel = q.pc := by
      simp [freshNq, eraseFromLists, upd, ha, hb]
    rw [hrw]
    intro hrel
    omega

/-- C6, amended. For an item already linked into the queue being re-enqueued
with a non-urgent setting, the enqueue is a no-op exactly when its location is
DONE or IMMEDIATE or the new absolute priority is at least `rel - pc` as a
signed (int-promoted) difference — in particular always a no-op when
`rel ≤ pc`, i.e. for wrapped items — and otherwise the item is unlinked from
its bucket (decrementing `size_q` and `size`) and re-enqueued along the
fresh-enqueue path; an urgent re-enqueue of an item whose location is not DONE
unlinks it and appends it to the tail of `done`. -/
theorem c6_amended_reprioritize (q : PQ) (i : Pid) (hl : (q.items i).linked = true) :
    ((q.items i).urg = false →
      ((priorityq_enqueue q i = q ↔
          (q.items i).loc = Loc.done ∨ (q.items i).loc = Loc.imed ∨
            ((q.items i).abs : Int) ≥ ((q.items i).rel : Int) - (q.pc : Int)) ∧
        (¬(q.items i).loc = Loc.done →
          ¬((q.items i).loc = Loc.imed ∨
              ((q.items i).abs : Int) ≥ ((q.items i).rel : Int) - (q.pc : Int)) →
          priorityq_enqueue q i =
            freshNq { eraseFromLists q i with
                        size_q := dec32 (eraseFromLists q i).size_q,
                        size := dec32 (eraseFromLists q i).size } i))) ∧
    ((q.items i).urg = true → ¬(q.items i).loc = Loc.done →
      (priorityq_enqueue q i).done = (eraseFromLists q i).done ++ [i] ∧
      ((priorityq_enqueue q i).items i).loc = Loc.done) := by
  constructor
  · intro hu0
    have hu : ¬(q.items i).urg = true := by rw [hu0]; simp
    constructor
    · constructor
      · intro he
        by_contra hn
        rcases not_or.1 hn with ⟨hd, hc⟩
        exact enqueue_changes_rel q i hl hu hd hc (by rw [he])
      · intro hcase
        rcases hcase with hd | hc
        · unfold priorityq_enqueue
          rw [if_pos hd]
        · by_cases hd : (q.items i).loc = Loc.done
          · unfold priorityq_enqueue
            rw [if_pos hd]
          · unfold priorityq_enqueue
            rw [if_neg hd, if_pos hl, if_neg hu, if_pos hc]
    · intro hd hc
      exact enqueue_replaces q i hl hu hd hc
  · intro hu hd
    unfold priorityq_enqueue
    rw [if_neg hd, if_pos hl, if_pos hu]
    constructor
    · by_cases hi : (q.items i).loc = Loc.imed
      · simp [hi, eraseFromLists]
      · simp [hi, eraseFromLists]
    · by_cases hi : (q.items i).loc = Loc.imed
      · simp [hi, upd]
      · simp [hi, upd]

/-- C6 witness: a fresh non-urgent item of priority 5 (relative priority 5,
bucket bank) re-enqueued with priority 5 is a no-op by the signed comparison,
and re-enqueued as urgent moves to the tail of `done`. -/
theorem c6_amended_reprioritize_witness :
    (((enqueueWith priorityq_init 0 5).items 0).linked = true ∧
      ((enqueueWith priorityq_init 0 5).items 0).urg = false) ∧
    (priorityq_enqueue (enqueueWith priorityq_init 0 5) 0 = enqueueWith priorityq_init 0 5) :=
  ⟨⟨by decide, by decide⟩,
    ((c6_amended_reprioritize (enqueueWith priorityq_init 0 5) 0 (by decide)).1
        (by decide)).1.2 (Or.inr (Or.inr (by decide)))⟩

/-- C6, counterexample. A reachable wrapped bucket item: counter primed to
131, item 1 enqueued with priority 126 (relative priority 1, bucket bank,
location Q). Re-setting its priority to 100 and enqueueing is claimed to
re-place it, because `100 < (rel - pc) mod 256 = (1 - 131) mod 256 = 126`;
but the code compares the promoted ints `100 >= 1 - 131` and does nothing. -/
theorem c6_counterexample :
    (c6arg.items 1).loc = Loc.q ∧ (c6arg.items 1).linked = true ∧
    (c6arg.items 1).rel = 1 ∧ c6arg.pc = 131 ∧ (c6arg.items 1).abs = 100 ∧
    (((c6arg.items 1).rel + 256 - c6arg.pc) % 256 = 126 ∧ ¬(100 : Nat) ≥ 126) ∧
    priorityq_enqueue c6arg 1 = c6arg := by
  refine ⟨by decide, by decide, by decide, by decide, by decide, ⟨by decide, by decide⟩, ?_⟩
  unfold priorityq_enqueue
  rw [if_neg (by decide : ¬(c6arg.items 1).loc = Loc.done),
      if_pos (by decide : (c6arg.items 1).linked = true),
      if_neg (by decide : ¬(c6arg.items 1).urg = true),
      if_pos]
  right
  decide


theorem advGo_zero (bins : List (List Pid)) (pc idx : Nat) :
    advGo bins pc idx 0 = idx := rfl

theorem advGo_succ (bins : List (List Pid)) (pc idx r : Nat) :
    advGo bins pc idx (r + 1) =
      if bins.getD idx [] ≠ [] ∧ (pc >>> idx) % 2 = 0 then idx
      else advGo bins pc (idx + 1) r := rfl

theorem getD_set_self {α : Type} (l : List α) (j : Nat) (a d : α) (h : j < l.length) :
    (l.set j a).getD j d = a := by
  induction l generalizing j with
  | nil => simp at h
  | cons x xs ih =>
    cases j with
    | zero => rfl
    | succ n => exact ih n (by simpa using h)

theorem getD_set_ne {α : Type} (l : List α) (j k : Nat) (a d : α) (h : k ≠ j) :
    (l.set j a).getD k d = l.getD k d := by
  induction l generalizing j k with
  | nil => simp [List.set]
  | cons x xs ih =>
    cases j with
    | zero =>
      cases k with
      | zero => exact absurd rfl h
      | succ m => rfl
    | succ n =>
      cases k with
      | zero => rfl
      | succ m => exact ih n m (fun hh => h (by rw [hh]))

theorem splice_spec (q : PQ) (j : Nat) :
    (splice q j).pc = q.pc ∧ (splice q j).counter_imed = q.counter_imed ∧
    (splice q j).size = q.size ∧ (splice q j).size_done = q.size_done ∧
    (splice q j).size_imed = q.size_imed ∧ (splice q j).size_q = q.size_q ∧
    (splice q j).done = q.done ∧ (splice q j).immediate = q.immediate ∧
    (splice q j).items = q.items ∧ (splice q j).bins.length = q.bins.length ∧
    (splice q j).processing = q.processing ++ q.bins.getD j [] ∧
    ∀ k, (splice q j).bins.getD k [] = if k = j then [] else q.bins.getD k [] := by
  by_cases h : q.bins.getD j [] = []
  · unfold splice
    rw [if_pos h]
    refine ⟨rfl, rfl, rfl, rfl, rfl, rfl, rfl, rfl, rfl, rfl, by rw [h, List.append_nil], ?_⟩
    intro k
    by_cases hk : k = j
    · rw [if_pos hk, hk, h]
    · rw [if_neg hk]
  · have hj : j < q.bins.length := by
      by_contra hge
      exact h (List.getD_eq_default _ _ (Nat.le_of_not_lt hge))
    unfold splice
    rw [if_neg h]
    refine ⟨rfl, rfl, rfl, rfl, rfl, rfl, rfl, rfl, rfl, by simp, rfl, ?_⟩
    intro k
    by_cases hk : k = j
    · rw [if_pos hk, hk]
      exact getD_set_self _ _ _ _ hj
    · rw [if_neg hk]
      exact getD_set_ne _ _ _ _ _ hk

theorem spliceBits_spec : ∀ (fuel : Nat) (q : PQ) (idx bits : Nat),
    (spliceBits fuel q idx bits).pc = q.pc ∧
    (spliceBits fuel q idx bits).counter_imed = q.counter_imed ∧
    (spliceBits fuel q idx bits).size = q.size ∧
    (spliceBits fuel q idx bits).size_done = q.size_done ∧
    (spliceBits fuel q idx bits).size_imed = q.size_imed ∧
    (spliceBits fuel q idx bits).size_q = q.size_q ∧
    (spliceBits fuel q idx bits).done = q.done ∧
    (spliceBits fuel q idx bits).immediate = q.immediate ∧
    (spliceBits fuel q idx bits).items = q.items ∧
    (spliceBits fuel q idx bits).bins.length = q.bins.length ∧
    (spliceBits fuel q idx bits).processing = q.processing ++
      ((List.range' idx fuel).filter
          (fun j => decide ((bits >>> (j - idx)) % 2 = 1))).flatMap
        (fun j => q.bins.getD j []) ∧
    ∀ k, (spliceBits fuel q idx bits).bins.getD k []
      = if idx ≤ k ∧ k < idx + fuel ∧ (bits >>> (k - idx)) % 2 = 1
        then [] else q.bins.getD k [] := by
  intro fuel
  induction fuel with
  | zero =>
    intro q idx bits
    refine ⟨rfl, rfl, rfl, rfl, rfl, rfl, rfl, rfl, rfl, rfl, by simp [spliceBits], ?_⟩
    intro k
    have hnc : ¬(idx ≤ k ∧ k < idx + 0 ∧ (bits >>> (k - idx)) % 2 = 1) := by
      rintro ⟨h1, h2, -⟩
      omega
    rw [if_neg hnc]
    rfl
  | succ fuel ih =>
    intro q idx bits
    by_cases hb : bits = 0
    · have hz : ∀ j : Nat, (bits >>> (j - idx)) % 2 = 0 := by
        intro j
        rw [hb]
        simp
      unfold spliceBits
      rw [if_pos hb]
      refine ⟨rfl, rfl, rfl, rfl, rfl, rfl, rfl, rfl, rfl, rfl, ?_, ?_⟩
      · have hfe : ((List.range' idx (fuel + 1)).filter
            (fun j => decide ((bits >>> (j - idx)) % 2 = 1))) = [] := by
          apply List.filter_eq_nil_iff.2
          intro j _
          simp [hz j]
        rw [hfe, List.flatMap_nil, List.append_nil]
      · intro k
        have hnc : ¬(idx ≤ k ∧ k < idx + (fuel + 1) ∧ (bits >>> (k - idx)) % 2 = 1) := by
          rintro ⟨-, -, h3⟩
          rw [hz k] at h3
          exact absurd h3 (by simp)
        rw [if_neg hnc]
    · unfold spliceBits
      rw [if_neg hb]
      have hsp := splice_spec q idx
      set q1 := if bits % 2 = 1 then splice q idx else q with hq1
      have h1pc : q1.pc = q.pc := by
        rw [hq1]; split
        · exact hsp.1
        · rfl
      have h1ci : q1.counter_imed = q.counter_imed := by
        rw [hq1]; split
        · exact hsp.2.1
        · rfl
      have h1s : q1.size = q.size := by
        rw [hq1]; split
        · exact hsp.2.2.1
        · rfl
      have h1sd : q1.size_done = q.size_done := by
        rw [hq1]; split
        · exact hsp.2.2.2.1
        · rfl
      have h1si : q1.size_imed = q.size_imed := by
        rw [hq1]; split
        · exact hsp.2.2.2.2.1
        · rfl
      have h1sq : q1.size_q = q.size_q := by
        rw [hq1]; split
        · exact hsp.2.2.2.2.2.1
        · rfl
      have h1d : q1.done = q.done := by
        rw [hq1]; split
        · exact hsp.2.2.2.2.2.2.1
        · rfl
      have h1im : q1.immediate = q.immediate := by
        rw [hq1]; split
        · exact hsp.2.2.2.2.2.2.2.1
        · rfl
      have h1it : q1.items = q.items := by
        rw [hq1]; split
        · exact hsp.2.2.2.2.2.2.2.2.1
        · rfl
      have h1len : q1.bins.length = q.bins.length := by
        rw [hq1]; split
        · exact hsp.2.2.2.2.2.2.2.2.2.1
        · rfl
      have h1pr : q1.processing
          = q.processing ++ (if bits % 2 = 1 then q.bins.getD idx [] else []) := by
        rw [hq1]; split
        · exact hsp.2.2.2.2.2.2.2.2.2.2.1
        · simp
      have h1bins : ∀ k, k ≠ idx → q1.bins.getD k [] = q.bins.getD k [] := by
        intro k hk
        rw [hq1]; split
        · rw [hsp.2.2.2.2.2.2.2.2.2.2.2 k, if_neg hk]
        · rfl
      have h1bidx : q1.bins.getD idx []
          = if bits % 2 = 1 then [] else q.bins.getD idx [] := by
        rw [hq1]; split
        · rw [hsp.2.2.2.2.2.2.2.2.2.2.2 idx]
          simp
        · rfl
      obtain ⟨i1, i2, i3, i4, i5, i6, i7, i8, i9, i10, i11, i12⟩ := ih q1 (idx + 1) (bits >>> 1)
      refine ⟨i1.trans h1pc, i2.trans h1ci, i3.trans h1s, i4.trans h1sd, i5.trans h1si,
        i6.trans h1sq, i7.trans h1d, i8.trans h1im, i9.trans h1it, i10.trans h1len, ?_, ?_⟩
      · rw [i11, h1pr]
        have hshift : ∀ j, idx + 1 ≤ j →
            ((bits >>> 1) >>> (j - (idx + 1))) % 2 = (bits >>> (j - idx)) % 2 := by
          intro j hj
          rw [← Nat.shiftRight_add]
          congr 2
          omega
        have hfc : (List.range' (idx + 1) fuel).filter
              (fun j => decide (((bits >>> 1) >>> (j - (idx + 1))) % 2 = 1))
            = (List.range' (idx + 1) fuel).filter
              (fun j => decide ((bits >>> (j - idx)) % 2 = 1)) := by
          apply List.filter_congr
          intro j hj
          have hmem := (List.mem_range'_1.1 hj).1
          rw [hshift j hmem]
        have hbc : ∀ l : List Nat, (∀ j ∈ l, idx + 1 ≤ j) →
            l.flatMap (fun j => q1.bins.getD j []) = l.flatMap (fun j => q.bins.getD j []) := by
          intro l
          induction l with
          | nil => intro _; rfl
          | cons x xs ihl =>
            intro hall
            have hx : x ≠ idx := by
              have := hall x (List.mem_cons_self x xs)
              omega
            rw [List.flatMap_cons, List.flatMap_cons, h1bins x hx,
              ihl (fun j hj => hall j (List.mem_cons_of_mem x hj))]
        rw [hfc, hbc _ (fun j hj => (List.mem_range'_1.1 ((List.mem_filter.1 hj).1)).1),
          List.range'_succ idx fuel 1]
        simp only [List.filter_cons, Nat.sub_self, Nat.shiftRight_zero]
        by_cases hbit : bits % 2 = 1
        · have hdec : decide (bits % 2 = 1) = true := by simp [hbit]
          rw [if_pos hbit, if_pos hdec, List.flatMap_cons, List.append_assoc]
        · have hdec : ¬decide (bits % 2 = 1) = true := by simp [hbit]
          rw [if_neg hbit, if_neg hdec, List.append_nil]
      · intro k
        rw [i12 k]
        by_cases hk : k = idx
        · subst hk
          rw [if_neg (by omega), h1bidx]
          by_cases hbit : bits % 2 = 1
          · rw [if_pos hbit, if_pos]
            refine ⟨Nat.le_refl _, by omega, ?_⟩
            simpa [Nat.shiftRight_zero] using hbit
          · rw [if_neg hbit, if_neg]
            rintro ⟨-, -, h3⟩
            simp only [Nat.sub_self, Nat.shiftRight_zero] at h3
            exact hbit h3
        · rw [h1bins k hk]
          by_cases hgt : idx + 1 ≤ k
          · by_cases hc : idx + 1 ≤ k ∧ k < idx + 1 + fuel ∧
                ((bits >>> 1) >>> (k - (idx + 1))) % 2 = 1
            · rw [if_pos hc, if_pos]
              obtain ⟨c1, c2, c3⟩ := hc
              refine ⟨by omega, by omega, ?_⟩
              rw [← Nat.shiftRight_add] at c3
              have he : 1 + (k - (idx + 1)) = k - idx := by omega
              rwa [he] at c3
            · rw [if_neg hc, if_neg]
              rintro ⟨d1, d2, d3⟩
              apply hc
              refine ⟨hgt, by omega, ?_⟩
              rw [← Nat.shiftRight_add]
              have he : 1 + (k - (idx + 1)) = k - idx := by omega
              rwa [he]
          · rw [if_neg (by omega), if_neg (by omega)]

theorem advGo_spec : ∀ (rem idx : Nat) (bins : List (List Pid)) (pc : Nat),
    idx ≤ advGo bins pc idx rem ∧ advGo bins pc idx rem ≤ idx + rem ∧
    (∀ j, idx ≤ j → j < advGo bins pc idx rem →
      ¬(bins.getD j [] ≠ [] ∧ (pc >>> j) % 2 = 0)) ∧
    (advGo bins pc idx rem < idx + rem →
      (bins.getD (advGo bins pc idx rem) [] ≠ [] ∧
        (pc >>> (advGo bins pc idx rem)) % 2 = 0)) := by
  intro rem
  induction rem with
  | zero =>
    intro idx bins pc
    rw [advGo_zero]
    refine ⟨Nat.le_refl _, by omega, ?_, ?_⟩
    · intro j h1 h2
      omega
    · intro h
      omega
  | succ rem ih =>
    intro idx bins pc
    rw [advGo_succ]
    by_cases h : bins.getD idx [] ≠ [] ∧ (pc >>> idx) % 2 = 0
    · rw [if_pos h]
      refine ⟨Nat.le_refl _, by omega, ?_, fun _ => h⟩
      intro j h1 h2
      omega
    · rw [if_neg h]
      obtain ⟨g1, g2, g3, g4⟩ := ih (idx + 1) bins pc
      refine ⟨by omega, by omega, ?_, ?_⟩
      · intro j h1 h2
        by_cases hj : j = idx
        · rw [hj]
          exact h
        · exact g3 j (by omega) h2
      · intro hlt
        exact g4 (by omega)

theorem flatMap_congr_mem {α β : Type} (l : List α) (f g : α → List β)
    (h : ∀ x ∈ l, f x = g x) : l.flatMap f = l.flatMap g := by
  induction l with
  | nil => rfl
  | cons x xs ih =>
    rw [List.flatMap_cons, List.flatMap_cons, h x (List.mem_cons_self x xs),
      ih (fun y hy => h y (List.mem_cons_of_mem x hy))]

theorem advBits_lt (pc newpc : Nat) : advBits pc newpc < 256 := by
  unfold advBits
  have h1 : (pc ^^^ newpc) &&& 128 < 256 := by
    have := Nat.and_le_right (n := pc ^^^ newpc) (m := 128)
    omega
  have h2 : ((255 ^^^ pc) &&& newpc) &&& 127 < 256 := by
    have := Nat.and_le_right (n := (255 ^^^ pc) &&& newpc) (m := 127)
    omega
  exact Nat.or_lt_two_pow (n := 8) h1 h2

theorem bit_high_zero (x k : Nat) (hx : x < 256) (hk : 8 ≤ k) : (x >>> k) % 2 = 0 := by
  have hz : x >>> k = 0 := by
    rw [Nat.shiftRight_eq_div_pow]
    apply Nat.div_eq_of_lt
    calc x < 256 := hx
    _ = 2 ^ 8 := by norm_num
    _ ≤ 2 ^ k := Nat.pow_le_pow_right (by norm_num) hk
  rw [hz]

/-- Full characterization of `priorityq_advance_priority_counter`: the new
counter value, the fired-bin set (in the shape the code computes it: bin `i`
plus every `j > i` whose bit is set in the splice mask), the splice order, and
that nothing else changes. -/
theorem advance_spec (q : PQ) (hlen : q.bins.length = 8) (hpc : q.pc < 256) :
    (priorityq_advance_priority_counter q).pc
        = ((q.pc ||| (2 ^ advGo q.bins q.pc 0 7 - 1)) + 1) % 256 ∧
    (priorityq_advance_priority_counter q).counter_imed = q.counter_imed ∧
    (priorityq_advance_priority_counter q).size = q.size ∧
    (priorityq_advance_priority_counter q).size_done = q.size_done ∧
    (priorityq_advance_priority_counter q).size_imed = q.size_imed ∧
    (priorityq_advance_priority_counter q).size_q = q.size_q ∧
    (priorityq_advance_priority_counter q).done = q.done ∧
    (priorityq_advance_priority_counter q).immediate = q.immediate ∧
    (priorityq_advance_priority_counter q).items = q.items ∧
    (priorityq_advance_priority_counter q).bins.length = 8 ∧
    (priorityq_advance_priority_counter q).processing = q.processing ++
      ((List.range' 0 8).filter (fun j => decide (j = advGo q.bins q.pc 0 7 ∨
          (advGo q.bins q.pc 0 7 < j ∧
            ((advBits q.pc (((q.pc ||| (2 ^ advGo q.bins q.pc 0 7 - 1)) + 1) % 256)) >>> j) % 2
              = 1)))).flatMap (fun j => q.bins.getD j []) ∧
    ∀ k, (priorityq_advance_priority_counter q).bins.getD k []
        = if k = advGo q.bins q.pc 0 7 ∨ (advGo q.bins q.pc 0 7 < k ∧
              ((advBits q.pc (((q.pc ||| (2 ^ advGo q.bins q.pc 0 7 - 1)) + 1) % 256)) >>> k) % 2
                = 1)
          then [] else q.bins.getD k [] := by
  obtain ⟨a1, a2, a3, a4⟩ := advGo_spec 7 0 q.bins q.pc
  set i := advGo q.bins q.pc 0 7 with hidef
  have hi7 : i ≤ 7 := by omega
  set newpc := ((q.pc ||| (2 ^ i - 1)) + 1) % 256 with hnp
  have h2i : 2 ^ i - 1 < 256 := by
    have h27 : (2 : Nat) ^ i ≤ 2 ^ 7 := Nat.pow_le_pow_right (by norm_num) hi7
    omega
  have hor : q.pc ||| (2 ^ i - 1) < 256 := Nat.or_lt_two_pow (n := 8) hpc h2i
  have hifm : (if (q.pc ||| (2 ^ i - 1)) + 1 = 256 then 0
      else (q.pc ||| (2 ^ i - 1)) + 1) = newpc := by
    rw [hnp]
    by_cases hs : (q.pc ||| (2 ^ i - 1)) + 1 = 256
    · rw [if_pos hs, hs]
    · rw [if_neg hs, Nat.mod_eq_of_lt (by omega)]
  set B := advBits q.pc newpc with hB
  have hBv : B = ((q.pc ^^^ newpc) &&& 128) ||| (((255 ^^^ q.pc) &&& newpc) &&& 127) := rfl
  have hBlt : B < 256 := advBits_lt _ _
  have hadv : priorityq_advance_priority_counter q
      = { spliceBits 8 (splice q i) (i + 1) (B >>> (i + 1)) with pc := newpc } := by
    rw [hB, ← hifm]
    rfl
  have hsp := splice_spec q i
  have hsb := spliceBits_spec 8 (splice q i) (i + 1) (B >>> (i + 1))
  rw [hadv]
  have hshift : ∀ j, i + 1 ≤ j → ((B >>> (i + 1)) >>> (j - (i + 1))) % 2 = (B >>> j) % 2 := by
    intro j hj
    rw [← Nat.shiftRight_add]
    congr 2
    omega
  refine ⟨rfl, ?_, ?_, ?_, ?_, ?_, ?_, ?_, ?_, ?_, ?_, ?_⟩
  · exact hsb.2.1.trans hsp.2.1
  · exact hsb.2.2.1.trans hsp.2.2.1
  · exact hsb.2.2.2.1.trans hsp.2.2.2.1
  · exact hsb.2.2.2.2.1.trans hsp.2.2.2.2.1
  · exact hsb.2.2.2.2.2.1.trans hsp.2.2.2.2.2.1
  · exact hsb.2.2.2.2.2.2.1.trans hsp.2.2.2.2.2.2.1
  · exact hsb.2.2.2.2.2.2.2.1.trans hsp.2.2.2.2.2.2.2.1
  · exact hsb.2.2.2.2.2.2.2.2.1.trans hsp.2.2.2.2.2.2.2.2.1
  · rw [hsb.2.2.2.2.2.2.2.2.2.1, hsp.2.2.2.2.2.2.2.2.2.1, hlen]
  · -- processing
    rw [hsb.2.2.2.2.2.2.2.2.2.2.1, hsp.2.2.2.2.2.2.2.2.2.2.1]
    have hrsplit : List.range' 0 8 = List.range' 0 i ++ List.range' i (8 - i) := by
      have h := List.range'_append 0 i (8 - i) 1
      simp only [Nat.one_mul, Nat.zero_add] at h
      rw [(by omega : 8 - i + i = 8)] at h
      exact h.symm
    have hrcons : List.range' i (8 - i) = i :: List.range' (i + 1) (7 - i) := by
      have h8 : 8 - i = (7 - i) + 1 := by omega
      rw [h8, List.range'_succ]
    have hfsplit : (List.range' 0 8).filter (fun j => decide (j = i ∨ (i < j ∧ (B >>> j) % 2 = 1)))
        = i :: (List.range' (i + 1) (7 - i)).filter (fun j => decide ((B >>> j) % 2 = 1)) := by
      rw [hrsplit, List.filter_append, hrcons]
      have hf1 : (List.range' 0 i).filter
          (fun j => decide (j = i ∨ (i < j ∧ (B >>> j) % 2 = 1))) = [] := by
        apply List.filter_eq_nil_iff.2
        intro j hj
        have hjlt := (List.mem_range'_1.1 hj).2
        simp only [decide_eq_true_eq]
        omega
      rw [hf1, List.nil_append, List.filter_cons]
      rw [if_pos (decide_eq_true (Or.inl rfl))]
      congr 1
      apply List.filter_congr
      intro j hj
      have hjm := (List.mem_range'_1.1 hj).1
      rw [decide_eq_decide]
      constructor
      · rintro (h | ⟨-, h⟩)
        · omega
        · exact h
      · intro h
        exact Or.inr ⟨by omega, h⟩
    rw [hfsplit, List.flatMap_cons]
    -- left side: splice at i, then spliceBits over range' (i+1) 8
    have hrsplit2 : List.range' (i + 1) 8 = List.range' (i + 1) (7 - i) ++ List.range' 8 (i + 1) := by
      have h := List.range'_append (i + 1) (7 - i) (i + 1) 1
      simp only [Nat.one_mul] at h
      rw [(by omega : i + 1 + (7 - i) = 8)] at h
      exact h.symm
    have hfc : (List.range' (i + 1) 8).filter
          (fun j => decide (((B >>> (i + 1)) >>> (j - (i + 1))) % 2 = 1))
        = (List.range' (i + 1) 8).filter (fun j => decide ((B >>> j) % 2 = 1)) := by
      apply List.filter_congr
      intro j hj
      rw [hshift j (List.mem_range'_1.1 hj).1]
    have hgc : ∀ l : List Nat, (∀ j ∈ l, i + 1 ≤ j) →
        l.flatMap (fun j => (splice q i).bins.getD j []) = l.flatMap (fun j => q.bins.getD j []) := by
      intro l hl
      apply flatMap_congr_mem
      intro j hj
      rw [hsp.2.2.2.2.2.2.2.2.2.2.2 j, if_neg (by have := hl j hj; omega)]
    rw [hfc, hgc _ (fun j hj => (List.mem_range'_1.1 ((List.mem_filter.1 hj).1)).1), hrsplit2,
      List.filter_append, List.flatMap_append]
    have hhigh : ((List.range' 8 (i + 1)).filter
        (fun j => decide ((B >>> j) % 2 = 1))).flatMap (fun j => q.bins.getD j []) = [] := by
      have hfnil : (List.range' 8 (i + 1)).filter (fun j => decide ((B >>> j) % 2 = 1)) = [] := by
        apply List.filter_eq_nil_iff.2
        intro j hj
        have hjm := (List.mem_range'_1.1 hj).1
        simp only [decide_eq_true_eq]
        rw [bit_high_zero B j hBlt hjm]
        omega
      rw [hfnil]
      rfl
    rw [hhigh, List.append_nil, List.append_assoc]
  · -- bins
    intro k
    rw [hsb.2.2.2.2.2.2.2.2.2.2.2 k, hsp.2.2.2.2.2.2.2.2.2.2.2 k]
    by_cases hk : k = i
    · rw [if_neg (by omega), if_pos hk, if_pos (Or.inl hk)]
    · by_cases hklt : k < i
      · rw [if_neg (by omega), if_neg hk, if_neg (by
          rintro (h | ⟨h, -⟩)
          · exact hk h
          · omega)]
      · have hkgt : i + 1 ≤ k := by omega
        by_cases hbit : (B >>> k) % 2 = 1
        · have hk8 : k < 8 := by
            by_contra hge
            rw [bit_high_zero B k hBlt (by omega)] at hbit
            omega
          rw [if_pos ⟨hkgt, by omega, by rw [hshift k hkgt]; exact hbit⟩,
            if_pos (Or.inr ⟨by omega, hbit⟩)]
        · rw [if_neg (by
            rintro ⟨-, -, h3⟩
            rw [hshift k hkgt] at h3
            exact hbit h3), if_neg hk, if_neg (by
            rintro (h | ⟨-, h⟩)
            · exact hk h
            · exact hbit h)]

theorem shift_mod_two_testBit (x k : Nat) :
    Nat.testBit x k = decide ((x >>> k) % 2 = 1) := by
  rw [Nat.testBit_to_div_mod, Nat.shiftRight_eq_div_pow]

theorem advBits_testBit (pc npc j : Nat) (hj : j < 8) :
    ((advBits pc npc >>> j) % 2 = 1 ↔
      ((j < 7 ∧ (pc >>> j) % 2 = 0 ∧ (npc >>> j) % 2 = 1) ∨
        (j = 7 ∧ ¬(pc >>> 7) % 2 = (npc >>> 7) % 2))) := by
  have hb : ∀ x k : Nat, (x >>> k) % 2 = 1 ↔ Nat.testBit x k = true := by
    intro x k
    rw [shift_mod_two_testBit, decide_eq_true_eq]
  have h128 : Nat.testBit 128 j = decide (j = 7) := by
    have h : (128 : Nat) = 2 ^ 7 := by norm_num
    rw [h, Nat.testBit_two_pow, decide_eq_decide]
    omega
  have h127 : Nat.testBit 127 j = decide (j < 7) := by
    have h : (127 : Nat) = 2 ^ 7 - 1 := by norm_num
    rw [h, Nat.testBit_two_pow_sub_one]
  have h255 : Nat.testBit 255 j = true := by
    have h : (255 : Nat) = 2 ^ 8 - 1 := by norm_num
    rw [h, Nat.testBit_two_pow_sub_one]
    exact decide_eq_true hj
  have hbit : Nat.testBit (advBits pc npc) j =
      ((decide ((pc >>> j) % 2 = 1) ^^ decide ((npc >>> j) % 2 = 1)) && decide (j = 7)
        || ((!decide ((pc >>> j) % 2 = 1)) && decide ((npc >>> j) % 2 = 1) && decide (j < 7))) := by
    unfold advBits
    rw [Nat.testBit_or, Nat.testBit_and, Nat.testBit_and, Nat.testBit_and,
      Nat.testBit_xor, Nat.testBit_xor, h128, h127, h255,
      shift_mod_two_testBit pc j, shift_mod_two_testBit npc j, Bool.true_xor]
  rw [hb, hbit]
  by_cases h7 : j = 7
  · subst h7
    by_cases hpv : (pc >>> 7) % 2 = 1 <;> by_cases hnv : (npc >>> 7) % 2 = 1 <;>
      simp [hpv, hnv] <;> omega
  · have h7' : j < 7 := by omega
    by_cases hpv : (pc >>> j) % 2 = 1 <;> by_cases hnv : (npc >>> j) % 2 = 1 <;>
      simp [hpv, hnv, h7, h7'] <;> omega

theorem advBits_bit_iff : ∀ pc < 256, ∀ i < 8, ∀ j < 8,
    ((advBits pc (((pc ||| (2 ^ i - 1)) + 1) % 256) >>> j) % 2 = 1 ↔
      ((j < 7 ∧ (pc >>> j) % 2 = 0 ∧ ((((pc ||| (2 ^ i - 1)) + 1) % 256) >>> j) % 2 = 1) ∨
        (j = 7 ∧ ¬(pc >>> 7) % 2 = ((((pc ||| (2 ^ i - 1)) + 1) % 256) >>> 7) % 2))) :=
  fun pc _ i _ j hj => advBits_testBit pc (((pc ||| (2 ^ i - 1)) + 1) % 256) j hj

/-- C7. Whenever the counter advance runs: the search loop stops at exactly
the lowest bin index in [0,7) whose bin is nonempty and whose `pc` bit is 0
(7 if none); the counter becomes `((pc ||| ((1 <<< i) - 1)) + 1) % 256`; and
the bins spliced onto `processing`, in ascending index order, are exactly bin
`i` together with every bin `j > i` whose bit flips 0-to-1 among the low 7
bits between `pc` and `newpc`, or bin 7 whenever the top bit changes in either
direction. -/
theorem c7_counter_advance_exact (q : PQ) (hlen : q.bins.length = 8) (hpc : q.pc < 256) :
    (∀ j, j < advGo q.bins q.pc 0 7 →
      ¬(q.bins.getD j [] ≠ [] ∧ (q.pc >>> j) % 2 = 0)) ∧
    (advGo q.bins q.pc 0 7 < 7 →
      (q.bins.getD (advGo q.bins q.pc 0 7) [] ≠ [] ∧
        (q.pc >>> advGo q.bins q.pc 0 7) % 2 = 0)) ∧
    advGo q.bins q.pc 0 7 ≤ 7 ∧
    (priorityq_advance_priority_counter q).pc
      = ((q.pc ||| (2 ^ advGo q.bins q.pc 0 7 - 1)) + 1) % 256 ∧
    (priorityq_advance_priority_counter q).processing = q.processing ++
      ((List.range' 0 8).filter (fun j => decide (c7fired q.pc
          (((q.pc ||| (2 ^ advGo q.bins q.pc 0 7 - 1)) + 1) % 256)
          (advGo q.bins q.pc 0 7) j))).flatMap (fun j => q.bins.getD j []) ∧
    ∀ k, k < 8 → (priorityq_advance_priority_counter q).bins.getD k []
      = if c7fired q.pc (((q.pc ||| (2 ^ advGo q.bins q.pc 0 7 - 1)) + 1) % 256)
            (advGo q.bins q.pc 0 7) k
        then [] else q.bins.getD k [] := by
  obtain ⟨a1, a2, a3, a4⟩ := advGo_spec 7 0 q.bins q.pc
  obtain ⟨s1, s2, s3, s4, s5, s6, s7, s8, s9, s10, s11, s12⟩ := advance_spec q hlen hpc
  set i := advGo q.bins q.pc 0 7 with hidef
  have hi8 : i < 8 := by omega
  set newpc := ((q.pc ||| (2 ^ i - 1)) + 1) % 256 with hnp
  have hiff : ∀ j, j < 8 →
      ((j = i ∨ (i < j ∧ ((advBits q.pc newpc) >>> j) % 2 = 1)) ↔ c7fired q.pc newpc i j) := by
    intro j hj
    unfold c7fired
    have hbj := advBits_bit_iff q.pc hpc i hi8 j hj
    rw [hnp]
    constructor
    · rintro (h | ⟨hlt, hbit⟩)
      · exact Or.inl h
      · exact Or.inr ⟨hlt, (hbj.1 (by rw [← hnp]; exact hbit))⟩
    · rintro (h | ⟨hlt, hcase⟩)
      · exact Or.inl h
      · exact Or.inr ⟨hlt, by rw [← hnp]; exact hbj.2 hcase⟩
  refine ⟨fun j hji => a3 j (Nat.zero_le _) hji, fun h7 => a4 (by omega), by omega, s1, ?_, ?_⟩
  · rw [s11]
    congr 2
    apply List.filter_congr
    intro j hj
    have hjm := (List.mem_range'_1.1 hj).2
    rw [decide_eq_decide]
    exact hiff j (by omega)
  · intro k hk
    rw [s12 k]
    by_cases hc : k = i ∨ (i < k ∧ ((advBits q.pc newpc) >>> k) % 2 = 1)
    · rw [if_pos hc, if_pos ((hiff k hk).1 hc)]
    · rw [if_neg hc, if_neg (fun hcc => hc ((hiff k hk).2 hcc))]

/-- C7 witness: the characterization applied to the initial state, where the
search loop runs off the end (index 7) and the counter jumps from 0 to 128. -/
theorem c7_counter_advance_exact_witness :
    priorityq_init.bins.length = 8 ∧ priorityq_init.pc < 256 ∧
    (priorityq_advance_priority_counter priorityq_init).pc
      = ((priorityq_init.pc |||
          (2 ^ advGo priorityq_init.bins priorityq_init.pc 0 7 - 1)) + 1) % 256 :=
  ⟨by decide, by decide,
    (c7_counter_advance_exact priorityq_init (by decide) (by decide)).2.2.2.1⟩

theorem priority_set_urgent (it : Item) : priority_set it 128 = { it with abs := 0, urg := true } := rfl

theorem advImed_noop (q : PQ) (h : q.size_imed = 0) : priorityq_advance_immediates q = q := by
  unfold priorityq_advance_immediates
  rw [if_neg (by omega)]

theorem advPQ_noop (q : PQ) (h : q.size_q = 0) : priorityq_advance_priority_queue q = q := by
  unfold priorityq_advance_priority_queue
  rw [if_neg (by omega)]

theorem dec32_small (n : Nat) (h1 : 1 ≤ n) (h2 : n < M32) : dec32 n = n - 1 := by
  unfold dec32
  rw [if_neg (by omega)]

theorem inc32_small (n : Nat) (h : n + 1 < M32) : inc32 n = n + 1 := by
  unfold M32 at h
  unfold inc32 M32
  rw [if_neg (by omega)]

theorem urg_enqueue_step (q : PQ) (f : List Pid) (i : Pid)
    (hinv : UrgInv q f) (hlen : f.length + 1 < M32) :
    UrgInv (enqueueWith q i 128) (if i ∈ f then f else f ++ [i]) := by
  obtain ⟨h1, h2, h3, h4, h5, h6, h7, h8, h9, h10, h11⟩ := hinv
  unfold enqueueWith
  set qs : PQ := { q with items := upd q.items i (priority_set (q.items i) 128) } with hqs
  have hsetloc : ∀ j, (qs.items j).loc = (q.items j).loc := by
    intro j
    rw [hqs]
    show ((upd q.items i (priority_set (q.items i) 128)) j).loc = _
    unfold upd
    by_cases hj : j = i
    · rw [if_pos hj, priority_set_urgent, hj]
    · rw [if_neg hj]
  have hsetlinked : ∀ j, (qs.items j).linked = (q.items j).linked := by
    intro j
    rw [hqs]
    show ((upd q.items i (priority_set (q.items i) 128)) j).linked = _
    unfold upd
    by_cases hj : j = i
    · rw [if_pos hj, priority_set_urgent, hj]
    · rw [if_neg hj]
  by_cases hm : i ∈ f
  · rw [if_pos hm]
    have hloc : (qs.items i).loc = Loc.done := by rw [hsetloc i]; exact h10 i hm
    have henq : priorityq_enqueue qs i = qs := by
      unfold priorityq_enqueue
      rw [if_pos hloc]
    rw [henq]
    refine ⟨h1, h2, h3, h4, h5, h6, h7, h8, h9, ?_, ?_⟩
    · intro j hj
      rw [hsetloc j]
      exact h10 j hj
    · intro j hj
      rw [hsetloc j, hsetlinked j]
      exact h11 j hj
  · rw [if_neg hm]
    have hloc : (qs.items i).loc = Loc.none := by rw [hsetloc i]; exact (h11 i hm).1
    have hlink : (qs.items i).linked = false := by rw [hsetlinked i]; exact (h11 i hm).2
    have habs : (qs.items i).abs = 0 := by
      rw [hqs]
      show ((upd q.items i (priority_set (q.items i) 128)) i).abs = 0
      unfold upd
      rw [if_pos rfl, priority_set_urgent]
    have hurg : (qs.items i).urg = true := by
      rw [hqs]
      show ((upd q.items i (priority_set (q.items i) 128)) i).urg = true
      unfold upd
      rw [if_pos rfl, priority_set_urgent]
    have henq : priorityq_enqueue qs i = freshNq qs i := by
      unfold priorityq_enqueue
      rw [if_neg (by rw [hloc]; intro hc; cases hc), if_neg (by rw [hlink]; intro hc; cases hc)]
    have hfresh : freshNq qs i =
        { qs with
          items := upd qs.items i ({ qs.items i with rel := qs.pc, loc := Loc.done, linked := true }),
          size_done := inc32 qs.size_done,
          done := qs.done ++ [i],
          size := inc32 qs.size } := by
      unfold freshNq
      rw [if_neg (by rw [habs]; intro hc; exact hc rfl), if_pos hurg]
    rw [henq, hfresh]
    have hqdone : qs.done = f := h1
    have hqsz : qs.size = f.length := h5
    have hqsd : qs.size_done = f.length := h6
    refine ⟨?_, h2, h3, h4, ?_, ?_, h7, h8, ?_, ?_, ?_⟩
    · show qs.done ++ [i] = f ++ [i]
      rw [hqdone]
    · show inc32 qs.size = (f ++ [i]).length
      rw [hqsz, inc32_small _ hlen]
      simp
    · show inc32 qs.size_done = (f ++ [i]).length
      rw [hqsd, inc32_small _ hlen]
      simp
    · exact List.nodup_append_comm.1 (by simp [h9, hm])
    · intro j hj
      show ((upd qs.items i _) j).loc = Loc.done
      unfold upd
      by_cases hji : j = i
      · rw [if_pos hji]
      · rw [if_neg hji]
        rw [hsetloc j]
        rcases List.mem_append.1 hj with hjf | hji2
        · exact h10 j hjf
        · simp at hji2
          exact absurd hji2 hji
    · intro j hj
      have hjf : j ∉ f := fun hc => hj (List.mem_append.2 (Or.inl hc))
      have hji : j ≠ i := fun hc => hj (List.mem_append.2 (Or.inr (by simp [hc])))
      show ((upd qs.items i _) j).loc = Loc.none ∧ ((upd qs.items i _) j).linked = false
      unfold upd
      rw [if_neg hji]
      rw [hsetloc j, hsetlinked j]
      exact h11 j hjf

theorem urg_dequeue_step (fuel : Nat) (q : PQ) (f : List Pid)
    (hinv : UrgInv q f) (hlen : f.length < M32) :
    (priorityq_dequeue q (fuel + 1)).1 = f.head? ∧
    UrgInv (priorityq_dequeue q (fuel + 1)).2 f.tail := by
  obtain ⟨h1, h2, h3, h4, h5, h6, h7, h8, h9, h10, h11⟩ := hinv
  cases f with
  | nil =>
    have hsz : q.size = 0 := by rw [h5]; rfl
    have hres : priorityq_dequeue q (fuel + 1) = (none, q) := by
      unfold priorityq_dequeue
      rw [if_neg (by omega)]
    rw [hres]
    exact ⟨rfl, h1, h2, h3, h4, h5, h6, h7, h8, h9, h10, h11⟩
  | cons x r =>
    have hsz : q.size ≠ 0 := by rw [h5]; simp
    have hstep : priorityq_advance_priority_queue (priorityq_advance_immediates q) = q := by
      rw [advImed_noop q h7, advPQ_noop q h8]
    have hloop : dequeue_loop (fuel + 1) q
        = (some x, { q with
            done := r,
            items := upd q.items x ({ q.items x with linked := false }) }) := by
      simp only [dequeue_loop]
      rw [hstep, h1]
    have hres : priorityq_dequeue q (fuel + 1)
        = (some x, { q with
            done := r,
            items := upd (upd q.items x ({ q.items x with linked := false })) x ({ (upd q.items x ({ q.items x with linked := false })) x with loc := Loc.none }),
            size_done := dec32 q.size_done,
            size := dec32 q.size }) := by
      unfold priorityq_dequeue
      rw [if_pos hsz, hloop]
    rw [hres]
    have hxnr : x ∉ r := by
      have := h9
      simp at this
      exact this.1
    have hlen1 : (1 : Nat) ≤ (x :: r).length := by simp
    refine ⟨rfl, rfl, h2, h3, h4, ?_, ?_, h7, h8, ?_, ?_, ?_⟩
    · show dec32 q.size = r.length
      rw [h5, dec32_small _ hlen1 hlen]
      simp
    · show dec32 q.size_done = r.length
      rw [h6, dec32_small _ hlen1 hlen]
      simp
    · exact (List.nodup_cons.1 h9).2
    · intro j hj
      have hjx : j ≠ x := fun hc => hxnr (hc ▸ hj)
      have hq := h10 j (List.mem_cons_of_mem x hj)
      simpa [upd, hjx] using hq
    · intro j hj
      by_cases hjx : j = x
      · subst hjx
        refine ⟨?_, ?_⟩ <;> simp [upd]
      · have hq := h11 j (fun hc => by
          rcases List.mem_cons.1 hc with hc1 | hc2
          · exact hjx hc1
          · exact hj hc2)
        simpa [upd, hjx] using hq

theorem runUrgent_nil (fuel : Nat) (q : PQ) : runUrgent fuel q [] = [] := rfl

theorem runUrgent_nq (fuel : Nat) (q : PQ) (i : Pid) (rest : List UOp) :
    runUrgent fuel q (UOp.nq i :: rest) = runUrgent fuel (enqueueWith q i 128) rest := rfl

theorem runUrgent_dq (fuel : Nat) (q : PQ) (rest : List UOp) :
    runUrgent fuel q (UOp.dq :: rest)
      = (priorityq_dequeue q (fuel + 1)).1
          :: runUrgent fuel (priorityq_dequeue q (fuel + 1)).2 rest := rfl

theorem fifoRun_nil (f : List Pid) : fifoRun f [] = [] := by
  cases f <;> rfl

theorem fifoRun_nq (f : List Pid) (i : Pid) (rest : List UOp) :
    fifoRun f (UOp.nq i :: rest) = fifoRun (if i ∈ f then f else f ++ [i]) rest := by
  cases f with
  | nil => simp [fifoRun]
  | cons x r => rfl

theorem fifoRun_dq (f : List Pid) (rest : List UOp) :
    fifoRun f (UOp.dq :: rest) = f.head? :: fifoRun f.tail rest := by
  cases f <;> rfl

theorem urg_run (ops : List UOp) : ∀ (q : PQ) (f : List Pid) (fuel : Nat),
    UrgInv q f → f.length + ops.length < M32 →
    runUrgent fuel q ops = fifoRun f ops := by
  induction ops with
  | nil =>
    intro q f fuel hinv hb
    rw [runUrgent_nil, fifoRun_nil]
  | cons op rest ih =>
    intro q f fuel hinv hb
    cases op with
    | nq i =>
      rw [runUrgent_nq, fifoRun_nq]
      have hinv2 := urg_enqueue_step q f i hinv (by simp at hb; omega)
      apply ih _ _ fuel hinv2
      by_cases hm : i ∈ f
      · rw [if_pos hm]
        simp at hb ⊢
        omega
      · rw [if_neg hm]
        simp at hb ⊢
        omega
    | dq =>
      obtain ⟨hfst, hinv2⟩ := urg_dequeue_step fuel q f hinv (by simp at hb; omega)
      rw [runUrgent_dq, fifoRun_dq, hfst,
        ih _ _ fuel hinv2 (by
          have hl := List.length_tail f
          simp at hb
          omega)]

theorem urg_inv_init : UrgInv priorityq_init [] := by
  refine ⟨rfl, rfl, rfl, rfl, rfl, rfl, rfl, rfl, List.nodup_nil, ?_, ?_⟩
  · intro i hi
    cases hi
  · intro i _
    exact ⟨rfl, rfl⟩

/-- C9. A queue fed only urgent items behaves exactly like a plain FIFO:
the result of every dequeue equals the result of the reference first-in
first-out machine, so urgent items are returned in insertion order (an item
enqueued later is dequeued later), re-enqueues being no-ops. -/
theorem c9_urgent_fifo (ops : List UOp) (hops : ops.length < M32) (fuel : Nat) :
    runUrgent fuel priorityq_init ops = fifoRun [] ops :=
  urg_run ops priorityq_init [] fuel urg_inv_init (by simpa using hops)

/-- C9 witness: three urgents with a re-enqueue dequeue in insertion order. -/
theorem c9_urgent_fifo_witness :
    ([UOp.nq 5, UOp.nq 7, UOp.nq 9, UOp.nq 7, UOp.dq, UOp.dq, UOp.dq, UOp.dq].length < M32) ∧
    runUrgent 0 priorityq_init [UOp.nq 5, UOp.nq 7, UOp.nq 9, UOp.nq 7,
        UOp.dq, UOp.dq, UOp.dq, UOp.dq]
      = fifoRun [] [UOp.nq 5, UOp.nq 7, UOp.nq 9, UOp.nq 7, UOp.dq, UOp.dq, UOp.dq, UOp.dq] :=
  ⟨by decide, c9_urgent_fifo [UOp.nq 5, UOp.nq 7, UOp.nq 9, UOp.nq 7,
      UOp.dq, UOp.dq, UOp.dq, UOp.dq] (by decide) 0⟩

/-- C3, counterexample. The claim quantifies over items enqueued "in any
reachable state": start from a fresh queue, enqueue 129 urgent items (ids
0..128), then the watched urgent item `x` = id 129, and run the adversarial
schedule (two fresh urgent enqueues before every dequeue, `c3ops`). The
urgent path is FIFO, so the 128 dequeues return backlog ids 0..127 and `x`
is not returned by any of the first 128 dequeues — the claimed 128-call
bound fails at this reachable state. -/
theorem c3_counterexample :
    runUrgent 63 priorityq_init c3ops = fifoRun [] c3ops ∧
    (fifoRun [] c3ops).length = 128 ∧
    some 129 ∉ fifoRun [] c3ops :=
  ⟨urg_run c3ops priorityq_init [] 63 urg_inv_init (by decide), by decide, by decide⟩

theorem shr_decomp (x k : Nat) : x = 2 ^ k * (x >>> k) + x % 2 ^ k := by
  rw [Nat.shiftRight_eq_div_pow]
  exact (Nat.div_add_mod x (2 ^ k)).symm

theorem shr_succ_decomp (x k : Nat) :
    x >>> k = 2 * (x >>> (k + 1)) + (x >>> k) % 2 := by
  have h : x >>> (k + 1) = (x >>> k) / 2 := Nat.shiftRight_succ x k
  omega

theorem testBit_low (H L n i : Nat) (h : i < n) :
    (2 ^ n * H + L).testBit i = L.testBit i := by
  rw [Nat.testBit_to_div_mod, Nat.testBit_to_div_mod]
  have hn : 2 ^ n = 2 ^ i * 2 ^ (n - i) := by
    rw [← Nat.pow_add]
    congr 1
    omega
  have hdd : (2 ^ n * H + L) / 2 ^ i = L / 2 ^ i + 2 ^ (n - i) * H := by
    have hm : 2 ^ n * H = 2 ^ (n - i) * H * 2 ^ i := by rw [hn]; ring
    rw [hm, Nat.add_comm, Nat.add_mul_div_right _ _ (Nat.two_pow_pos i)]
  have he : 2 ^ (n - i) * H = 2 * (2 ^ (n - i - 1) * H) := by
    obtain ⟨d, hd⟩ : ∃ d, n - i = d + 1 := ⟨n - i - 1, by omega⟩
    rw [hd, Nat.add_sub_cancel, Nat.pow_succ]
    ring
  rw [hdd, decide_eq_decide]
  omega

theorem testBit_high (H L n i : Nat) (hL : L < 2 ^ n) (h : n ≤ i) :
    (2 ^ n * H + L).testBit i = H.testBit (i - n) := by
  rw [Nat.testBit_to_div_mod, Nat.testBit_to_div_mod]
  have hdd : (2 ^ n * H + L) / 2 ^ i = H / 2 ^ (i - n) := by
    have hn : 2 ^ i = 2 ^ n * 2 ^ (i - n) := by
      rw [← Nat.pow_add]
      congr 1
      omega
    rw [hn, ← Nat.div_div_eq_div_mul, Nat.mul_add_div (Nat.two_pow_pos n),
      Nat.div_eq_of_lt hL, Nat.add_zero]
  rw [hdd]

theorem or_low_ones (x n : Nat) : x ||| (2 ^ n - 1) = 2 ^ n * (x >>> n) + (2 ^ n - 1) := by
  apply Nat.eq_of_testBit_eq
  intro i
  rw [Nat.testBit_or, Nat.testBit_two_pow_sub_one]
  by_cases h : i < n
  · rw [testBit_low _ _ _ _ h, Nat.testBit_two_pow_sub_one]
    simp [h]
  · have hn : n ≤ i := by omega
    rw [testBit_high _ _ _ _ (by have := Nat.two_pow_pos n; omega) hn, Nat.testBit_shiftRight]
    have hni : n + (i - n) = i := by omega
    rw [hni]
    simp [h]

theorem newpc_decomp (pc i : Nat) (h : (pc >>> i) % 2 = 0) :
    (pc ||| (2 ^ i - 1)) + 1 = 2 ^ (i + 1) * (pc >>> (i + 1)) + 2 ^ i := by
  have hA : pc >>> i = 2 * (pc >>> (i + 1)) := by
    have := shr_succ_decomp pc i
    omega
  have hpos := Nat.two_pow_pos i
  rw [or_low_ones, hA, Nat.pow_succ]
  have h3 : 2 ^ i * (2 * (pc >>> (i + 1))) = 2 ^ i * 2 * (pc >>> (i + 1)) := by ring
  omega

theorem bit_compare (r p b : Nat) (hhi : r >>> (b + 1) = p >>> (b + 1))
    (hr : (r >>> b) % 2 = 1) (hp : (p >>> b) % 2 = 0) : p < r := by
  have h1 := shr_decomp r b
  have h2 := shr_decomp p b
  have h3 := shr_succ_decomp r b
  have h4 := shr_succ_decomp p b
  have h5 : p % 2 ^ b < 2 ^ b := Nat.mod_lt _ (Nat.two_pow_pos b)
  have hpos := Nat.two_pow_pos b
  rw [hhi] at h3
  -- r ≥ 2^b*(2A+1), p < 2^b*(2A) + 2^b with A := p >>> (b+1)
  have hr' : r ≥ 2 ^ b * (2 * (p >>> (b + 1)) + 1) := by
    calc r = 2 ^ b * (r >>> b) + r % 2 ^ b := h1
    _ ≥ 2 ^ b * (r >>> b) := by omega
    _ = 2 ^ b * (2 * (p >>> (b + 1)) + 1) := by rw [h3, hr]
  have hp' : p < 2 ^ b * (2 * (p >>> (b + 1)) + 1) := by
    calc p = 2 ^ b * (p >>> b) + p % 2 ^ b := h2
    _ = 2 ^ b * (2 * (p >>> (b + 1))) + p % 2 ^ b := by rw [h4, hp]; ring_nf
    _ < 2 ^ b * (2 * (p >>> (b + 1))) + 2 ^ b := by omega
    _ = 2 ^ b * (2 * (p >>> (b + 1)) + 1) := by ring
  omega

theorem hiGo_spec : ∀ fuel n : Nat, 1 ≤ n → n < 2 ^ fuel →
    2 ^ hiGo fuel n ≤ n ∧ n < 2 ^ (hiGo fuel n + 1) := by
  intro fuel
  induction fuel with
  | zero =>
    intro n h1 h2
    simp at h2
    omega
  | succ f ih =>
    intro n h1 h2
    by_cases hn : n ≥ 2
    · have hstep : hiGo (f + 1) n = hiGo f (n / 2) + 1 := by
        show (if n ≥ 2 then hiGo f (n / 2) + 1 else 0) = _
        rw [if_pos hn]
      have hd1 : 1 ≤ n / 2 := by omega
      have hd2 : n / 2 < 2 ^ f := by
        rw [Nat.pow_succ] at h2
        omega
      obtain ⟨ha, hb⟩ := ih (n / 2) hd1 hd2
      rw [hstep]
      constructor
      · rw [Nat.pow_succ]
        omega
      · rw [Nat.pow_succ, Nat.pow_succ] at *
        omega
    · have hn1 : n = 1 := by omega
      have hstep : hiGo (f + 1) n = 0 := by
        show (if n ≥ 2 then hiGo f (n / 2) + 1 else 0) = _
        rw [if_neg hn]
      rw [hstep, hn1]
      norm_num

theorem high_spec (n : Nat) (h1 : 1 ≤ n) (h2 : n < 4294967296) :
    2 ^ get_high_index32 n ≤ n ∧ n < 2 ^ (get_high_index32 n + 1) := by
  have h : (4294967296 : Nat) = 2 ^ 32 := by norm_num
  exact hiGo_spec 32 n h1 (by omega)

theorem high_lt (n k : Nat) (h1 : 1 ≤ n) (hk : k ≤ 32) (h2 : n < 2 ^ k) :
    get_high_index32 n < k := by
  have hb : n < 4294967296 := by
    have : (2 : Nat) ^ k ≤ 2 ^ 32 := Nat.pow_le_pow_right (by norm_num) hk
    have : (2 : Nat) ^ 32 = 4294967296 := by norm_num
    omega
  obtain ⟨ha, hbb⟩ := high_spec n h1 hb
  by_contra hc
  have hkk : k ≤ get_high_index32 n := by omega
  have : (2 : Nat) ^ k ≤ 2 ^ get_high_index32 n := Nat.pow_le_pow_right (by norm_num) hkk
  omega

theorem testBit_arith (x k : Nat) : x.testBit k = decide ((x >>> k) % 2 = 1) := by
  rw [Nat.testBit_to_div_mod, Nat.shiftRight_eq_div_pow]

theorem enqAll_nil (q : PQ) : enqAll q [] = q := rfl

theorem enqAll_cons (q : PQ) (e : Pid × Nat) (rest : List (Pid × Nat)) :
    enqAll q (e :: rest) = enqAll (enqueueWith q e.1 e.2) rest := rfl

theorem drainAll_zero (fuel : Nat) (q : PQ) : drainAll 0 fuel q = [] := rfl

theorem drainAll_succ (n fuel : Nat) (q : PQ) :
    drainAll (n + 1) fuel q
      = match priorityq_dequeue q fuel with
        | (some i, q2) => i :: drainAll n fuel q2
        | (none, _) => [] := rfl

theorem range8_split (idx : Nat) (h : idx < 8) :
    List.range 8 = List.range idx ++ idx :: List.range' (idx + 1) (7 - idx) := by
  rw [List.range_eq_range', List.range_eq_range']
  have h1 := List.range'_append 0 idx (8 - idx) 1
  simp only [Nat.one_mul, Nat.zero_add] at h1
  rw [(by omega : 8 - idx + idx = 8)] at h1
  rw [← h1]
  congr 1
  have h2 : 8 - idx = (7 - idx) + 1 := by omega
  rw [h2, List.range'_succ]

theorem flat_set_perm (bs : List (List Pid)) (idx : Nat) (h8 : idx < 8)
    (hlen : bs.length = 8) (i : Pid) :
    ((List.range 8).flatMap (fun b => (bs.set idx (bs.getD idx [] ++ [i])).getD b [])).Perm
      (((List.range 8).flatMap (fun b => bs.getD b [])) ++ [i]) := by
  rw [range8_split idx h8]
  rw [List.flatMap_append, List.flatMap_cons, List.flatMap_append, List.flatMap_cons]
  have hA : (List.range idx).flatMap (fun b => (bs.set idx (bs.getD idx [] ++ [i])).getD b [])
      = (List.range idx).flatMap (fun b => bs.getD b []) := by
    apply flatMap_congr_mem
    intro b hb
    have := List.mem_range.1 hb
    exact getD_set_ne _ _ _ _ _ (by omega)
  have hB : (List.range' (idx + 1) (7 - idx)).flatMap
        (fun b => (bs.set idx (bs.getD idx [] ++ [i])).getD b [])
      = (List.range' (idx + 1) (7 - idx)).flatMap (fun b => bs.getD b []) := by
    apply flatMap_congr_mem
    intro b hb
    have := (List.mem_range'_1.1 hb).1
    exact getD_set_ne _ _ _ _ _ (by omega)
  rw [hA, hB, getD_set_self _ _ _ _ (by omega)]
  simp only [List.append_assoc]
  exact List.Perm.append_left _ (List.Perm.append_left _ List.perm_append_comm)

/-- State of the queue after enqueueing exactly the pairs `el` (fresh distinct
ids, priorities at most 127) into a fresh queue. -/
structure EnqInv (q : PQ) (el : List (Pid × Nat)) : Prop where
  hpc : q.pc = 0
  hci : q.counter_imed = 0
  hdone : q.done = []
  hproc : q.processing = []
  himm : q.immediate = (el.filter (fun e => decide (e.2 = 0))).map Prod.fst
  hlen8 : q.bins.length = 8
  hbins : ∀ b, b < 8 → q.bins.getD b []
      = (el.filter (fun e => decide (e.2 ≠ 0 ∧ get_high_index32 e.2 = b))).map Prod.fst
  hmem : ∀ e ∈ el, (q.items e.1).rel = e.2 ∧ (q.items e.1).abs = e.2
  hnon : ∀ i, i ∉ el.map Prod.fst → q.items i = item0
  hsz : q.size = el.length
  hsi : q.size_imed = (el.filter (fun e => decide (e.2 = 0))).length
  hsq : q.size_q = (el.filter (fun e => decide (e.2 ≠ 0))).length
  hsd : q.size_done = 0
  hflat : (q.immediate ++ binsFlat q).Perm (el.map Prod.fst)

theorem enq_inv_init : EnqInv priorityq_init [] := by
  refine ⟨rfl, rfl, rfl, rfl, rfl, rfl, ?_, ?_, ?_, rfl, rfl, rfl, rfl, by decide⟩
  · intro b hb
    show (List.replicate 8 ([] : List Pid)).getD b [] = []
    rw [List.getD_eq_getElem?_getD, List.getElem?_replicate]
    by_cases h : b < 8
    · rw [if_pos h]
      rfl
    · rw [if_neg h]
      rfl
  · intro e he
    cases he
  · intro i _
    rfl

theorem enq_step (q : PQ) (el : List (Pid × Nat)) (i : Pid) (p : Nat)
    (hI : EnqInv q el) (hfresh : i ∉ el.map Prod.fst) (hp : p ≤ 127)
    (hb : el.length + 1 < M32) :
    EnqInv (enqueueWith q i p) (el ++ [(i, p)]) := by
  obtain ⟨hpc, hci, hdone, hproc, himm, hlen8, hbins, hmem, hnon, hsz, hsi, hsq, hsd, hflat⟩ := hI
  have hit0 : q.items i = item0 := hnon i hfresh
  have hps : priority_set (q.items i) p = { item0 with abs := p, urg := false } := by
    rw [hit0]
    unfold priority_set
    have hv : p % 256 = p := Nat.mod_eq_of_lt (by omega)
    rw [hv, if_pos (by omega : p ≠ 128)]
  have h1 : enqueueWith q i p
      = priorityq_enqueue { q with items := upd q.items i ({ item0 with abs := p, urg := false }) } i := by
    unfold enqueueWith
    rw [hps]
  set qs : PQ := { q with items := upd q.items i ({ item0 with abs := p, urg := false }) } with hqsdef
  have hqsit : qs.items i = { item0 with abs := p, urg := false } := by
    show (upd q.items i _) i = _
    unfold upd
    rw [if_pos rfl]
  have hqsother : ∀ j, j ≠ i → qs.items j = q.items j := by
    intro j hj
    show (upd q.items i _) j = _
    unfold upd
    rw [if_neg hj]
  have henq : priorityq_enqueue qs i = freshNq qs i := by
    unfold priorityq_enqueue
    rw [if_neg (by rw [hqsit]; intro hc; cases hc), if_neg (by rw [hqsit]; intro hc; cases hc)]
  rw [h1, henq]
  by_cases hp0 : p = 0
  · -- zero-priority enqueue: goes to immediate
    subst hp0
    have hfr : freshNq qs i
        = { qs with
            items := upd qs.items i ({ qs.items i with rel := qs.pc, loc := Loc.imed, linked := true }),
            size_imed := inc32 qs.size_imed,
            immediate := qs.immediate ++ [i],
            size := inc32 qs.size } := by
      unfold freshNq
      rw [hqsit]
      rw [if_neg (by intro hc; exact hc rfl), if_neg (by intro hc; cases hc)]
    rw [hfr]
    have hzl : (el ++ [(i, 0)]).filter (fun e => decide (e.2 = 0))
        = el.filter (fun e => decide (e.2 = 0)) ++ [(i, 0)] := by
      rw [List.filter_append]
      rfl
    have hpl : (el ++ [(i, 0)]).filter (fun e => decide (e.2 ≠ 0))
        = el.filter (fun e => decide (e.2 ≠ 0)) := by
      rw [List.filter_append]
      simp
    refine ⟨hpc, hci, hdone, hproc, ?_, hlen8, ?_, ?_, ?_, ?_, ?_, ?_, hsd, ?_⟩
    · show qs.immediate ++ [i] = _
      rw [hzl, List.map_append]
      show q.immediate ++ [i] = _
      rw [himm]
      rfl
    · intro b hb8
      show qs.bins.getD b [] = _
      have hfb : (el ++ [(i, 0)]).filter (fun e => decide (e.2 ≠ 0 ∧ get_high_index32 e.2 = b))
          = el.filter (fun e => decide (e.2 ≠ 0 ∧ get_high_index32 e.2 = b)) := by
        rw [List.filter_append]
        simp
      rw [hfb]
      exact hbins b hb8
    · intro e he
      rcases List.mem_append.1 he with h | h
      · have hne : e.1 ≠ i := by
          intro hc
          exact hfresh (hc ▸ List.mem_map_of_mem Prod.fst h)
        show ((upd qs.items i _) e.1).rel = e.2 ∧ ((upd qs.items i _) e.1).abs = e.2
        unfold upd
        rw [if_neg hne, hqsother e.1 hne]
        exact hmem e h
      · simp only [List.mem_singleton] at h
        subst h
        show ((upd qs.items i _) i).rel = 0 ∧ ((upd qs.items i _) i).abs = 0
        unfold upd
        rw [if_pos rfl, hqsit]
        exact ⟨hpc, rfl⟩
    · intro j hj
      have hji : j ≠ i := by
        intro hc
        exact hj (by rw [List.map_append]; exact List.mem_append.2 (Or.inr (by rw [hc]; simp)))
      have hjel : j ∉ el.map Prod.fst := by
        intro hc
        exact hj (by rw [List.map_append]; exact List.mem_append.2 (Or.inl hc))
      show (upd qs.items i _) j = item0
      unfold upd
      rw [if_neg hji, hqsother j hji]
      exact hnon j hjel
    · show inc32 qs.size = (el ++ [(i, 0)]).length
      show inc32 q.size = _
      rw [hsz, inc32_small _ (by unfold M32; unfold M32 at hb; omega)]
      simp
    · show inc32 qs.size_imed = ((el ++ [(i, 0)]).filter (fun e : Pid × Nat => decide (e.2 = 0))).length
      show inc32 q.size_imed = _
      have hle : (el.filter (fun e => decide (e.2 = 0))).length ≤ el.length :=
        List.length_filter_le _ _
      rw [hsi, hzl, inc32_small _ (by unfold M32; unfold M32 at hb; omega)]
      simp
    · show qs.size_q = ((el ++ [(i, 0)]).filter (fun e : Pid × Nat => decide (e.2 ≠ 0))).length
      rw [hpl]
      exact hsq
    · have h1 : ((q.immediate ++ [i]) ++ binsFlat q).Perm ((q.immediate ++ binsFlat q) ++ [i]) := by
        simp only [List.append_assoc]
        exact List.Perm.append_left _ List.perm_append_comm
      have h2 : (el.map Prod.fst ++ [i] : List Pid)
          = (el ++ [(i, 0)]).map Prod.fst := by
        rw [List.map_append]
        rfl
      have hgoal : ((q.immediate ++ [i]) ++ binsFlat q).Perm ((el ++ [(i, 0)]).map Prod.fst) := by
        rw [← h2]
        exact h1.trans (List.Perm.append_right _ hflat)
      exact hgoal
  · -- positive-priority enqueue: goes to a bin
    have hidx : get_high_index32 (nqArg qs.pc p) = get_high_index32 p := by
      show get_high_index32 (nqArg q.pc p) = _
      rw [hpc]
      unfold nqArg
      rw [if_pos (by omega : (if p = 0 then 255 else p - 1) ≥ 0), Nat.xor_zero]
    have hidx8 : get_high_index32 p < 7 := by
      have h27 : (2 : Nat) ^ 7 = 128 := by norm_num
      exact high_lt p 7 (by omega) (by omega) (by omega)
    have hrel : (if ({ item0 with abs := p, urg := false } : Item).abs + qs.pc ≥ 256
        then ({ item0 with abs := p, urg := false } : Item).abs + qs.pc - 256
        else ({ item0 with abs := p, urg := false } : Item).abs + qs.pc) = p := by
      show (if p + q.pc ≥ 256 then p + q.pc - 256 else p + q.pc) = p
      rw [hpc, if_neg (by omega)]
      omega
    set R : Item := { item0 with abs := p, rel := p, loc := Loc.q, urg := false, linked := true } with hRdef
    set q1 : PQ := { qs with items := upd qs.items i R, size_q := inc32 qs.size_q } with hq1def
    have hq1it : q1.items i = R := by
      show (upd qs.items i R) i = R
      unfold upd
      rw [if_pos rfl]
    have hstep1 : freshNq qs i
        = { priorityq_nq_only q1 i with size := inc32 (priorityq_nq_only q1 i).size } := by
      unfold freshNq
      rw [hqsit]
      rw [if_pos (by intro hc; exact hp0 hc)]
      rw [hrel]
    have hstep2 : priorityq_nq_only q1 i
        = { q1 with bins := q1.bins.set (get_high_index32 p) (q1.bins.getD (get_high_index32 p) [] ++ [i]) } := by
      unfold priorityq_nq_only
      rw [hq1it]
      show { q1 with bins := q1.bins.set (get_high_index32 (nqArg q1.pc R.rel)) (q1.bins.getD (get_high_index32 (nqArg q1.pc R.rel)) [] ++ [i]) } = _
      have hRrel : R.rel = p := rfl
      have hq1pc : q1.pc = q.pc := rfl
      rw [hRrel, hq1pc, hidx]
    rw [hstep1, hstep2]
    have hq1bins : q1.bins = q.bins := rfl
    have hzl : (el ++ [(i, p)]).filter (fun e : Pid × Nat => decide (e.2 = 0))
        = el.filter (fun e : Pid × Nat => decide (e.2 = 0)) := by
      rw [List.filter_append]
      simp [hp0]
    have hpl : (el ++ [(i, p)]).filter (fun e : Pid × Nat => decide (e.2 ≠ 0))
        = el.filter (fun e : Pid × Nat => decide (e.2 ≠ 0)) ++ [(i, p)] := by
      rw [List.filter_append]
      simp [hp0]
    refine ⟨hpc, hci, hdone, hproc, ?_, ?_, ?_, ?_, ?_, ?_, ?_, ?_, hsd, ?_⟩
    · show q.immediate = _
      rw [hzl]
      exact himm
    · show (q1.bins.set (get_high_index32 p) (q1.bins.getD (get_high_index32 p) [] ++ [i])).length = 8
      rw [List.length_set, hq1bins, hlen8]
    · intro b hb8
      show (q1.bins.set (get_high_index32 p) (q1.bins.getD (get_high_index32 p) [] ++ [i])).getD b [] = _
      rw [List.filter_append, List.map_append]
      by_cases hbi : b = get_high_index32 p
      · subst hbi
        rw [hq1bins, getD_set_self _ _ _ _ (by rw [hlen8]; omega)]
        have hsing : ([(i, p)] : List (Pid × Nat)).filter
            (fun e => decide (e.2 ≠ 0 ∧ get_high_index32 e.2 = get_high_index32 p)) = [(i, p)] := by
          simp [hp0]
        rw [hsing, hbins _ hb8]
        rfl
      · rw [hq1bins, getD_set_ne _ _ _ _ _ hbi]
        have hsing : ([(i, p)] : List (Pid × Nat)).filter
            (fun e => decide (e.2 ≠ 0 ∧ get_high_index32 e.2 = b)) = [] := by
          simp [hp0]
          intro hc
          exact absurd hc.symm hbi
        rw [hsing, hbins b hb8]
        simp
    · intro e he
      rcases List.mem_append.1 he with h | h
      · have hne : e.1 ≠ i := fun hc => hfresh (hc ▸ List.mem_map_of_mem Prod.fst h)
        show ((upd qs.items i R) e.1).rel = e.2 ∧ ((upd qs.items i R) e.1).abs = e.2
        unfold upd
        rw [if_neg hne, hqsother e.1 hne]
        exact hmem e h
      · simp only [List.mem_singleton] at h
        subst h
        show ((upd qs.items i R) i).rel = p ∧ ((upd qs.items i R) i).abs = p
        unfold upd
        rw [if_pos rfl]
        exact ⟨rfl, rfl⟩
    · intro j hj
      have hji : j ≠ i := fun hc =>
        hj (by rw [List.map_append]; exact List.mem_append.2 (Or.inr (by rw [hc]; simp)))
      have hjel : j ∉ el.map Prod.fst := fun hc =>
        hj (by rw [List.map_append]; exact List.mem_append.2 (Or.inl hc))
      show (upd qs.items i R) j = item0
      unfold upd
      rw [if_neg hji, hqsother j hji]
      exact hnon j hjel
    · show inc32 q.size = (el ++ [(i, p)]).length
      rw [hsz, inc32_small _ (by unfold M32; unfold M32 at hb; omega)]
      simp
    · show q.size_imed = ((el ++ [(i, p)]).filter (fun e : Pid × Nat => decide (e.2 = 0))).length
      rw [hzl]
      exact hsi
    · show inc32 q.size_q = ((el ++ [(i, p)]).filter (fun e : Pid × Nat => decide (e.2 ≠ 0))).length
      have hle : (el.filter (fun e : Pid × Nat => decide (e.2 ≠ 0))).length ≤ el.length :=
        List.length_filter_le _ _
      rw [hsq, hpl, inc32_small _ (by unfold M32; unfold M32 at hb; omega)]
      simp
    · have hps2 := flat_set_perm q.bins (get_high_index32 p) (by omega) hlen8 i
      have h1 : (q.immediate ++ (List.range 8).flatMap
            (fun b => (q.bins.set (get_high_index32 p) (q.bins.getD (get_high_index32 p) [] ++ [i])).getD b [])).Perm
          (q.immediate ++ (binsFlat q ++ [i])) := List.Perm.append_left _ hps2
      have h2 : (q.immediate ++ (binsFlat q ++ [i])).Perm ((q.immediate ++ binsFlat q) ++ [i]) := by
        rw [← List.append_assoc]
      have h3 : (el.map Prod.fst ++ [i] : List Pid)
          = (el ++ [(i, p)]).map Prod.fst := by
        rw [List.map_append]
        rfl
      have hgoal : (q.immediate ++ (List.range 8).flatMap
            (fun b => (q.bins.set (get_high_index32 p) (q.bins.getD (get_high_index32 p) [] ++ [i])).getD b [])).Perm
          ((el ++ [(i, p)]).map Prod.fst) := by
        rw [← h3]
        exact h1.trans (h2.trans (List.Perm.append_right _ hflat))
      exact hgoal

theorem enqAll_inv : ∀ (rest : List (Pid × Nat)) (q : PQ) (el : List (Pid × Nat)),
    EnqInv q el →
    ((el ++ rest).map Prod.fst).Nodup →
    (∀ e ∈ el ++ rest, e.2 ≤ 127) →
    (el ++ rest).length < M32 →
    EnqInv (enqAll q rest) (el ++ rest) := by
  intro rest
  induction rest with
  | nil =>
    intro q el hI _ _ _
    rw [enqAll_nil, List.append_nil]
    exact hI
  | cons e r ih =>
    intro q el hI hnd hpr hb
    rw [enqAll_cons]
    have hfresh : e.1 ∉ el.map Prod.fst := by
      rw [List.map_append] at hnd
      obtain ⟨-, -, hdisj⟩ := List.nodup_append.1 hnd
      intro hc
      exact hdisj hc (by simp)
    have hstep := enq_step q el e.1 e.2 hI hfresh (hpr e (by simp)) (by simp at hb ⊢; omega)
    have hassoc : (el ++ [e]) ++ r = el ++ e :: r := by simp
    rw [← hassoc] at hnd hpr hb ⊢
    have hstep' : EnqInv (enqueueWith q e.1 e.2) (el ++ [e]) := by
      have he : (e.1, e.2) = e := rfl
      rw [he] at hstep
      exact hstep
    exact ih (enqueueWith q e.1 e.2) (el ++ [e]) hstep' hnd hpr hb

theorem enqAll_full (es : List (Pid × Nat))
    (hnd : (es.map Prod.fst).Nodup) (hpr : ∀ e ∈ es, e.2 ≤ 127) (hb : es.length < M32) :
    EnqInv (enqAll priorityq_init es) es := by
  have h := enqAll_inv es priorityq_init [] enq_inv_init (by simpa)
    (by intro e he; simp at he; exact hpr e he) (by simpa)
  simpa using h

theorem advImed_step (q : PQ) (st : List Pid) (hI : DrainInv q st) :
    DrainInv (priorityq_advance_immediates q) st ∧
    (priorityq_advance_immediates q).processing = q.processing ∧
    (priorityq_advance_immediates q).bins = q.bins ∧
    (priorityq_advance_immediates q).items = q.items ∧
    (priorityq_advance_immediates q).pc = q.pc ∧
    ((priorityq_advance_immediates q = q ∧ q.immediate = []) ∨
      (q.counter_imed = 0 ∧ q.immediate ≠ [] ∧
        priorityq_advance_immediates q
          = { q with counter_imed := get_high_index32 q.size_imed + 1 }) ∨
      (∃ mv, mv ≠ [] ∧ (priorityq_advance_immediates q).done = q.done ++ mv)) := by
  obtain ⟨hdi, hlen8, hpc, hsd, hsi, hsq, hsz, hbound, hrel, hproc, hbin, hnd, hdist⟩ := hI
  by_cases hz : q.size_imed = 0
  · have hie : q.immediate = [] := by
      have := hsi
      rw [hz] at this
      exact (List.eq_nil_of_length_eq_zero this.symm)
    have hres : priorityq_advance_immediates q = q := advImed_noop q hz
    rw [hres]
    exact ⟨⟨hdi, hlen8, hpc, hsd, hsi, hsq, hsz, hbound, hrel, hproc, hbin, hnd, hdist⟩,
      rfl, rfl, rfl, rfl, Or.inl ⟨rfl, hie⟩⟩
  · have hine : q.immediate ≠ [] := by
      intro hc
      rw [hc] at hsi
      exact hz (by rw [hsi]; rfl)
    by_cases hc0 : q.counter_imed = 0
    · -- reset case: only counter_imed changes
      have hres : priorityq_advance_immediates q
          = { q with counter_imed := get_high_index32 q.size_imed + 1 } := by
        unfold priorityq_advance_immediates
        rw [if_pos hz, if_neg (by omega)]
      rw [hres]
      refine ⟨⟨hdi, hlen8, hpc, hsd, hsi, ?_, ?_, ?_, ?_, hproc, hbin, ?_, ?_⟩,
        rfl, rfl, rfl, rfl, Or.inr (Or.inl ⟨hc0, hine, rfl⟩)⟩
      · exact hsq
      · exact hsz
      · exact hbound
      · exact hrel
      · exact hnd
      · exact hdist
    · -- counter nonzero: at least one move
      obtain ⟨x, rest, hqi⟩ : ∃ x rest, q.immediate = x :: rest := by
        cases hq : q.immediate with
        | nil => exact absurd hq hine
        | cons a r => exact ⟨a, r, rfl⟩
      have hsi1 : q.size_imed = rest.length + 1 := by rw [hsi, hqi]; rfl
      have hb1 : rest.length + 1 < M32 := by
        have h1 : q.immediate.length ≤ st.length := by
          rw [← hdi]
          simp
        rw [hqi] at h1
        simp at h1
        omega
      have hsd1 : q.size_done + 1 < M32 := by
        have h1 : q.done.length + q.immediate.length = st.length := by
          rw [← hdi]
          simp
        rw [hsd]
        omega
      -- the one-move intermediate state
      set q1 : PQ := { q with
                       immediate := rest, done := q.done ++ [x],
                       size_imed := dec32 q.size_imed,
                       size_done := inc32 q.size_done } with hq1def
      have hq1di : q1.done ++ q1.immediate = st := by
        show (q.done ++ [x]) ++ rest = st
        rw [List.append_assoc]
        show q.done ++ (x :: rest) = st
        rw [← hqi]
        exact hdi
      have hq1sd : q1.size_done = q1.done.length := by
        show inc32 q.size_done = (q.done ++ [x]).length
        rw [inc32_small _ (by unfold M32 at hsd1 ⊢; omega), hsd]
        simp
      have hq1si : q1.size_imed = q1.immediate.length := by
        show dec32 q.size_imed = rest.length
        rw [hsi1, dec32_small _ (by omega) (by unfold M32 at hb1 ⊢; omega)]
        omega
      have K1 : ∀ c : Nat,
          DrainInv ({ q1 with counter_imed := c }) st ∧
          ({ q1 with counter_imed := c } : PQ).processing = q.processing ∧
          ({ q1 with counter_imed := c } : PQ).bins = q.bins ∧
          ({ q1 with counter_imed := c } : PQ).items = q.items ∧
          ({ q1 with counter_imed := c } : PQ).pc = q.pc ∧
          ∃ mv, mv ≠ [] ∧ ({ q1 with counter_imed := c } : PQ).done = q.done ++ mv := by
        intro c
        refine ⟨⟨hq1di, hlen8, hpc, hq1sd, hq1si, ?_, ?_, ?_, ?_, ?_, ?_, ?_, ?_⟩,
          rfl, rfl, rfl, rfl, [x], by simp, rfl⟩
        · exact hsq
        · exact hsz
        · exact hbound
        · exact hrel
        · exact hproc
        · exact hbin
        · exact hnd
        · exact hdist
      by_cases hlt : q1.size_done < q1.size_imed
      · by_cases hev : q1.size_imed % 2 = 0
        · cases hrest : rest with
          | nil =>
            have hres : priorityq_advance_immediates q = q1 := by
              unfold priorityq_advance_immediates
              rw [if_pos hz, if_pos hc0, hqi, hrest]
              show (let q1' : PQ := { q with
                  immediate := ([] : List Pid), done := q.done ++ [x],
                  size_imed := dec32 q.size_imed, size_done := inc32 q.size_done }
                if q1'.size_done < q1'.size_imed then
                  if q1'.size_imed % 2 = 0 then q1'
                  else { q1' with counter_imed := dec32 q1'.counter_imed }
                else { q1' with counter_imed := q1'.counter_imed >>> 2 }) = q1
              rw [hq1def, hrest]
              rw [if_pos (by rw [hq1def, hrest] at hlt; exact hlt),
                if_pos (by rw [hq1def, hrest] at hev; exact hev)]
            rw [hres]
            have hK := K1 q1.counter_imed
            have hq1eta : ({ q1 with counter_imed := q1.counter_imed } : PQ) = q1 := rfl
            rw [hq1eta] at hK
            obtain ⟨a1, a2, a3, a4, a5, a6⟩ := hK
            subst hrest
            exact ⟨a1, a2, a3, a4, a5, Or.inr (Or.inr a6)⟩
          | cons y rest2 =>
            have hsi2 : q.size_imed = rest2.length + 2 := by
              rw [hsi, hqi, hrest]
              rfl
            have hst2 : q.done.length + (rest2.length + 2) = st.length := by
              have h1 : q.done.length + q.immediate.length = st.length := by
                rw [← hdi]
                simp
              rw [hqi, hrest] at h1
              simp at h1
              omega
            have hres : priorityq_advance_immediates q
                = { q1 with immediate := rest2, done := q1.done ++ [y],
                            size_imed := dec32 q1.size_imed, size_done := inc32 q1.size_done,
                            counter_imed := q1.counter_imed >>> 1 } := by
              unfold priorityq_advance_immediates
              rw [if_pos hz, if_pos hc0, hqi, hrest]
              show (let q1' : PQ := { q with
                  immediate := (y :: rest2), done := q.done ++ [x],
                  size_imed := dec32 q.size_imed, size_done := inc32 q.size_done }
                if q1'.size_done < q1'.size_imed then
                  if q1'.size_imed % 2 = 0 then
                    { q1' with immediate := rest2, done := q1'.done ++ [y],
                               size_imed := dec32 q1'.size_imed, size_done := inc32 q1'.size_done,
                               counter_imed := q1'.counter_imed >>> 1 }
                  else { q1' with counter_imed := dec32 q1'.counter_imed }
                else { q1' with counter_imed := q1'.counter_imed >>> 2 }) = _
              rw [hq1def, hrest]
              rw [if_pos (by rw [hq1def, hrest] at hlt; exact hlt),
                if_pos (by rw [hq1def, hrest] at hev; exact hev)]
            rw [hres]
            have hdec : dec32 q.size_imed = rest2.length + 1 := by
              rw [hsi2, dec32_small _ (by omega) (by
                have := hbound
                have h2 : st.length < M32 := by omega
                unfold M32 at h2 ⊢
                omega)]
              omega
            have hinc : inc32 q.size_done = q.done.length + 1 := by
              rw [inc32_small _ (by
                have h2 : st.length < M32 := by omega
                rw [hsd]
                unfold M32 at h2 ⊢
                omega), hsd]
            refine ⟨⟨?_, hlen8, hpc, ?_, ?_, ?_, ?_, ?_, ?_, ?_, ?_, ?_, ?_⟩,
              rfl, rfl, rfl, rfl, Or.inr (Or.inr ⟨[x, y], by simp, ?_⟩)⟩
            · show ((q.done ++ [x]) ++ [y]) ++ rest2 = st
              rw [← hdi, hqi, hrest]
              simp
            · show inc32 (inc32 q.size_done) = ((q.done ++ [x]) ++ [y]).length
              rw [hinc, inc32_small _ (by
                have h2 : st.length < M32 := by omega
                unfold M32 at h2 ⊢
                omega)]
              simp
            · show dec32 (dec32 q.size_imed) = rest2.length
              rw [hdec, dec32_small _ (by omega) (by
                have h2 : st.length < M32 := by omega
                unfold M32 at h2 ⊢
                omega)]
              omega
            · exact hsq
            · exact hsz
            · exact hbound
            · exact hrel
            · exact hproc
            · exact hbin
            · exact hnd
            · exact hdist
            · show ((q.done ++ [x]) ++ [y]) = q.done ++ [x, y]
              simp
        · have hres : priorityq_advance_immediates q
              = { q1 with counter_imed := dec32 q1.counter_imed } := by
            unfold priorityq_advance_immediates
            rw [if_pos hz, if_pos hc0, hqi]
            show (let q1' : PQ := { q with
                immediate := rest, done := q.done ++ [x],
                size_imed := dec32 q.size_imed, size_done := inc32 q.size_done }
              if q1'.size_done < q1'.size_imed then
                if q1'.size_imed % 2 = 0 then
                  match q1'.immediate with
                  | [] => q1'
                  | y :: rest2 =>
                    { q1' with immediate := rest2, done := q1'.done ++ [y],
                               size_imed := dec32 q1'.size_imed, size_done := inc32 q1'.size_done,
                               counter_imed := q1'.counter_imed >>> 1 }
                else { q1' with counter_imed := dec32 q1'.counter_imed }
              else { q1' with counter_imed := q1'.counter_imed >>> 2 }) = _
            rw [hq1def]
            rw [if_pos (by rw [hq1def] at hlt; exact hlt),
              if_neg (by rw [hq1def] at hev; exact hev)]
          rw [hres]
          obtain ⟨a1, a2, a3, a4, a5, a6⟩ := K1 (dec32 q1.counter_imed)
          exact ⟨a1, a2, a3, a4, a5, Or.inr (Or.inr a6)⟩
      · have hres : priorityq_advance_immediates q
            = { q1 with counter_imed := q1.counter_imed >>> 2 } := by
          unfold priorityq_advance_immediates
          rw [if_pos hz, if_pos hc0, hqi]
          show (let q1' : PQ := { q with
              immediate := rest, done := q.done ++ [x],
              size_imed := dec32 q.size_imed, size_done := inc32 q.size_done }
            if q1'.size_done < q1'.size_imed then
              if q1'.size_imed % 2 = 0 then
                match q1'.immediate with
                | [] => q1'
                | y :: rest2 =>
                  { q1' with immediate := rest2, done := q1'.done ++ [y],
                             size_imed := dec32 q1'.size_imed, size_done := inc32 q1'.size_done,
                             counter_imed := q1'.counter_imed >>> 1 }
              else { q1' with counter_imed := dec32 q1'.counter_imed }
            else { q1' with counter_imed := q1'.counter_imed >>> 2 }) = _
          rw [hq1def]
          rw [if_neg (by rw [hq1def] at hlt; exact hlt)]
        rw [hres]
        obtain ⟨a1, a2, a3, a4, a5, a6⟩ := K1 (q1.counter_imed >>> 2)
        exact ⟨a1, a2, a3, a4, a5, Or.inr (Or.inr a6)⟩

theorem npc_shr_succ (pc i : Nat) :
    (2 ^ (i + 1) * (pc >>> (i + 1)) + 2 ^ i) >>> (i + 1) = pc >>> (i + 1) := by
  rw [Nat.shiftRight_eq_div_pow, Nat.mul_add_div (Nat.two_pow_pos (i + 1)),
    Nat.div_eq_of_lt (Nat.pow_lt_pow_right (by norm_num) (by omega)), Nat.add_zero]

theorem npc_bit_i (pc i : Nat) :
    ((2 ^ (i + 1) * (pc >>> (i + 1)) + 2 ^ i) >>> i) % 2 = 1 := by
  have h : 2 ^ (i + 1) * (pc >>> (i + 1)) + 2 ^ i
      = 2 ^ i * (2 * (pc >>> (i + 1)) + 1) := by
    rw [Nat.pow_succ]
    ring
  rw [h, Nat.shiftRight_eq_div_pow, Nat.mul_div_cancel_left _ (Nat.two_pow_pos i)]
  omega

theorem npc_shr_high (pc i b : Nat) (hb : i < b) :
    (2 ^ (i + 1) * (pc >>> (i + 1)) + 2 ^ i) >>> b = pc >>> b := by
  have hsplit : b = (i + 1) + (b - (i + 1)) := by omega
  rw [hsplit, Nat.shiftRight_add, npc_shr_succ, ← Nat.shiftRight_add]

theorem npc_gt (pc i : Nat) (h : (pc >>> i) % 2 = 0) :
    pc < 2 ^ (i + 1) * (pc >>> (i + 1)) + 2 ^ i :=
  bit_compare _ pc i (npc_shr_succ pc i) (npc_bit_i pc i) h

theorem bin_member_ge_npc (rel pc i : Nat) (hhi : rel >>> (i + 1) = pc >>> (i + 1))
    (hbit : (rel >>> i) % 2 = 1) :
    2 ^ (i + 1) * (pc >>> (i + 1)) + 2 ^ i ≤ rel := by
  have h1 := shr_decomp rel i
  have h2 := shr_succ_decomp rel i
  rw [hhi] at h2
  have h3 : rel ≥ 2 ^ i * (2 * (pc >>> (i + 1)) + 1) := by
    calc rel = 2 ^ i * (rel >>> i) + rel % 2 ^ i := h1
    _ ≥ 2 ^ i * (rel >>> i) := by omega
    _ = 2 ^ i * (2 * (pc >>> (i + 1)) + 1) := by rw [h2, hbit]
  have h4 : 2 ^ i * (2 * (pc >>> (i + 1)) + 1)
      = 2 ^ (i + 1) * (pc >>> (i + 1)) + 2 ^ i := by
    rw [Nat.pow_succ]
    ring
  omega

theorem range8_filter_singleton (i : Nat) (h : i < 8) (p : Nat → Bool)
    (hiff : ∀ j, j < 8 → (p j = true ↔ j = i)) :
    (List.range' 0 8).filter p = [i] := by
  have hr : List.range' 0 8 = List.range 8 := (List.range_eq_range' 8).symm
  rw [hr, range8_split i h, List.filter_append, List.filter_cons]
  have hA : (List.range i).filter p = [] := by
    apply List.filter_eq_nil_iff.2
    intro j hj
    have hj' := List.mem_range.1 hj
    intro hc
    have := (hiff j (by omega)).1 hc
    omega
  have hB : (List.range' (i + 1) (7 - i)).filter p = [] := by
    apply List.filter_eq_nil_iff.2
    intro j hj
    obtain ⟨hj1, hj2⟩ := List.mem_range'_1.1 hj
    intro hc
    have := (hiff j (by omega)).1 hc
    omega
  rw [hA, hB, if_pos ((hiff i h).2 rfl)]
  rfl

theorem flat_extract_perm (bs : List (List Pid)) (i : Nat) (h : i < 8) :
    (bs.getD i [] ++ (List.range 8).flatMap (fun b => if b = i then [] else bs.getD b [])).Perm
      ((List.range 8).flatMap (fun b => bs.getD b [])) := by
  rw [range8_split i h, List.flatMap_append, List.flatMap_cons,
    List.flatMap_append, List.flatMap_cons]
  have hA : (List.range i).flatMap (fun b => if b = i then [] else bs.getD b [])
      = (List.range i).flatMap (fun b => bs.getD b []) := by
    apply flatMap_congr_mem
    intro b hb
    rw [if_neg (by have := List.mem_range.1 hb; omega)]
  have hB : (List.range' (i + 1) (7 - i)).flatMap (fun b => if b = i then [] else bs.getD b [])
      = (List.range' (i + 1) (7 - i)).flatMap (fun b => bs.getD b []) := by
    apply flatMap_congr_mem
    intro b hb
    rw [if_neg (by have := (List.mem_range'_1.1 hb).1; omega)]
  rw [hA, hB, if_pos rfl, List.nil_append]
  -- goal: (bin i ++ (A ++ B)).Perm (A ++ (bin i ++ B))
  have h1 : (bs.getD i [] ++ (List.range i).flatMap (fun b => bs.getD b [])).Perm
      ((List.range i).flatMap (fun b => bs.getD b []) ++ bs.getD i []) := List.perm_append_comm
  have h2 := List.Perm.append_right ((List.range' (i + 1) (7 - i)).flatMap (fun b => bs.getD b [])) h1
  have e1 : bs.getD i [] ++ ((List.range i).flatMap (fun b => bs.getD b [])
        ++ (List.range' (i + 1) (7 - i)).flatMap (fun b => bs.getD b []))
      = (bs.getD i [] ++ (List.range i).flatMap (fun b => bs.getD b []))
        ++ (List.range' (i + 1) (7 - i)).flatMap (fun b => bs.getD b []) := by
    rw [List.append_assoc]
  have e2 : ((List.range i).flatMap (fun b => bs.getD b []) ++ bs.getD i [])
        ++ (List.range' (i + 1) (7 - i)).flatMap (fun b => bs.getD b [])
      = (List.range i).flatMap (fun b => bs.getD b [])
        ++ (bs.getD i [] ++ (List.range' (i + 1) (7 - i)).flatMap (fun b => bs.getD b [])) := by
    rw [List.append_assoc]
  rw [e1, ← e2]
  exact h2

theorem advance_step (q : PQ) (st : List Pid) (hI : DrainInv q st)
    (hpe : q.processing = []) (hne : binsFlat q ≠ []) :
    ∃ i, i < 7 ∧
      (let r := priorityq_advance_priority_counter q
      DrainInv r st ∧
      r.done = q.done ∧ r.immediate = q.immediate ∧ r.items = q.items ∧
      r.counter_imed = q.counter_imed ∧ r.size_imed = q.size_imed ∧
      r.size_done = q.size_done ∧ r.size = q.size ∧ r.size_q = q.size_q ∧
      (restIds r).Perm (restIds q) ∧
      q.pc < r.pc ∧
      r.pc = 2 ^ (i + 1) * (q.pc >>> (i + 1)) + 2 ^ i ∧
      r.processing = q.bins.getD i [] ∧
      q.bins.getD i [] ≠ [] ∧
      (q.pc >>> i) % 2 = 0 ∧
      (∀ b, r.bins.getD b [] = if b = i then [] else q.bins.getD b [])) := by
  obtain ⟨hdi, hlen8, hpc, hsd, hsi, hsq, hsz, hbound, hrel, hproc, hbin, hnd, hdist⟩ := hI
  obtain ⟨a1, a2, a3, a4⟩ := advGo_spec 7 0 q.bins q.pc
  set i := advGo q.bins q.pc 0 7 with hidef
  -- bin 7 is empty: its members would need rel ≥ 128
  have hbin7 : q.bins.getD 7 [] = [] := by
    cases hq7 : q.bins.getD 7 [] with
    | nil => rfl
    | cons a l =>
      obtain ⟨-, hb1, -⟩ := hbin 7 (by omega) a (by rw [hq7]; simp)
      obtain ⟨-, hr127⟩ := hrel a (by
        show a ∈ q.processing ++ binsFlat q
        apply List.mem_append.2 (Or.inr ?_)
        show a ∈ (List.range 8).flatMap (fun b => q.bins.getD b [])
        apply List.mem_flatMap.2
        exact ⟨7, by simp, by rw [hq7]; simp⟩)
      have : (q.items a).rel >>> 7 = 0 := by
        rw [Nat.shiftRight_eq_div_pow]
        apply Nat.div_eq_of_lt
        norm_num
        omega
      rw [this] at hb1
      simp at hb1
  -- some bin b < 7 is nonempty, hence qualifying, hence i < 7
  have hi7 : i < 7 := by
    by_contra hc
    obtain ⟨x, hx⟩ : ∃ x, x ∈ binsFlat q := by
      cases hb : binsFlat q with
      | nil => exact absurd hb hne
      | cons a l => exact ⟨a, by simp⟩
    obtain ⟨b, hb8, hxb⟩ := List.mem_flatMap.1 hx
    have hb8' : b < 8 := List.mem_range.1 hb8
    have hbne : q.bins.getD b [] ≠ [] := by
      intro hc2
      rw [hc2] at hxb
      cases hxb
    have hb7 : b < 7 := by
      rcases Nat.lt_or_ge b 7 with h | h
      · exact h
      · have hb7' : b = 7 := by omega
        rw [hb7'] at hbne
        exact absurd hbin7 hbne
    obtain ⟨-, -, hbit0⟩ := hbin b (by omega) x hxb
    exact (a3 b (Nat.zero_le _) (by omega)) ⟨hbne, hbit0⟩
  have hienz := a4 (by omega)
  obtain ⟨hine, hibit⟩ := hienz
  -- pc < 128 since bin i is nonempty
  have hpc128 : q.pc < 128 := by
    obtain ⟨x, hx⟩ : ∃ x, x ∈ q.bins.getD i [] := by
      cases hb : q.bins.getD i [] with
      | nil => exact absurd hb hine
      | cons a l => exact ⟨a, by simp⟩
    obtain ⟨hhi, hxb, hpb⟩ := hbin i (by omega) x hx
    have hxrest : x ∈ restIds q := by
      show x ∈ q.processing ++ binsFlat q
      apply List.mem_append.2 (Or.inr ?_)
      apply List.mem_flatMap.2
      exact ⟨i, by simp; omega, hx⟩
    obtain ⟨-, hr127⟩ := hrel x hxrest
    have hge := bin_member_ge_npc (q.items x).rel q.pc i hhi hxb
    have hgt := npc_gt q.pc i hpb
    omega
  have hnpcdef := newpc_decomp q.pc i hibit
  set npc := 2 ^ (i + 1) * (q.pc >>> (i + 1)) + 2 ^ i with hnpc
  have hnpcj : ∀ b, i < b → npc >>> b = q.pc >>> b := by
    intro b hb
    rw [hnpc]
    exact npc_shr_high q.pc i b hb
  have hpc7 : q.pc >>> 7 = 0 := by
    rw [Nat.shiftRight_eq_div_pow]
    apply Nat.div_eq_of_lt
    norm_num
    omega
  have hnpc128 : npc < 128 := by
    have h1 : npc >>> 7 = 0 := by rw [hnpcj 7 (by omega), hpc7]
    rw [Nat.shiftRight_eq_div_pow] at h1
    have h2 := Nat.div_add_mod npc (2 ^ 7)
    have h3 : npc % 2 ^ 7 < 2 ^ 7 := Nat.mod_lt _ (by norm_num)
    norm_num at h1 h2 h3
    omega
  have hgt : q.pc < npc := by
    rw [hnpc]
    exact npc_gt q.pc i hibit
  have hmod : ((q.pc ||| (2 ^ i - 1)) + 1) % 256 = npc := by
    rw [hnpcdef]
    exact Nat.mod_eq_of_lt (by omega)
  obtain ⟨s1, s2, s3, s4, s5, s6, s7, s8, s9, s10, s11, s12⟩ :=
    advance_spec q hlen8 (by omega)
  rw [← hidef] at s1 s11 s12
  rw [hmod] at s1 s11 s12
  have hnofire : ∀ j, i < j → j < 8 → ¬ ((advBits q.pc npc >>> j) % 2 = 1) := by
    intro j hij hj8 hc
    rcases (advBits_testBit q.pc npc j hj8).1 hc with ⟨h7, hp0, hn1⟩ | ⟨h7, hne⟩
    · rw [hnpcj j hij] at hn1
      omega
    · rw [hnpcj 7 (by omega)] at hne
      exact hne rfl
  have hfilter : (List.range' 0 8).filter
      (fun j => decide (j = i ∨ (i < j ∧ ((advBits q.pc npc) >>> j) % 2 = 1))) = [i] := by
    apply range8_filter_singleton i (by omega)
    intro j hj
    rw [decide_eq_true_eq]
    constructor
    · rintro (h | ⟨hij, hbit⟩)
      · exact h
      · exact absurd hbit (hnofire j hij hj)
    · intro h
      exact Or.inl h
  rw [hpe, hfilter] at s11
  simp only [List.flatMap_cons, List.flatMap_nil, List.append_nil, List.nil_append] at s11
  have hbins' : ∀ b, (priorityq_advance_priority_counter q).bins.getD b []
      = if b = i then [] else q.bins.getD b [] := by
    intro b
    rw [s12 b]
    by_cases hbi : b = i
    · rw [if_pos (Or.inl hbi), if_pos hbi]
    · rw [if_neg hbi]
      by_cases hfire : i < b ∧ ((advBits q.pc npc) >>> b) % 2 = 1
      · obtain ⟨hib, hbit⟩ := hfire
        exfalso
        by_cases hb8 : b < 8
        · exact absurd hbit (hnofire b hib hb8)
        · have hlt := advBits_lt q.pc npc
          have hz : advBits q.pc npc >>> b = 0 := by
            rw [Nat.shiftRight_eq_div_pow]
            apply Nat.div_eq_of_lt
            have h2b : (256 : Nat) ≤ 2 ^ b := by
              calc (256 : Nat) = 2 ^ 8 := by norm_num
              _ ≤ 2 ^ b := Nat.pow_le_pow_right (by norm_num) (by omega)
            omega
          omega
      · rw [if_neg (fun h => h.elim hbi hfire)]
  have hflatr : binsFlat (priorityq_advance_priority_counter q)
      = (List.range 8).flatMap (fun b => if b = i then [] else q.bins.getD b []) := by
    unfold binsFlat
    apply flatMap_congr_mem
    intro b hb
    exact hbins' b
  have hrq : restIds q = binsFlat q := by
    show q.processing ++ binsFlat q = _
    rw [hpe, List.nil_append]
  have hperm : (restIds (priorityq_advance_priority_counter q)).Perm (restIds q) := by
    show ((priorityq_advance_priority_counter q).processing
      ++ binsFlat (priorityq_advance_priority_counter q)).Perm (restIds q)
    rw [s11, hflatr, hrq]
    exact flat_extract_perm q.bins i (by omega)
  have hlenr := hperm.length_eq
  have hmemr : ∀ x, x ∈ restIds (priorityq_advance_priority_counter q) ↔ x ∈ restIds q :=
    fun x => hperm.mem_iff
  refine ⟨i, hi7, ?_, s7, s8, s9, s2, s5, s4, s3, s6, hperm, ?_, ?_, s11, hine, hibit, hbins'⟩
  · -- the drain invariant is preserved
    refine ⟨?_, s10, ?_, ?_, ?_, ?_, ?_, ?_, ?_, ?_, ?_, ?_, ?_⟩
    · rw [s7, s8]
      exact hdi
    · rw [s1]
      omega
    · rw [s4, hsd, s7]
    · rw [s5, hsi, s8]
    · rw [s6, hsq, hlenr]
    · rw [s3, hsz, hlenr]
    · rw [← hlenr] at hbound
      exact hbound
    · intro x hx
      rw [s9]
      exact hrel x ((hmemr x).1 hx)
    · intro x hx
      rw [s11] at hx
      rw [s9, s1]
      obtain ⟨hhi, hxb, -⟩ := hbin i (by omega) x hx
      rw [hnpc]
      exact bin_member_ge_npc (q.items x).rel q.pc i hhi hxb
    · intro b hb8 x hx
      rw [hbins' b] at hx
      by_cases hbi : b = i
      · rw [if_pos hbi] at hx
        cases hx
      · rw [if_neg hbi] at hx
        obtain ⟨hhi, hxb, hpb⟩ := hbin b hb8 x hx
        have hbgt : i < b := by
          by_contra hble
          have hblt : b < i := by omega
          exact (a3 b (Nat.zero_le b) hblt) ⟨(by intro hc; rw [hc] at hx; cases hx), hpb⟩
        rw [s9, s1]
        refine ⟨?_, hxb, ?_⟩
        · rw [hnpcj (b + 1) (by omega)]
          exact hhi
        · rw [hnpcj b hbgt]
          exact hpb
    · exact ((List.Perm.append_left st hperm).symm).nodup hnd
    · have h1 : ((restIds (priorityq_advance_priority_counter q)).map
          (fun x => ((priorityq_advance_priority_counter q).items x).rel)).Perm
          ((restIds q).map (fun x => (q.items x).rel)) := by
        rw [s9]
        exact hperm.map _
      exact h1.symm.nodup hdist
  · rw [s1]
    exact hgt
  · rw [s1, hnpc]

theorem sortR_congr_items (q q' : PQ) (l : List Pid)
    (h : ∀ i ∈ l, (q'.items i).rel = (q.items i).rel) : sortR q' l = sortR q l := by
  unfold sortR
  apply flatMap_congr_mem
  intro r hr
  apply List.filter_congr
  intro i hi
  rw [h i hi]

theorem filter_nodup_len {α : Type} (f : α → Nat) :
    ∀ (l : List α), (l.map f).Nodup → ∀ r, (l.filter (fun i => decide (f i = r))).length ≤ 1 := by
  intro l
  induction l with
  | nil =>
    intro _ r
    simp
  | cons x xs ih =>
    intro hnd r
    rw [List.map_cons, List.nodup_cons] at hnd
    rw [List.filter_cons]
    by_cases hx : f x = r
    · rw [if_pos (decide_eq_true hx)]
      have hz : xs.filter (fun i => decide (f i = r)) = [] := by
        apply List.filter_eq_nil_iff.2
        intro y hy hc
        rw [decide_eq_true_eq] at hc
        apply hnd.1
        rw [hx, ← hc]
        exact List.mem_map_of_mem f hy
      rw [hz]
      simp
    · rw [if_neg (by simpa using hx)]
      exact ih hnd.2 r

theorem perm_len_le_one {α : Type} (l l' : List α) (h : l.Perm l') (hl : l.length ≤ 1) :
    l = l' := by
  match l, hl with
  | [], _ => rw [h.symm.eq_nil]
  | [a], _ => rw [(List.perm_singleton.1 h.symm)]

theorem sortR_perm (q : PQ) (l l' : List Pid) (hp : l.Perm l')
    (hnd : (l.map (fun i => (q.items i).rel)).Nodup) : sortR q l = sortR q l' := by
  unfold sortR
  apply flatMap_congr_mem
  intro r hr
  exact perm_len_le_one _ _ (hp.filter _)
    (filter_nodup_len (fun i => (q.items i).rel) l hnd r)

theorem range128_split (p : Nat) (h : p < 128) :
    List.range 128 = List.range p ++ p :: List.range' (p + 1) (127 - p) := by
  rw [List.range_eq_range', List.range_eq_range']
  have h1 := List.range'_append 0 p (128 - p) 1
  simp only [Nat.one_mul, Nat.zero_add] at h1
  rw [(by omega : 128 - p + p = 128)] at h1
  rw [← h1]
  congr 1
  have h2 : 128 - p = (127 - p) + 1 := by omega
  rw [h2, List.range'_succ]

theorem sortR_stage (q : PQ) (n : Pid) (l : List Pid) (hp : (q.items n).rel < 128)
    (hgt : ∀ i ∈ l, (q.items n).rel < (q.items i).rel) :
    sortR q (n :: l) = n :: sortR q l := by
  unfold sortR
  rw [range128_split ((q.items n).rel) hp, List.flatMap_append, List.flatMap_cons,
    List.flatMap_append, List.flatMap_cons]
  have hA : (List.range (q.items n).rel).flatMap
      (fun r => (n :: l).filter (fun i => decide ((q.items i).rel = r))) = [] := by
    apply List.flatMap_eq_nil_iff.2
    intro r hr
    have hr' := List.mem_range.1 hr
    apply List.filter_eq_nil_iff.2
    intro y hy hc
    rw [decide_eq_true_eq] at hc
    rcases List.mem_cons.1 hy with h | h
    · rw [h] at hc
      omega
    · have := hgt y h
      omega
  have hA' : (List.range (q.items n).rel).flatMap
      (fun r => l.filter (fun i => decide ((q.items i).rel = r))) = [] := by
    apply List.flatMap_eq_nil_iff.2
    intro r hr
    have hr' := List.mem_range.1 hr
    apply List.filter_eq_nil_iff.2
    intro y hy hc
    rw [decide_eq_true_eq] at hc
    have := hgt y hy
    omega
  have hat : (n :: l).filter (fun i => decide ((q.items i).rel = (q.items n).rel))
      = [n] := by
    rw [List.filter_cons, if_pos (by simp)]
    have hz : l.filter (fun i => decide ((q.items i).rel = (q.items n).rel)) = [] := by
      apply List.filter_eq_nil_iff.2
      intro y hy hc
      rw [decide_eq_true_eq] at hc
      have := hgt y hy
      omega
    rw [hz]
  have hat' : l.filter (fun i => decide ((q.items i).rel = (q.items n).rel)) = [] := by
    apply List.filter_eq_nil_iff.2
    intro y hy hc
    rw [decide_eq_true_eq] at hc
    have := hgt y hy
    omega
  have hB : (List.range' ((q.items n).rel + 1) (127 - (q.items n).rel)).flatMap
        (fun r => (n :: l).filter (fun i => decide ((q.items i).rel = r)))
      = (List.range' ((q.items n).rel + 1) (127 - (q.items n).rel)).flatMap
        (fun r => l.filter (fun i => decide ((q.items i).rel = r))) := by
    apply flatMap_congr_mem
    intro r hr
    obtain ⟨h1, h2⟩ := List.mem_range'_1.1 hr
    rw [List.filter_cons, if_neg (by simp; omega)]
  rw [hA, hA', hat, hat', hB]
  simp

theorem restIds_ge_pc (q : PQ) (st : List Pid) (hI : DrainInv q st) :
    ∀ i ∈ restIds q, q.pc ≤ (q.items i).rel := by
  intro i hi
  have hi' : i ∈ q.processing ++ binsFlat q := hi
  rcases List.mem_append.1 hi' with h | h
  · exact hI.hproc i h
  · obtain ⟨b, hb, hib⟩ := List.mem_flatMap.1 h
    have hb8 := List.mem_range.1 hb
    obtain ⟨h1, h2, h3⟩ := hI.hbin b hb8 i hib
    exact Nat.le_of_lt (bit_compare _ _ b h1 h2 h3)

theorem xor_lt_128 (a b : Nat) (ha : a < 128) (hb : b < 128) : a ^^^ b < 128 := by
  have h7 : (a ^^^ b) >>> 7 = 0 := by
    apply Nat.eq_of_testBit_eq
    intro j
    rw [Nat.testBit_shiftRight, Nat.testBit_xor, Nat.zero_testBit]
    have hpj : (128 : Nat) ≤ 2 ^ (7 + j) := by
      calc (128 : Nat) = 2 ^ 7 := by norm_num
      _ ≤ 2 ^ (7 + j) := Nat.pow_le_pow_right (by norm_num) (by omega)
    rw [Nat.testBit_lt_two_pow (by omega), Nat.testBit_lt_two_pow (by omega)]
    rfl
  have hd := shr_decomp (a ^^^ b) 7
  rw [h7] at hd
  have hm : (a ^^^ b) % 2 ^ 7 < 2 ^ 7 := Nat.mod_lt _ (by norm_num)
  norm_num at hd hm
  omega

theorem xor_high_facts (rel pc : Nat) (hlt : pc < rel) (hrel : rel ≤ 127) :
    get_high_index32 (rel ^^^ pc) < 7 ∧
    rel >>> (get_high_index32 (rel ^^^ pc) + 1) = pc >>> (get_high_index32 (rel ^^^ pc) + 1) ∧
    (rel >>> get_high_index32 (rel ^^^ pc)) % 2 = 1 ∧
    (pc >>> get_high_index32 (rel ^^^ pc)) % 2 = 0 := by
  have hne : rel ^^^ pc ≠ 0 := by
    intro h
    have := Nat.xor_eq_zero.1 h
    omega
  have hx1 : 1 ≤ rel ^^^ pc := Nat.one_le_iff_ne_zero.2 hne
  have hxlt : rel ^^^ pc < 128 := xor_lt_128 rel pc (by omega) (by omega)
  obtain ⟨hlo, hhi2⟩ := high_spec (rel ^^^ pc) hx1 (by omega)
  have hb7 : get_high_index32 (rel ^^^ pc) < 7 :=
    high_lt (rel ^^^ pc) 7 hx1 (by omega) (by norm_num; omega)
  set b := get_high_index32 (rel ^^^ pc) with hbdef
  have hxbit : ((rel ^^^ pc) >>> b) % 2 = 1 := by
    rw [Nat.shiftRight_eq_div_pow]
    have hge : 1 ≤ (rel ^^^ pc) / 2 ^ b := (Nat.one_le_div_iff (Nat.two_pow_pos b)).2 hlo
    have hlt2 : (rel ^^^ pc) / 2 ^ b < 2 := by
      rw [Nat.div_lt_iff_lt_mul (Nat.two_pow_pos b)]
      rw [Nat.pow_succ] at hhi2
      omega
    omega
  have hx0 : (rel ^^^ pc) >>> (b + 1) = 0 := by
    rw [Nat.shiftRight_eq_div_pow]
    exact Nat.div_eq_of_lt hhi2
  have hagree : rel >>> (b + 1) = pc >>> (b + 1) := by
    apply Nat.eq_of_testBit_eq
    intro j
    have h1 : (rel ^^^ pc).testBit (b + 1 + j) = false := by
      have h2 := congrArg (fun x => x.testBit j) hx0
      simp only [Nat.testBit_shiftRight, Nat.zero_testBit] at h2
      exact h2
    rw [Nat.testBit_xor] at h1
    have h2 : rel.testBit (b + 1 + j) = pc.testBit (b + 1 + j) := by
      rcases Bool.eq_false_or_eq_true (rel.testBit (b + 1 + j)) with h | h <;>
        rcases Bool.eq_false_or_eq_true (pc.testBit (b + 1 + j)) with h' | h' <;>
          rw [h, h'] at h1 ⊢ <;> simp_all
    rw [Nat.testBit_shiftRight, Nat.testBit_shiftRight, h2]
  have hdiff : ¬ ((rel >>> b) % 2 = 1 ↔ (pc >>> b) % 2 = 1) := by
    intro hsame
    have h1 : (rel ^^^ pc).testBit b = true := by
      rw [testBit_arith]
      exact decide_eq_true hxbit
    rw [Nat.testBit_xor, testBit_arith, testBit_arith] at h1
    by_cases ha : (rel >>> b) % 2 = 1 <;> by_cases hbq : (pc >>> b) % 2 = 1 <;>
      simp [ha, hbq] at h1 hsame
  have hr2 : (rel >>> b) % 2 < 2 := Nat.mod_lt _ (by norm_num)
  have hp2 : (pc >>> b) % 2 < 2 := Nat.mod_lt _ (by norm_num)
  by_cases hrb : (rel >>> b) % 2 = 1
  · refine ⟨hb7, hagree, hrb, ?_⟩
    by_contra hpb
    have hpb1 : (pc >>> b) % 2 = 1 := by omega
    exact hdiff ⟨fun _ => hpb1, fun _ => hrb⟩
  · exfalso
    have hrb0 : (rel >>> b) % 2 = 0 := by omega
    have hpb1 : (pc >>> b) % 2 = 1 := by
      by_contra hpb
      exact hdiff ⟨fun h => absurd h hrb, fun h => absurd h hpb⟩
    have := bit_compare pc rel b hagree.symm hpb1 hrb0
    omega

theorem map_sum_le {α : Type} (l : List α) (f : α → Nat) (c : Nat)
    (h : ∀ x ∈ l, f x ≤ c) : (l.map f).sum ≤ l.length * c := by
  induction l with
  | nil => simp
  | cons x xs ih =>
    rw [List.map_cons, List.sum_cons, List.length_cons]
    have h1 := h x (List.mem_cons_self x xs)
    have h2 := ih (fun y hy => h y (List.mem_cons_of_mem x hy))
    calc f x + (xs.map f).sum ≤ c + xs.length * c := by omega
    _ = (xs.length + 1) * c := by ring

theorem sum_range8_set (g g' : Nat → Nat) (i : Nat) (h : i < 8)
    (hne : ∀ b, b < 8 → b ≠ i → g' b = g b) :
    ((List.range 8).map g').sum + g i = ((List.range 8).map g).sum + g' i := by
  rw [range8_split i h, List.map_append, List.map_cons, List.sum_append, List.sum_cons,
    List.map_append, List.map_cons, List.sum_append, List.sum_cons]
  have hA : (List.range i).map g' = (List.range i).map g := by
    apply List.map_congr_left
    intro b hb
    have := List.mem_range.1 hb
    exact hne b (by omega) (by omega)
  have hB : (List.range' (i + 1) (7 - i)).map g' = (List.range' (i + 1) (7 - i)).map g := by
    apply List.map_congr_left
    intro b hb
    obtain ⟨h1, h2⟩ := List.mem_range'_1.1 hb
    exact hne b (by omega) (by omega)
  rw [hA, hB]
  omega

theorem batch_one (q : PQ) (st : List Pid) (hI : DrainInv q st) (n : Pid) (rest : List Pid)
    (hp : q.processing = n :: rest) :
    ∃ q2 st2,
      (∀ l, drainBatch (l + 1) q
        = if 0 < l ∧ q2.processing ≠ [] then drainBatch l q2 else q2) ∧
      DrainInv q2 st2 ∧ q2.done = q.done ∧ q2.pc = q.pc ∧
      q2.counter_imed = q.counter_imed ∧ q2.size = q.size ∧ q2.processing = rest ∧
      st2 ++ sortR q2 (restIds q2) = st ++ sortR q (restIds q) ∧
      MM q2 + 2 ≤ MM q := by
  obtain ⟨hdi, hlen8, hpc, hsd, hsi, hsq, hsz, hbound, hrel, hproc, hbin, hnd, hdist⟩ := hI
  have hrid : restIds q = n :: (rest ++ binsFlat q) := by
    show q.processing ++ binsFlat q = _
    rw [hp]
    rfl
  have hmemn : n ∈ restIds q := by
    rw [hrid]
    exact List.mem_cons_self _ _
  obtain ⟨hrn1, hrn127⟩ := hrel n hmemn
  have hpcn : q.pc ≤ (q.items n).rel := hproc n (by rw [hp]; exact List.mem_cons_self _ _)
  have hnd' : (st ++ (n :: (rest ++ binsFlat q))).Nodup := by
    rw [← hrid]
    exact hnd
  have hndR : (n :: (rest ++ binsFlat q)).Nodup := (List.nodup_append.1 hnd').2.1
  have hnin : n ∉ rest ++ binsFlat q := (List.nodup_cons.1 hndR).1
  have hdist' : ((n :: (rest ++ binsFlat q)).map (fun i => (q.items i).rel)).Nodup := by
    rw [← hrid]
    exact hdist
  have hmin : ∀ i ∈ rest ++ binsFlat q, q.pc ≤ (q.items i).rel := by
    intro i hi
    exact restIds_ge_pc q st
      ⟨hdi, hlen8, hpc, hsd, hsi, hsq, hsz, hbound, hrel, hproc, hbin, hnd, hdist⟩
      i (by rw [hrid]; exact List.mem_cons_of_mem n hi)
  have hgtn : ∀ i ∈ rest ++ binsFlat q, (q.items n).rel = q.pc →
      (q.items n).rel < (q.items i).rel := by
    intro i hi heq
    have h1 := hmin i hi
    have h2 : (q.items i).rel ≠ (q.items n).rel := by
      intro hc
      rw [List.map_cons, List.nodup_cons] at hdist'
      exact hdist'.1 (hc ▸ List.mem_map_of_mem (fun i => (q.items i).rel) hi)
    omega
  by_cases hc : (q.items n).rel = q.pc
  · -- the item is staged onto the immediate list
    have hupd_ne : ∀ i, i ≠ n →
        upd q.items n { q.items n with loc := Loc.imed } i = q.items i := by
      intro i hi
      unfold upd
      rw [if_neg hi]
    have hrid2 : restIds (stageQ q n rest) = rest ++ binsFlat q := rfl
    have hsq1 : 1 ≤ q.size_q := by
      rw [hsq, hrid]
      simp
    have hsqM : q.size_q < M32 := by
      rw [hsq]
      have := List.length_append st (restIds q)
      omega
    have hsiM : q.size_imed + 1 < M32 := by
      rw [hsi]
      have h1 : q.immediate.length ≤ st.length := by
        rw [← hdi, List.length_append]
        omega
      rw [hrid] at hbound
      simp at hbound
      omega
    refine ⟨stageQ q n rest, st ++ [n], ?_, ?_, rfl, rfl, rfl, rfl, rfl, ?_, ?_⟩
    · intro l
      have hstep : drainBatch (l + 1) q =
          (let it := q.items n
           let q1 : PQ := { q with processing := rest }
           let q2 := if it.rel ≠ q1.pc then priorityq_nq_only q1 n
             else { q1 with items := upd q1.items n { it with loc := Loc.imed },
                            size_q := dec32 q1.size_q, size_imed := inc32 q1.size_imed,
                            immediate := q1.immediate ++ [n] }
           if 0 < l ∧ q2.processing ≠ [] then drainBatch l q2 else q2) := by
        conv_lhs => unfold drainBatch
        rw [hp]
      simp only [] at hstep
      rw [if_neg (not_not_intro hc)] at hstep
      exact hstep
    · -- the drain invariant with the staged id appended
      refine ⟨?_, ?_, ?_, ?_, ?_, ?_, ?_, ?_, ?_, ?_, ?_, ?_, ?_⟩
      · show q.done ++ (q.immediate ++ [n]) = st ++ [n]
        rw [← List.append_assoc, hdi]
      · show q.bins.length = 8
        exact hlen8
      · show q.pc ≤ 128
        exact hpc
      · show q.size_done = q.done.length
        exact hsd
      · show inc32 q.size_imed = (q.immediate ++ [n]).length
        rw [inc32_small q.size_imed hsiM, List.length_append, hsi]
        rfl
      · show dec32 q.size_q = (restIds (stageQ q n rest)).length
        rw [hrid2, dec32_small q.size_q hsq1 hsqM, hsq, hrid]
        simp
      · show q.size = (st ++ [n]).length + (restIds (stageQ q n rest)).length
        rw [hrid2, hsz, hrid]
        simp
        omega
      · show (st ++ [n]).length + (restIds (stageQ q n rest)).length < M32
        rw [hrid2]
        rw [hrid] at hbound
        simp at hbound ⊢
        omega
      · intro i hi
        rw [hrid2] at hi
        show 1 ≤ (upd q.items n { q.items n with loc := Loc.imed } i).rel ∧
          (upd q.items n { q.items n with loc := Loc.imed } i).rel ≤ 127
        rw [hupd_ne i (by intro hc2; rw [hc2] at hi; exact hnin hi)]
        exact hrel i (by rw [hrid]; exact List.mem_cons_of_mem n hi)
      · intro i hi
        have hi' : i ∈ rest := hi
        have hi2 : i ∈ rest ++ binsFlat q := List.mem_append.2 (Or.inl hi')
        show (stageQ q n rest).pc ≤ (upd q.items n { q.items n with loc := Loc.imed } i).rel
        show q.pc ≤ (upd q.items n { q.items n with loc := Loc.imed } i).rel
        rw [hupd_ne i (by intro hc2; rw [hc2] at hi2; exact hnin hi2)]
        exact hproc i (by rw [hp]; exact List.mem_cons_of_mem n hi')
      · intro b hb8 i hi
        have hib : i ∈ q.bins.getD b [] := hi
        have hi2 : i ∈ rest ++ binsFlat q := by
          apply List.mem_append.2 (Or.inr ?_)
          apply List.mem_flatMap.2
          exact ⟨b, List.mem_range.2 hb8, hib⟩
        show ((upd q.items n { q.items n with loc := Loc.imed } i).rel) >>> (b + 1)
            = q.pc >>> (b + 1) ∧
          ((upd q.items n { q.items n with loc := Loc.imed } i).rel) >>> b % 2 = 1 ∧
          q.pc >>> b % 2 = 0
        rw [hupd_ne i (by intro hc2; rw [hc2] at hi2; exact hnin hi2)]
        exact hbin b hb8 i hib
      · show ((st ++ [n]) ++ restIds (stageQ q n rest)).Nodup
        rw [hrid2]
        have he : (st ++ [n]) ++ (rest ++ binsFlat q)
            = st ++ (n :: (rest ++ binsFlat q)) := by
          rw [List.append_assoc]
          rfl
        rw [he]
        exact hnd'
      · show ((restIds (stageQ q n rest)).map
            (fun i => (upd q.items n { q.items n with loc := Loc.imed } i).rel)).Nodup
        rw [hrid2]
        have he : (rest ++ binsFlat q).map
              (fun i => (upd q.items n { q.items n with loc := Loc.imed } i).rel)
            = (rest ++ binsFlat q).map (fun i => (q.items i).rel) := by
          apply List.map_congr_left
          intro i hi
          rw [hupd_ne i (by intro hc2; rw [hc2] at hi; exact hnin hi)]
        rw [he]
        rw [List.map_cons, List.nodup_cons] at hdist'
        exact hdist'.2
    · -- the staged id moves from the head of the pending order to the stable prefix
      rw [hrid2, hrid]
      have h1 : sortR (stageQ q n rest) (rest ++ binsFlat q)
          = sortR q (rest ++ binsFlat q) := by
        apply sortR_congr_items
        intro i hi
        show (upd q.items n { q.items n with loc := Loc.imed } i).rel = (q.items i).rel
        rw [hupd_ne i (by intro hc2; rw [hc2] at hi; exact hnin hi)]
      rw [h1]
      have h2 : sortR q (n :: (rest ++ binsFlat q)) = n :: sortR q (rest ++ binsFlat q) :=
        sortR_stage q n (rest ++ binsFlat q) (by omega) (fun i hi => hgtn i hi hc)
      rw [h2, List.append_assoc]
      rfl
    · -- the measure drops by two: the staged item leaves processing
      unfold MM
      have hw : rest.map (wProc (stageQ q n rest)) = rest.map (wProc q) := by
        apply List.map_congr_left
        intro i hi
        have hi2 : i ∈ rest ++ binsFlat q := List.mem_append.2 (Or.inl hi)
        have hne : i ≠ n := by intro hc2; rw [hc2] at hi2; exact hnin hi2
        show (if (upd q.items n { q.items n with loc := Loc.imed } i).rel = q.pc then 1
          else 2 * get_high_index32
            ((upd q.items n { q.items n with loc := Loc.imed } i).rel ^^^ q.pc) + 4) = wProc q i
        rw [hupd_ne i hne]
        rfl
      show 4 * ((List.range 8).map (fun b => (q.bins.getD b []).length * (2 * b + 3))).sum
          + 4 * (rest.map (wProc (stageQ q n rest))).sum
          + 2 * (q.immediate ++ [n]).length
          + (if q.counter_imed = 0 then 1 else 0) + 2 ≤ MM q
      rw [hw]
      unfold MM
      rw [hp, List.map_cons, List.sum_cons]
      have hwn : wProc q n = 1 := by
        unfold wProc
        rw [if_pos hc]
      rw [hwn, List.length_append]
      simp
      omega
  · -- the item is pushed back into the bucket of the highest differing bit
    have hlt : q.pc < (q.items n).rel := by omega
    obtain ⟨hb7, hagree, hrbit, hpbit⟩ := xor_high_facts (q.items n).rel q.pc hlt hrn127
    have hArg : nqArg q.pc (q.items n).rel = (q.items n).rel ^^^ q.pc := by
      have h0 : (if (q.items n).rel = 0 then 255 else (q.items n).rel - 1)
          = (q.items n).rel - 1 := by
        rw [if_neg (by omega)]
      unfold nqArg
      rw [h0, if_pos (by omega)]
    have hnq : priorityq_nq_only { q with processing := rest } n = rebinQ q n rest := by
      unfold priorityq_nq_only rebinQ
      rw [hArg]
    have hgetD : ∀ b, (rebinQ q n rest).bins.getD b []
        = if b = get_high_index32 ((q.items n).rel ^^^ q.pc)
          then q.bins.getD (get_high_index32 ((q.items n).rel ^^^ q.pc)) [] ++ [n]
          else q.bins.getD b [] := by
      intro b
      show (q.bins.set (get_high_index32 ((q.items n).rel ^^^ q.pc))
        (q.bins.getD (get_high_index32 ((q.items n).rel ^^^ q.pc)) [] ++ [n])).getD b [] = _
      by_cases hbb : b = get_high_index32 ((q.items n).rel ^^^ q.pc)
      · rw [if_pos hbb, hbb]
        exact getD_set_self _ _ _ _ (by omega)
      · rw [if_neg hbb]
        exact getD_set_ne _ _ _ _ _ hbb
    have hfp : (binsFlat (rebinQ q n rest)).Perm (binsFlat q ++ [n]) := by
      show ((List.range 8).flatMap (fun b => (q.bins.set
        (get_high_index32 ((q.items n).rel ^^^ q.pc))
        (q.bins.getD (get_high_index32 ((q.items n).rel ^^^ q.pc)) [] ++ [n])).getD b [])).Perm
        (((List.range 8).flatMap (fun b => q.bins.getD b [])) ++ [n])
      exact flat_set_perm q.bins _ (by omega) hlen8 n
    have hrid2 : restIds (rebinQ q n rest) = rest ++ binsFlat (rebinQ q n rest) := rfl
    have hpm : (restIds (rebinQ q n rest)).Perm (restIds q) := by
      rw [hrid2, hrid]
      have h1 := List.Perm.append_left rest hfp
      apply h1.trans
      have h2 : (rest ++ (binsFlat q ++ [n])).Perm ((rest ++ binsFlat q) ++ [n]) := by
        rw [List.append_assoc]
      have h3 : ((rest ++ binsFlat q) ++ [n]).Perm ([n] ++ (rest ++ binsFlat q)) :=
        List.perm_append_comm
      exact h2.trans h3
    have hlenp := hpm.length_eq
    refine ⟨rebinQ q n rest, st, ?_, ?_, rfl, rfl, rfl, rfl, rfl, ?_, ?_⟩
    · intro l
      have hstep : drainBatch (l + 1) q =
          (let it := q.items n
           let q1 : PQ := { q with processing := rest }
           let q2 := if it.rel ≠ q1.pc then priorityq_nq_only q1 n
             else { q1 with items := upd q1.items n { it with loc := Loc.imed },
                            size_q := dec32 q1.size_q, size_imed := inc32 q1.size_imed,
                            immediate := q1.immediate ++ [n] }
           if 0 < l ∧ q2.processing ≠ [] then drainBatch l q2 else q2) := by
        conv_lhs => unfold drainBatch
        rw [hp]
      simp only [] at hstep
      rw [if_pos hc, hnq] at hstep
      exact hstep
    · -- the drain invariant is preserved with the same stable prefix
      refine ⟨hdi, ?_, hpc, hsd, hsi, ?_, ?_, ?_, ?_, ?_, ?_, ?_, ?_⟩
      · show (q.bins.set (get_high_index32 ((q.items n).rel ^^^ q.pc))
          (q.bins.getD (get_high_index32 ((q.items n).rel ^^^ q.pc)) [] ++ [n])).length = 8
        rw [List.length_set, hlen8]
      · show q.size_q = (restIds (rebinQ q n rest)).length
        rw [hsq, hlenp]
      · show q.size = st.length + (restIds (rebinQ q n rest)).length
        rw [hsz, hlenp]
      · rw [hlenp]
        exact hbound
      · intro i hi
        exact hrel i (hpm.mem_iff.1 hi)
      · intro i hi
        have hi' : i ∈ rest := hi
        exact hproc i (by rw [hp]; exact List.mem_cons_of_mem n hi')
      · intro b hb8 i hi
        have hib := hi
        rw [hgetD b] at hib
        by_cases hbb : b = get_high_index32 ((q.items n).rel ^^^ q.pc)
        · rw [if_pos hbb] at hib
          rcases List.mem_append.1 hib with h | h
          · rw [hbb]
            exact hbin _ (by omega) i h
          · have hin : i = n := List.mem_singleton.1 h
            rw [hin, hbb]
            exact ⟨hagree, hrbit, hpbit⟩
        · rw [if_neg hbb] at hib
          exact hbin b hb8 i hib
      · exact ((List.Perm.append_left st hpm).symm).nodup hnd
      · have h1 : ((restIds (rebinQ q n rest)).map (fun i => (q.items i).rel)).Perm
            ((restIds q).map (fun i => (q.items i).rel)) := hpm.map _
        exact h1.symm.nodup hdist
    · -- the sorted remainder is unchanged (same ids, same priorities)
      have h1 : sortR (rebinQ q n rest) (restIds (rebinQ q n rest))
          = sortR q (restIds (rebinQ q n rest)) := by
        apply sortR_congr_items
        intro i hi
        rfl
      rw [h1]
      have h2 : sortR q (restIds q) = sortR q (restIds (rebinQ q n rest)) :=
        sortR_perm q _ _ hpm.symm hdist
      rw [← h2]
    · -- the measure drops by four: the item moves to a strictly lighter bucket
      unfold MM
      have hw : rest.map (wProc (rebinQ q n rest)) = rest.map (wProc q) := by
        apply List.map_congr_left
        intro i hi
        rfl
      show 4 * ((List.range 8).map
            (fun b => ((rebinQ q n rest).bins.getD b []).length * (2 * b + 3))).sum
          + 4 * (rest.map (wProc (rebinQ q n rest))).sum
          + 2 * q.immediate.length
          + (if q.counter_imed = 0 then 1 else 0) + 2 ≤ MM q
      rw [hw]
      unfold MM
      rw [hp, List.map_cons, List.sum_cons]
      have hwn : wProc q n = 2 * get_high_index32 ((q.items n).rel ^^^ q.pc) + 4 := by
        unfold wProc
        rw [if_neg hc]
      have hsum := sum_range8_set
        (fun b => (q.bins.getD b []).length * (2 * b + 3))
        (fun b => ((rebinQ q n rest).bins.getD b []).length * (2 * b + 3))
        (get_high_index32 ((q.items n).rel ^^^ q.pc)) (by omega)
        (by intro b hb8 hbne
            show ((rebinQ q n rest).bins.getD b []).length * (2 * b + 3)
              = (q.bins.getD b []).length * (2 * b + 3)
            rw [hgetD b, if_neg hbne])
      have hat : ((rebinQ q n rest).bins.getD
            (get_high_index32 ((q.items n).rel ^^^ q.pc)) []).length
          = (q.bins.getD (get_high_index32 ((q.items n).rel ^^^ q.pc)) []).length + 1 := by
        rw [hgetD _, if_pos rfl, List.length_append]
        rfl
      simp only [] at hsum
      rw [hat] at hsum
      have hexp : ((q.bins.getD (get_high_index32 ((q.items n).rel ^^^ q.pc)) []).length + 1)
            * (2 * get_high_index32 ((q.items n).rel ^^^ q.pc) + 3)
          = (q.bins.getD (get_high_index32 ((q.items n).rel ^^^ q.pc)) []).length
            * (2 * get_high_index32 ((q.items n).rel ^^^ q.pc) + 3)
            + (2 * get_high_index32 ((q.items n).rel ^^^ q.pc) + 3) := by
        ring
      rw [hexp] at hsum
      rw [hwn]
      omega

theorem MM_eq_parts (q q' : PQ) (hb : q'.bins = q.bins) (hpr : q'.processing = q.processing)
    (hit : q'.items = q.items) (hpcq : q'.pc = q.pc) :
    MM q' = 4 * ((List.range 8).map (fun b => (q.bins.getD b []).length * (2 * b + 3))).sum
      + 4 * (q.processing.map (wProc q)).sum + 2 * q'.immediate.length
      + (if q'.counter_imed = 0 then 1 else 0) := by
  unfold MM
  have hw : wProc q' = wProc q := by
    funext i
    unfold wProc
    rw [hit, hpcq]
  rw [hb, hpr, hw]

theorem drainBatch_inv : ∀ (l : Nat) (q : PQ) (st : List Pid), DrainInv q st →
    ∃ st', DrainInv (drainBatch l q) st' ∧
      (drainBatch l q).done = q.done ∧ (drainBatch l q).pc = q.pc ∧
      (drainBatch l q).counter_imed = q.counter_imed ∧ (drainBatch l q).size = q.size ∧
      st' ++ sortR (drainBatch l q) (restIds (drainBatch l q)) = st ++ sortR q (restIds q) ∧
      MM (drainBatch l q) ≤ MM q ∧
      (1 ≤ l → q.processing ≠ [] → MM (drainBatch l q) + 2 ≤ MM q) := by
  intro l
  induction l with
  | zero =>
    intro q st hI
    exact ⟨st, hI, rfl, rfl, rfl, rfl, rfl, Nat.le_refl _, fun h => absurd h (by omega)⟩
  | succ l ih =>
    intro q st hI
    cases hp : q.processing with
    | nil =>
      have heq : drainBatch (l + 1) q = q := by
        conv_lhs => unfold drainBatch
        rw [hp]
      rw [heq]
      exact ⟨st, hI, rfl, rfl, rfl, rfl, rfl, Nat.le_refl _, fun _ hpr => absurd rfl hpr⟩
    | cons n rest =>
      obtain ⟨q2, st2, hunf, h2inv, h2done, h2pc, h2ci, h2sz, h2proc, h2sort, h2MM⟩ :=
        batch_one q st hI n rest hp
      rw [hunf l]
      by_cases hcont : 0 < l ∧ q2.processing ≠ []
      · rw [if_pos hcont]
        obtain ⟨st3, h3inv, h3done, h3pc, h3ci, h3sz, h3sort, h3MM, h3MMs⟩ := ih q2 st2 h2inv
        exact ⟨st3, h3inv, by rw [h3done, h2done], by rw [h3pc, h2pc],
          by rw [h3ci, h2ci], by rw [h3sz, h2sz], by rw [h3sort, h2sort],
          by omega, fun _ _ => by omega⟩
      · rw [if_neg hcont]
        exact ⟨st2, h2inv, h2done, h2pc, h2ci, h2sz, h2sort, by omega, fun _ _ => by omega⟩

theorem wproc_new_le (rel pc i : Nat) (h1 : rel >>> (i + 1) = pc >>> (i + 1))
    (h2 : (rel >>> i) % 2 = 1) (hi : i < 8) :
    (if rel = 2 ^ (i + 1) * (pc >>> (i + 1)) + 2 ^ i then 1
      else 2 * get_high_index32 (rel ^^^ (2 ^ (i + 1) * (pc >>> (i + 1)) + 2 ^ i)) + 4)
      ≤ 2 * i + 2 := by
  by_cases he : rel = 2 ^ (i + 1) * (pc >>> (i + 1)) + 2 ^ i
  · rw [if_pos he]
    omega
  · rw [if_neg he]
    have hxne : rel ^^^ (2 ^ (i + 1) * (pc >>> (i + 1)) + 2 ^ i) ≠ 0 :=
      fun h => he (Nat.xor_eq_zero.1 h)
    have hx0 : (rel ^^^ (2 ^ (i + 1) * (pc >>> (i + 1)) + 2 ^ i)) >>> i = 0 := by
      apply Nat.eq_of_testBit_eq
      intro j
      rw [Nat.testBit_shiftRight, Nat.testBit_xor, Nat.zero_testBit]
      cases j with
      | zero =>
        have hrb : rel.testBit i = true := by
          rw [testBit_arith]
          exact decide_eq_true h2
        have hnb : (2 ^ (i + 1) * (pc >>> (i + 1)) + 2 ^ i).testBit i = true := by
          rw [testBit_arith]
          exact decide_eq_true (npc_bit_i pc i)
        rw [Nat.add_zero, hrb, hnb]
        rfl
      | succ j' =>
        have hrel' : rel >>> (i + 1) = (2 ^ (i + 1) * (pc >>> (i + 1)) + 2 ^ i) >>> (i + 1) := by
          rw [h1, npc_shr_succ]
        have hrb : rel.testBit (i + (j' + 1))
            = (2 ^ (i + 1) * (pc >>> (i + 1)) + 2 ^ i).testBit (i + (j' + 1)) := by
          have e := congrArg (fun x => x.testBit j') hrel'
          simp only [Nat.testBit_shiftRight] at e
          rw [(by omega : i + (j' + 1) = i + 1 + j'), e]
        rw [hrb]
        cases (2 ^ (i + 1) * (pc >>> (i + 1)) + 2 ^ i).testBit (i + (j' + 1)) <;> rfl
    have hxlt : rel ^^^ (2 ^ (i + 1) * (pc >>> (i + 1)) + 2 ^ i) < 2 ^ i := by
      have hd := shr_decomp (rel ^^^ (2 ^ (i + 1) * (pc >>> (i + 1)) + 2 ^ i)) i
      rw [hx0] at hd
      have hm : (rel ^^^ (2 ^ (i + 1) * (pc >>> (i + 1)) + 2 ^ i)) % 2 ^ i < 2 ^ i :=
        Nat.mod_lt _ (Nat.two_pow_pos i)
      omega
    cases i with
    | zero =>
      exfalso
      have : rel ^^^ (2 ^ 1 * (pc >>> 1) + 2 ^ 0) = 0 := by
        have := hxlt
        norm_num at this
        omega
      exact hxne this
    | succ i' =>
      have hhl : get_high_index32 (rel ^^^ (2 ^ (i' + 1 + 1) * (pc >>> (i' + 1 + 1)) + 2 ^ (i' + 1)))
          < i' + 1 :=
        high_lt _ (i' + 1) (Nat.one_le_iff_ne_zero.2 hxne) (by omega) hxlt
      omega

theorem advance_MM (q : PQ) (st : List Pid) (hI : DrainInv q st)
    (hpe : q.processing = []) (hne : binsFlat q ≠ []) :
    MM (priorityq_advance_priority_counter q) + 4 ≤ MM q := by
  obtain ⟨i, hi7, hbig⟩ := advance_step q st hI hpe hne
  simp only [] at hbig
  obtain ⟨hinv, hdone, himm, hitems, hci, hsi2, hsd2, hsz2, hsq2, hperm, hlt,
    hpceq, hprocE, hbinne, hbit, hbins⟩ := hbig
  set r := priorityq_advance_priority_counter q with hr
  have hwb : ∀ x ∈ q.bins.getD i [], wProc r x ≤ 2 * i + 2 := by
    intro x hx
    obtain ⟨f1, f2, f3⟩ := hI.hbin i (by omega) x hx
    unfold wProc
    rw [hitems, hpceq]
    exact wproc_new_le (q.items x).rel q.pc i f1 f2 (by omega)
  have hsump : ((q.bins.getD i []).map (wProc r)).sum
      ≤ (q.bins.getD i []).length * (2 * i + 2) := map_sum_le _ _ _ hwb
  have hsumb := sum_range8_set
    (fun b => (q.bins.getD b []).length * (2 * b + 3))
    (fun b => (r.bins.getD b []).length * (2 * b + 3))
    i (by omega)
    (by intro b hb8 hbne
        show (r.bins.getD b []).length * (2 * b + 3) = (q.bins.getD b []).length * (2 * b + 3)
        rw [hbins b, if_neg hbne])
  simp only [] at hsumb
  rw [hbins i, if_pos rfl] at hsumb
  simp only [List.length_nil, Nat.zero_mul, Nat.add_zero] at hsumb
  have hlen1 : 1 ≤ (q.bins.getD i []).length := List.length_pos.2 hbinne
  have hsplit : (q.bins.getD i []).length * (2 * i + 3)
      = (q.bins.getD i []).length * (2 * i + 2) + (q.bins.getD i []).length := by
    ring
  unfold MM
  rw [hprocE, himm, hci, hpe]
  simp only [List.map_nil, List.sum_nil]
  omega

theorem advPQ_batch (q : PQ) (h1 : q.size_q ≠ 0) (h2 : q.processing ≠ []) :
    priorityq_advance_priority_queue q = drainBatch (get_high_index32 q.size_q + 1) q := by
  unfold priorityq_advance_priority_queue
  rw [if_pos h1, if_pos h2]

theorem advPQ_counter (q : PQ) (h1 : q.size_q ≠ 0) (h2 : q.processing = []) :
    priorityq_advance_priority_queue q = priorityq_advance_priority_counter q := by
  unfold priorityq_advance_priority_queue
  rw [if_pos h1, if_neg (fun hc => hc h2)]

theorem advPQ_step (q : PQ) (st : List Pid) (hI : DrainInv q st) :
    ∃ st2,
      DrainInv (priorityq_advance_priority_queue q) st2 ∧
      (priorityq_advance_priority_queue q).done = q.done ∧
      (priorityq_advance_priority_queue q).size = q.size ∧
      st2 ++ sortR (priorityq_advance_priority_queue q)
          (restIds (priorityq_advance_priority_queue q)) = st ++ sortR q (restIds q) ∧
      MM (priorityq_advance_priority_queue q) ≤ MM q ∧
      (restIds q ≠ [] → MM (priorityq_advance_priority_queue q) + 1 ≤ MM q) := by
  by_cases hq0 : q.size_q = 0
  · rw [advPQ_noop q hq0]
    refine ⟨st, hI, rfl, rfl, rfl, Nat.le_refl _, ?_⟩
    intro hrne
    exfalso
    apply hrne
    have h1 := hI.hsq
    rw [hq0] at h1
    exact List.length_eq_zero.1 h1.symm
  · have hrne : restIds q ≠ [] := by
      intro hc
      apply hq0
      rw [hI.hsq, hc]
      rfl
    by_cases hpne : q.processing ≠ []
    · rw [advPQ_batch q hq0 hpne]
      obtain ⟨st2, h2inv, h2done, h2pc, h2ci, h2sz, h2sort, h2MM, h2MMs⟩ :=
        drainBatch_inv (get_high_index32 q.size_q + 1) q st hI
      exact ⟨st2, h2inv, h2done, h2sz, h2sort, h2MM,
        fun _ => by have := h2MMs (by omega) hpne; omega⟩
    · have hpe : q.processing = [] := by
        by_contra hc
        exact hpne hc
      rw [advPQ_counter q hq0 hpe]
      have hbne : binsFlat q ≠ [] := by
        intro hc
        apply hrne
        show q.processing ++ binsFlat q = []
        rw [hpe, hc]
        rfl
      obtain ⟨i, hi7, hbig⟩ := advance_step q st hI hpe hbne
      simp only [] at hbig
      obtain ⟨hinv, hdone, himm, hitems, hci, hsi2, hsd2, hsz2, hsq2, hperm, hlt,
        hpceq, hprocE, hbinne, hbit, hbins⟩ := hbig
      have hMM := advance_MM q st hI hpe hbne
      refine ⟨st, hinv, hdone, hsz2, ?_, by omega, fun _ => by omega⟩
      have h1 : sortR (priorityq_advance_priority_counter q)
            (restIds (priorityq_advance_priority_counter q))
          = sortR q (restIds (priorityq_advance_priority_counter q)) := by
        apply sortR_congr_items
        intro x hx
        rw [hitems]
      have hnd2 : ((restIds (priorityq_advance_priority_counter q)).map
          (fun x => (q.items x).rel)).Nodup := by
        have h3 := hinv.hdist
        have h4 : (restIds (priorityq_advance_priority_counter q)).map
              (fun x => ((priorityq_advance_priority_counter q).items x).rel)
            = (restIds (priorityq_advance_priority_counter q)).map
              (fun x => (q.items x).rel) := by
          apply List.map_congr_left
          intro x hx
          rw [hitems]
        rw [h4] at h3
        exact h3
      have h2 : sortR q (restIds (priorityq_advance_priority_counter q))
          = sortR q (restIds q) := sortR_perm q _ _ hperm hnd2
      rw [h1, h2]

theorem body_step (q : PQ) (st : List Pid) (hI : DrainInv q st) :
    ∃ st2 ext,
      DrainInv (priorityq_advance_priority_queue (priorityq_advance_immediates q)) st2 ∧
      (priorityq_advance_priority_queue (priorityq_advance_immediates q)).done
        = q.done ++ ext ∧
      (priorityq_advance_priority_queue (priorityq_advance_immediates q)).size = q.size ∧
      st2 ++ sortR (priorityq_advance_priority_queue (priorityq_advance_immediates q))
          (restIds (priorityq_advance_priority_queue (priorityq_advance_immediates q)))
        = st ++ sortR q (restIds q) ∧
      MM (priorityq_advance_priority_queue (priorityq_advance_immediates q)) ≤ MM q ∧
      (q.size ≠ 0 →
        (priorityq_advance_priority_queue (priorityq_advance_immediates q)).done = [] →
        MM (priorityq_advance_priority_queue (priorityq_advance_immediates q)) + 1 ≤ MM q) := by
  obtain ⟨h1inv, h1proc, h1bins, h1items, h1pc, h1class⟩ := advImed_step q st hI
  set q1 := priorityq_advance_immediates q with hq1
  have hrest1 : restIds q1 = restIds q := by
    show q1.processing ++ (List.range 8).flatMap (fun b => q1.bins.getD b [])
      = q.processing ++ (List.range 8).flatMap (fun b => q.bins.getD b [])
    rw [h1proc, h1bins]
  have hsz1 : q1.size = q.size := by
    have e1 := h1inv.hsz
    have e2 := hI.hsz
    rw [hrest1] at e1
    omega
  have hsort1 : sortR q1 (restIds q1) = sortR q (restIds q) := by
    rw [hrest1]
    apply sortR_congr_items
    intro x hx
    rw [h1items]
  have hilen : q1.done.length + q1.immediate.length = q.done.length + q.immediate.length := by
    have e1 := congrArg List.length h1inv.hdi
    have e2 := congrArg List.length hI.hdi
    rw [List.length_append] at e1 e2
    omega
  have e1 := MM_eq_parts q q1 h1bins h1proc h1items h1pc
  have e2 := MM_eq_parts q q rfl rfl rfl rfl
  have hst1 : (if q1.counter_imed = 0 then 1 else 0) ≤ 1 := by
    by_cases h : q1.counter_imed = 0
    · rw [if_pos h]
    · rw [if_neg h]
      omega
  have hst0 : 0 ≤ (if q.counter_imed = 0 then 1 else 0) := Nat.zero_le _
  -- done extension and measure for the immediate phase
  have hkey : (∃ e, q1.done = q.done ++ e) ∧ MM q1 ≤ MM q ∧
      (q1.done = q.done → q1.immediate = q.immediate →
        (q.size ≠ 0 → q1.done = [] → MM q1 + 1 ≤ MM q) ∨ (q1 = q ∧ q.immediate = [])) := by
    rcases h1class with ⟨hqq, himm0⟩ | ⟨hci0, himne, heq⟩ | ⟨mv, hmvne, hdn⟩
    · refine ⟨⟨[], by rw [hqq, List.append_nil]⟩, by rw [hqq], ?_⟩
      intro _ _
      exact Or.inr ⟨hqq, himm0⟩
    · have hd : q1.done = q.done := by rw [heq]
      have hi : q1.immediate = q.immediate := by rw [heq]
      have hc1 : q1.counter_imed = get_high_index32 q.size_imed + 1 := by rw [heq]
      refine ⟨⟨[], by rw [hd, List.append_nil]⟩, ?_, ?_⟩
      · rw [e1, e2, hi, hc1, if_neg (by omega), if_pos hci0]
        omega
      · intro _ _
        left
        intro _ _
        rw [e1, e2, hi, hc1, if_neg (by omega), if_pos hci0]
    · have hlen : q1.immediate.length + mv.length = q.immediate.length := by
        have e3 := congrArg List.length hdn
        rw [List.length_append] at e3
        omega
      have hmv1 : 1 ≤ mv.length := List.length_pos.2 hmvne
      refine ⟨⟨mv, hdn⟩, ?_, ?_⟩
      · rw [e1, e2]
        omega
      · intro hdd _
        exfalso
        rw [hdn] at hdd
        have := congrArg List.length hdd
        rw [List.length_append] at this
        omega
  obtain ⟨⟨ext1, hext1⟩, hMM1, hstrict1⟩ := hkey
  obtain ⟨st2, h2inv, h2done, h2sz, h2sort, h2MM, h2MMs⟩ := advPQ_step q1 st h1inv
  refine ⟨st2, ext1, h2inv, by rw [h2done, hext1], by rw [h2sz, hsz1],
    by rw [h2sort, hsort1], by omega, ?_⟩
  intro hszne hdone2
  rw [h2done] at hdone2
  have hd1e : q1.done = [] := hdone2
  have hqde : q.done = [] := by
    rw [hext1] at hd1e
    exact (List.append_eq_nil.1 hd1e).1
  have hext1e : ext1 = [] := by
    rw [hext1] at hd1e
    exact (List.append_eq_nil.1 hd1e).2
  have hd1q : q1.done = q.done := by
    rw [hd1e, hqde]
  have himm : q1.immediate = q.immediate := by
    have e3 := h1inv.hdi
    have e4 := hI.hdi
    rw [hd1q] at e3
    have e5 : q.done ++ q1.immediate = q.done ++ q.immediate := by rw [e3, e4]
    exact List.append_cancel_left e5
  rcases hstrict1 hd1q himm with hstrict | ⟨hq1q, himm0⟩
  · have := hstrict hszne hd1e
    omega
  · -- the immediate phase was a no-op on an empty immediate list
    have hste : st = [] := by
      have e4 := hI.hdi
      rw [hqde, himm0] at e4
      exact e4.symm
    have hrne : restIds q1 ≠ [] := by
      rw [hrest1]
      intro hc
      apply hszne
      rw [hI.hsz, hste, hc]
      rfl
    have h6 := h2MMs hrne
    rw [hq1q] at h6 ⊢
    omega

theorem loop_pop : ∀ (fuel : Nat) (q : PQ) (st : List Pid), DrainInv q st →
    MM q < fuel → q.size ≠ 0 →
    ∃ q2 n rest st2,
      dequeue_loop fuel q
        = (some n,
           { q2 with done := rest,
                     items := upd q2.items n { q2.items n with linked := false } }) ∧
      q2.done = n :: rest ∧ DrainInv q2 st2 ∧
      st2 ++ sortR q2 (restIds q2) = st ++ sortR q (restIds q) ∧
      MM q2 ≤ MM q ∧ q2.size = q.size := by
  intro fuel
  induction fuel with
  | zero =>
    intro q st hI hf hsz
    omega
  | succ fuel ih =>
    intro q st hI hf hsz
    obtain ⟨st2, ext, h2inv, h2done, h2sz, h2sort, h2MM, h2MMs⟩ := body_step q st hI
    cases hd : (priorityq_advance_priority_queue (priorityq_advance_immediates q)).done with
    | cons n rest =>
      refine ⟨priorityq_advance_priority_queue (priorityq_advance_immediates q), n, rest,
        st2, ?_, hd, h2inv, h2sort, h2MM, h2sz⟩
      conv_lhs => unfold dequeue_loop
      simp only []
      rw [hd]
    | nil =>
      have hstrict := h2MMs hsz hd
      have heq : dequeue_loop (fuel + 1) q
          = dequeue_loop fuel (priorityq_advance_priority_queue
              (priorityq_advance_immediates q)) := by
        conv_lhs => unfold dequeue_loop
        simp only []
        rw [hd]
      rw [heq]
      obtain ⟨q2, n, rest, st3, h3eq, h3done, h3inv, h3sort, h3MM, h3sz⟩ :=
        ih (priorityq_advance_priority_queue (priorityq_advance_immediates q)) st2 h2inv
          (by omega) (by rw [h2sz]; exact hsz)
      exact ⟨q2, n, rest, st3, h3eq, h3done, h3inv, by rw [h3sort, h2sort],
        by omega, by rw [h3sz, h2sz]⟩

theorem dq_step (q : PQ) (st : List Pid) (hI : DrainInv q st) (fuel : Nat)
    (hf : MM q < fuel) (hsznz : q.size ≠ 0) :
    ∃ n q4 st4,
      priorityq_dequeue q fuel = (some n, q4) ∧ DrainInv q4 st4 ∧
      (n :: st4) ++ sortR q4 (restIds q4) = st ++ sortR q (restIds q) ∧
      MM q4 ≤ MM q ∧ q4.size + 1 = q.size := by
  obtain ⟨q2, n, rest, st2, heq, hd, h2inv, h2sort, h2MM, h2sz⟩ :=
    loop_pop fuel q st hI hf hsznz
  obtain ⟨hdi, hlen8, hpc, hsd, hsi, hsq, hsz, hbound, hrel, hproc, hbin, hnd, hdist⟩ := h2inv
  obtain ⟨w, hw⟩ : ∃ w, w = { q2.items n with linked := false } := ⟨_, rfl⟩
  obtain ⟨w2, hw2⟩ : ∃ w2, w2 = { upd q2.items n w n with loc := Loc.none } := ⟨_, rfl⟩
  obtain ⟨F, hF⟩ : ∃ F, F = upd (upd q2.items n w) n w2 := ⟨_, rfl⟩
  have hFne : ∀ i, i ≠ n → F i = q2.items i := by
    intro i hne
    rw [hF]
    unfold upd
    rw [if_neg hne, if_neg hne]
  have hst2 : st2 = n :: (rest ++ q2.immediate) := by
    rw [← hdi, hd]
    rfl
  have hnd' : (n :: ((rest ++ q2.immediate) ++ restIds q2)).Nodup := by
    have h1 := hnd
    rw [hst2] at h1
    exact h1
  have hnin : n ∉ (rest ++ q2.immediate) ++ restIds q2 := (List.nodup_cons.1 hnd').1
  have hninR : n ∉ restIds q2 := fun h => hnin (List.mem_append.2 (Or.inr h))
  have hlsd : q2.done.length ≤ st2.length := by
    rw [← hdi, List.length_append]
    omega
  have hsd1 : 1 ≤ q2.size_done := by
    rw [hsd, hd, List.length_cons]
    omega
  have hsdM : q2.size_done < M32 := by
    rw [hsd]
    omega
  have hsz1 : 1 ≤ q2.size := by
    rw [hsz, hst2, List.length_cons]
    omega
  have hszM : q2.size < M32 := by
    rw [hsz]
    omega
  refine ⟨n,
    { q2 with done := rest,
              size_done := dec32 q2.size_done,
              size := dec32 q2.size,
              items := F },
    rest ++ q2.immediate, ?_, ?_, ?_, ?_, ?_⟩
  · unfold priorityq_dequeue
    rw [if_pos hsznz, heq, hF, hw2, hw]
  · refine ⟨?_, ?_, ?_, ?_, ?_, ?_, ?_, ?_, ?_, ?_, ?_, ?_, ?_⟩
    · show rest ++ q2.immediate = rest ++ q2.immediate
      rfl
    · show q2.bins.length = 8
      exact hlen8
    · show q2.pc ≤ 128
      exact hpc
    · show dec32 q2.size_done = rest.length
      rw [dec32_small q2.size_done hsd1 hsdM, hsd, hd, List.length_cons]
      omega
    · show q2.size_imed = q2.immediate.length
      exact hsi
    · show q2.size_q = (restIds q2).length
      exact hsq
    · show dec32 q2.size = (rest ++ q2.immediate).length + (restIds q2).length
      rw [dec32_small q2.size hsz1 hszM, hsz, hst2, List.length_cons]
      omega
    · show (rest ++ q2.immediate).length + (restIds q2).length < M32
      rw [hst2, List.length_cons] at hbound
      omega
    · intro i hi
      have hi' : i ∈ restIds q2 := hi
      have hne : i ≠ n := fun hc => hninR (hc ▸ hi')
      show 1 ≤ (F i).rel ∧ (F i).rel ≤ 127
      rw [hFne i hne]
      exact hrel i hi'
    · intro i hi
      have hi' : i ∈ q2.processing := hi
      have hiR : i ∈ restIds q2 := List.mem_append.2 (Or.inl hi')
      have hne : i ≠ n := fun hc => hninR (hc ▸ hiR)
      show q2.pc ≤ (F i).rel
      rw [hFne i hne]
      exact hproc i hi'
    · intro b hb8 i hi
      have hib : i ∈ q2.bins.getD b [] := hi
      have hiR : i ∈ restIds q2 := by
        apply List.mem_append.2 (Or.inr ?_)
        apply List.mem_flatMap.2
        exact ⟨b, List.mem_range.2 hb8, hib⟩
      have hne : i ≠ n := fun hc => hninR (hc ▸ hiR)
      show (F i).rel >>> (b + 1) = q2.pc >>> (b + 1)
        ∧ (F i).rel >>> b % 2 = 1 ∧ q2.pc >>> b % 2 = 0
      rw [hFne i hne]
      exact hbin b hb8 i hib
    · show ((rest ++ q2.immediate) ++ restIds q2).Nodup
      exact (List.nodup_cons.1 hnd').2
    · show ((restIds q2).map (fun i => (F i).rel)).Nodup
      have he : (restIds q2).map (fun i => (F i).rel)
          = (restIds q2).map (fun i => (q2.items i).rel) := by
        apply List.map_congr_left
        intro i hi
        have hne : i ≠ n := fun hc => hninR (hc ▸ hi)
        rw [hFne i hne]
      rw [he]
      exact hdist
  · have h2 : restIds { q2 with done := rest,
                                 size_done := dec32 q2.size_done,
                                 size := dec32 q2.size,
                                 items := F } = restIds q2 := rfl
    have h1 : sortR { q2 with done := rest,
                              size_done := dec32 q2.size_done,
                              size := dec32 q2.size,
                              items := F } (restIds q2) = sortR q2 (restIds q2) := by
      apply sortR_congr_items
      intro i hi
      have hne : i ≠ n := fun hc => hninR (hc ▸ hi)
      show (F i).rel = (q2.items i).rel
      rw [hFne i hne]
    rw [h2, h1, ← h2sort, hst2]
  · have hMM4 : MM { q2 with done := rest,
                              size_done := dec32 q2.size_done,
                              size := dec32 q2.size,
                              items := F } = MM q2 := by
      unfold MM
      have hw3 : q2.processing.map (wProc { q2 with done := rest,
                                                    size_done := dec32 q2.size_done,
                                                    size := dec32 q2.size,
                                                    items := F }) = q2.processing.map (wProc q2) := by
        apply List.map_congr_left
        intro i hi
        have hiR : i ∈ restIds q2 := List.mem_append.2 (Or.inl hi)
        have hne : i ≠ n := fun hc => hninR (hc ▸ hiR)
        show (if (F i).rel = q2.pc then 1
          else 2 * get_high_index32 ((F i).rel ^^^ q2.pc) + 4) = wProc q2 i
        rw [hFne i hne]
        rfl
      show 4 * ((List.range 8).map (fun b => (q2.bins.getD b []).length * (2 * b + 3))).sum
          + 4 * (q2.processing.map (wProc { q2 with done := rest,
                                                    size_done := dec32 q2.size_done,
                                                    size := dec32 q2.size,
                                                    items := F })).sum
          + 2 * q2.immediate.length
          + (if q2.counter_imed = 0 then 1 else 0)
          = 4 * ((List.range 8).map (fun b => (q2.bins.getD b []).length * (2 * b + 3))).sum
            + 4 * (q2.processing.map (wProc q2)).sum
            + 2 * q2.immediate.length
            + (if q2.counter_imed = 0 then 1 else 0)
      rw [hw3]
    omega
  · show dec32 q2.size + 1 = q.size
    rw [dec32_small q2.size hsz1 hszM]
    omega

theorem drain_run : ∀ (total fuel : Nat) (q : PQ) (st : List Pid),
    DrainInv q st → q.size = total → MM q < fuel →
    drainAll total fuel q = st ++ sortR q (restIds q) := by
  intro total
  induction total with
  | zero =>
    intro fuel q st hI hsz hf
    have h1 := hI.hsz
    rw [hsz] at h1
    have hst : st = [] := List.length_eq_zero.1 (by omega)
    have hr : restIds q = [] := List.length_eq_zero.1 (by omega)
    rw [drainAll_zero, hst, hr]
    have h2 : sortR q [] = [] := by
      unfold sortR
      apply List.flatMap_eq_nil_iff.2
      intro r hr2
      rfl
    rw [h2]
    rfl
  | succ total ih =>
    intro fuel q st hI hsz hf
    obtain ⟨n, q4, st4, hdq, h4inv, h4sort, h4MM, h4sz⟩ :=
      dq_step q st hI fuel hf (by omega)
    rw [drainAll_succ, hdq]
    show n :: drainAll total fuel q4 = st ++ sortR q (restIds q)
    rw [ih fuel q4 st4 h4inv (by omega) (by omega), ← h4sort]
    rfl

theorem filter_flatMap_comm {α β : Type} (l : List α) (g : α → List β) (p : β → Bool) :
    (l.flatMap g).filter p = l.flatMap (fun a => (g a).filter p) := by
  induction l with
  | nil => rfl
  | cons x xs ih => rw [List.flatMap_cons, List.flatMap_cons, List.filter_append, ih]

theorem flatMap_single {α : Type} (i : Nat) (h : i < 8) (L : Nat → List α)
    (hz : ∀ b, b < 8 → b ≠ i → L b = []) :
    (List.range 8).flatMap L = L i := by
  rw [range8_split i h, List.flatMap_append, List.flatMap_cons]
  have hA : (List.range i).flatMap L = [] := by
    apply List.flatMap_eq_nil_iff.2
    intro b hb
    have hb' := List.mem_range.1 hb
    exact hz b (by omega) (by omega)
  have hB : (List.range' (i + 1) (7 - i)).flatMap L = [] := by
    apply List.flatMap_eq_nil_iff.2
    intro b hb
    obtain ⟨h1, h2⟩ := List.mem_range'_1.1 hb
    exact hz b (by omega) (by omega)
  rw [hA, hB, List.nil_append, List.append_nil]

theorem high_bit_facts (r : Nat) (h1 : 1 ≤ r) (h2 : r ≤ 127) :
    r >>> (get_high_index32 r + 1) = 0 ∧ (r >>> get_high_index32 r) % 2 = 1 := by
  obtain ⟨hlo, hhi⟩ := high_spec r h1 (by omega)
  constructor
  · rw [Nat.shiftRight_eq_div_pow]
    exact Nat.div_eq_of_lt hhi
  · rw [Nat.shiftRight_eq_div_pow]
    have hge : 1 ≤ r / 2 ^ get_high_index32 r :=
      (Nat.one_le_div_iff (Nat.two_pow_pos _)).2 hlo
    have hlt2 : r / 2 ^ get_high_index32 r < 2 := by
      rw [Nat.div_lt_iff_lt_mul (Nat.two_pow_pos _)]
      rw [Nat.pow_succ] at hhi
      omega
    omega

theorem bin_mem_entry (q : PQ) (es : List (Pid × Nat)) (hE : EnqInv q es) :
    ∀ b, b < 8 → ∀ i ∈ q.bins.getD b [],
      ∃ e ∈ es, e.1 = i ∧ (q.items i).rel = e.2 ∧ e.2 ≠ 0 ∧ get_high_index32 e.2 = b := by
  intro b hb8 i hi
  rw [hE.hbins b hb8] at hi
  obtain ⟨e, he, hei⟩ := List.mem_map.1 hi
  have hee := List.mem_of_mem_filter he
  have hp := List.of_mem_filter he
  rw [decide_eq_true_eq] at hp
  refine ⟨e, hee, hei, ?_, hp.1, hp.2⟩
  rw [← hei]
  exact (hE.hmem e hee).1

theorem binsFlat_mem (q : PQ) (es : List (Pid × Nat)) (hE : EnqInv q es) (i : Pid)
    (hi : i ∈ binsFlat q) :
    ∃ e ∈ es, e.1 = i ∧ (q.items i).rel = e.2 ∧ e.2 ≠ 0 := by
  obtain ⟨b, hb, hib⟩ := List.mem_flatMap.1 hi
  have hb8 := List.mem_range.1 hb
  obtain ⟨e, he, h1, h2, h3, h4⟩ := bin_mem_entry q es hE b hb8 i hib
  exact ⟨e, he, h1, h2, h3⟩

theorem binsFlat_filter (q : PQ) (es : List (Pid × Nat)) (hE : EnqInv q es)
    (r : Nat) (hr : r ≠ 0) (hr128 : r < 128) :
    (binsFlat q).filter (fun i => decide ((q.items i).rel = r))
      = (es.filter (fun e => decide (e.2 = r))).map Prod.fst := by
  have hhr : get_high_index32 r < 8 := by
    have := high_lt r 7 (by omega) (by omega) (by omega)
    omega
  have hone : ∀ b, b < 8 →
      (q.bins.getD b []).filter (fun i => decide ((q.items i).rel = r))
      = if b = get_high_index32 r
        then (es.filter (fun e => decide (e.2 = r))).map Prod.fst
        else [] := by
    intro b hb8
    rw [hE.hbins b hb8, List.filter_map]
    have hc1 : (es.filter (fun e => decide (e.2 ≠ 0 ∧ get_high_index32 e.2 = b))).filter
          ((fun i => decide ((q.items i).rel = r)) ∘ Prod.fst)
        = (es.filter (fun e => decide (e.2 ≠ 0 ∧ get_high_index32 e.2 = b))).filter
          (fun e => decide (e.2 = r)) := by
      apply List.filter_congr
      intro e he
      have hee : e ∈ es := List.mem_of_mem_filter he
      show decide ((q.items e.1).rel = r) = decide (e.2 = r)
      rw [(hE.hmem e hee).1]
    rw [hc1, List.filter_filter]
    by_cases hbh : b = get_high_index32 r
    · rw [if_pos hbh]
      have hc2 : ∀ e ∈ es,
          (decide (e.2 = r) && decide (e.2 ≠ 0 ∧ get_high_index32 e.2 = b))
          = decide (e.2 = r) := by
        intro e he
        by_cases hv : e.2 = r
        · simp [hv, hr, hbh]
        · simp [hv]
      rw [List.filter_congr hc2]
    · rw [if_neg hbh]
      have hc3 : es.filter
          (fun e => decide (e.2 = r) && decide (e.2 ≠ 0 ∧ get_high_index32 e.2 = b)) = [] := by
        apply List.filter_eq_nil_iff.2
        intro e he hc
        simp at hc
        obtain ⟨hv, -, hhb⟩ := hc
        rw [hv] at hhb
        exact hbh hhb.symm
      rw [hc3]
      rfl
  have hflat : (binsFlat q).filter (fun i => decide ((q.items i).rel = r))
      = (List.range 8).flatMap (fun b =>
          if b = get_high_index32 r
          then (es.filter (fun e => decide (e.2 = r))).map Prod.fst
          else []) := by
    show ((List.range 8).flatMap (fun b => q.bins.getD b [])).filter
        (fun i => decide ((q.items i).rel = r)) = _
    rw [filter_flatMap_comm]
    apply flatMap_congr_mem
    intro b hb
    exact hone b (List.mem_range.1 hb)
  rw [hflat, flatMap_single (get_high_index32 r) hhr _
    (fun b hb hne => by rw [if_neg hne]), if_pos rfl]

theorem map_nodup_of_classes {α : Type} (f : α → Nat) :
    ∀ (l : List α), (∀ r, (l.filter (fun x => decide (f x = r))).length ≤ 1) →
    (l.map f).Nodup := by
  intro l
  induction l with
  | nil =>
    intro _
    simp
  | cons x xs ih =>
    intro h
    rw [List.map_cons, List.nodup_cons]
    constructor
    · intro hmem
      obtain ⟨y, hy, hyx⟩ := List.mem_map.1 hmem
      have hx := h (f x)
      rw [List.filter_cons, if_pos (by simp)] at hx
      have hyf : y ∈ xs.filter (fun z => decide (f z = f x)) :=
        List.mem_filter.2 ⟨hy, by rw [decide_eq_true_eq]; exact hyx⟩
      have hpos : 0 < (xs.filter (fun z => decide (f z = f x))).length :=
        List.length_pos.2 (fun hc => by rw [hc] at hyf; cases hyf)
      rw [List.length_cons] at hx
      omega
    · apply ih
      intro r
      have hr := h r
      rw [List.filter_cons] at hr
      by_cases hfx : f x = r
      · rw [if_pos (decide_eq_true hfx), List.length_cons] at hr
        omega
      · rw [if_neg (by simpa using hfx)] at hr
        exact hr

theorem filter_zero_split (es : List (Pid × Nat)) :
    (es.filter (fun e => decide (e.2 = 0))).length
      + (es.filter (fun e => decide (e.2 ≠ 0))).length = es.length := by
  have h1 := List.filter_append_perm (fun e => decide (e.2 = 0)) es
  have h2 : es.filter (fun e => !decide (e.2 = 0))
      = es.filter (fun e => decide (e.2 ≠ 0)) := by
    apply List.filter_congr
    intro e he
    rw [decide_not]
  have h3 := h1.length_eq
  rw [List.length_append, h2] at h3
  exact h3

theorem filter_pos_eq (es : List (Pid × Nat)) (r : Nat) (hr : r ≠ 0) :
    (es.filter (fun e => decide (e.2 ≠ 0))).filter (fun e => decide (e.2 = r))
      = es.filter (fun e => decide (e.2 = r)) := by
  rw [List.filter_filter]
  apply List.filter_congr
  intro e he
  by_cases hv : e.2 = r
  · simp [hv, hr]
  · simp [hv]

theorem enq_to_drain (q : PQ) (es : List (Pid × Nat)) (hE : EnqInv q es)
    (hid : (es.map Prod.fst).Nodup) (hpr : ∀ e ∈ es, e.2 ≤ 127)
    (hdis : ((es.filter (fun e => decide (e.2 ≠ 0))).map Prod.snd).Nodup)
    (hbM : es.length < M32) :
    DrainInv q ((es.filter (fun e => decide (e.2 = 0))).map Prod.fst) := by
  have hrid : restIds q = binsFlat q := by
    show q.processing ++ binsFlat q = binsFlat q
    rw [hE.hproc, List.nil_append]
  have hpart := filter_zero_split es
  have hfl : q.immediate.length + (binsFlat q).length = es.length := by
    have h1 := hE.hflat.length_eq
    rw [List.length_append, List.length_map] at h1
    exact h1
  have himl : q.immediate.length = (es.filter (fun e => decide (e.2 = 0))).length := by
    rw [hE.himm, List.length_map]
  have hclass : ∀ r, ((binsFlat q).filter
      (fun i => decide ((q.items i).rel = r))).length ≤ 1 := by
    intro r
    by_cases hr0 : r = 0
    · have he : (binsFlat q).filter (fun i => decide ((q.items i).rel = r)) = [] := by
        apply List.filter_eq_nil_iff.2
        intro i hi hc
        rw [decide_eq_true_eq] at hc
        obtain ⟨e, he, h1, h2, h3⟩ := binsFlat_mem q es hE i hi
        rw [h2, hr0] at hc
        exact h3 hc
      rw [he]
      simp
    · by_cases hr128 : r < 128
      · rw [binsFlat_filter q es hE r hr0 hr128, List.length_map, ← filter_pos_eq es r hr0]
        exact filter_nodup_len Prod.snd (es.filter (fun e => decide (e.2 ≠ 0))) hdis r
      · have he : (binsFlat q).filter (fun i => decide ((q.items i).rel = r)) = [] := by
          apply List.filter_eq_nil_iff.2
          intro i hi hc
          rw [decide_eq_true_eq] at hc
          obtain ⟨e, he, h1, h2, h3⟩ := binsFlat_mem q es hE i hi
          have := hpr e he
          omega
        rw [he]
        simp
  refine ⟨?_, hE.hlen8, ?_, ?_, ?_, ?_, ?_, ?_, ?_, ?_, ?_, ?_, ?_⟩
  · rw [hE.hdone, hE.himm, List.nil_append]
  · rw [hE.hpc]
    omega
  · rw [hE.hsd, hE.hdone]
    rfl
  · rw [hE.hsi, himl]
  · rw [hE.hsq, hrid]
    omega
  · rw [hE.hsz, hrid, List.length_map]
    omega
  · rw [hrid, List.length_map]
    omega
  · intro i hi
    rw [hrid] at hi
    obtain ⟨e, he, h1, h2, h3⟩ := binsFlat_mem q es hE i hi
    have := hpr e he
    rw [h2]
    omega
  · intro i hi
    rw [hE.hproc] at hi
    cases hi
  · intro b hb8 i hi
    obtain ⟨e, he, h1, h2, h3, h4⟩ := bin_mem_entry q es hE b hb8 i hi
    have hp127 := hpr e he
    obtain ⟨hb1, hb2⟩ := high_bit_facts e.2 (by omega) hp127
    rw [h4] at hb1 hb2
    rw [hE.hpc, h2]
    refine ⟨?_, hb2, ?_⟩
    · rw [hb1, Nat.zero_shiftRight]
    · rw [Nat.zero_shiftRight]
  · rw [hrid, ← hE.himm]
    exact (hE.hflat.symm).nodup hid
  · rw [hrid]
    exact map_nodup_of_classes (fun i => (q.items i).rel) (binsFlat q) hclass

theorem sortR_init (q : PQ) (es : List (Pid × Nat)) (hE : EnqInv q es) :
    sortR q (restIds q)
      = (List.range 128).flatMap
          (fun p => if p = 0 then []
            else (es.filter (fun e => decide (e.2 = p))).map Prod.fst) := by
  have hrid : restIds q = binsFlat q := by
    show q.processing ++ binsFlat q = binsFlat q
    rw [hE.hproc, List.nil_append]
  rw [hrid]
  unfold sortR
  apply flatMap_congr_mem
  intro r hr
  have hr128 := List.mem_range.1 hr
  by_cases hr0 : r = 0
  · rw [if_pos hr0]
    apply List.filter_eq_nil_iff.2
    intro i hi hc
    rw [decide_eq_true_eq] at hc
    obtain ⟨e, he, h1, h2, h3⟩ := binsFlat_mem q es hE i hi
    rw [h2, hr0] at hc
    exact h3 hc
  · rw [if_neg hr0]
    exact binsFlat_filter q es hE r hr0 hr128

theorem map_sum_le_map {α : Type} (l : List α) (f g : α → Nat)
    (h : ∀ x ∈ l, f x ≤ g x) : (l.map f).sum ≤ (l.map g).sum := by
  induction l with
  | nil => simp
  | cons x xs ih =>
    rw [List.map_cons, List.map_cons, List.sum_cons, List.sum_cons]
    have h1 := h x (List.mem_cons_self x xs)
    have h2 := ih (fun y hy => h y (List.mem_cons_of_mem x hy))
    omega

theorem sum_len_mul {α : Type} (L : α → Nat) (c : Nat) (l : List α) :
    (l.map (fun b => L b * c)).sum = (l.map L).sum * c := by
  induction l with
  | nil => simp
  | cons x xs ih =>
    rw [List.map_cons, List.map_cons, List.sum_cons, List.sum_cons, ih, Nat.add_mul]

theorem flatMap_length_sum {α β : Type} (l : List α) (g : α → List β) :
    (l.flatMap g).length = (l.map (fun a => (g a).length)).sum := by
  induction l with
  | nil => rfl
  | cons x xs ih =>
    rw [List.flatMap_cons, List.map_cons, List.length_append, List.sum_cons, ih]

theorem MM_init_le (q : PQ) (es : List (Pid × Nat)) (hE : EnqInv q es) :
    MM q ≤ 70 * es.length + 7 := by
  have hfl : q.immediate.length + (binsFlat q).length = es.length := by
    have h1 := hE.hflat.length_eq
    rw [List.length_append, List.length_map] at h1
    exact h1
  have h1 : ((List.range 8).map (fun b => (q.bins.getD b []).length * (2 * b + 3))).sum
      ≤ ((List.range 8).map (fun b => (q.bins.getD b []).length * 17)).sum := by
    apply map_sum_le_map
    intro b hb
    have hb8 := List.mem_range.1 hb
    exact Nat.mul_le_mul_left _ (by omega)
  have h2 : ((List.range 8).map (fun b => (q.bins.getD b []).length * 17)).sum
      = ((List.range 8).map (fun b => (q.bins.getD b []).length)).sum * 17 :=
    sum_len_mul (fun b => (q.bins.getD b []).length) 17 (List.range 8)
  have h3 : ((List.range 8).map (fun b => (q.bins.getD b []).length)).sum
      = (binsFlat q).length :=
    (flatMap_length_sum (List.range 8) (fun b => q.bins.getD b [])).symm
  unfold MM
  rw [hE.hproc, hE.hci, if_pos rfl]
  simp only [List.map_nil, List.sum_nil]
  omega

/-- C1, amended. For any batch of items whose nonzero absolute priorities lie
in 1..127 and are pairwise distinct (plus any number of priority-0 items),
enqueued into a fresh queue in any order, draining the queue with repeated
`priorityq_dequeue` returns every priority-0 item first, in enqueue order,
followed by the positive-priority items in strictly increasing numeric
priority order — the reverse of the decreasing order the claim states. -/
theorem c1_amended_order (es : List (Pid × Nat))
    (hid : (es.map Prod.fst).Nodup)
    (hpr : ∀ e ∈ es, e.2 ≤ 127)
    (hdis : ((es.filter (fun e => decide (e.2 ≠ 0))).map Prod.snd).Nodup)
    (hn : es.length < 4294967296) :
    drainAll es.length (70 * es.length + 8) (enqAll priorityq_init es)
      = (es.filter (fun e => decide (e.2 = 0))).map Prod.fst
        ++ (List.range 128).flatMap
            (fun p => if p = 0 then []
              else (es.filter (fun e => decide (e.2 = p))).map Prod.fst) := by
  have hM : es.length < M32 := by
    unfold M32
    omega
  have hE := enqAll_full es hid hpr hM
  have hD := enq_to_drain (enqAll priorityq_init es) es hE hid hpr hdis hM
  have hsz : (enqAll priorityq_init es).size = es.length := hE.hsz
  have hMM := MM_init_le (enqAll priorityq_init es) es hE
  rw [drain_run es.length (70 * es.length + 8) (enqAll priorityq_init es)
    ((es.filter (fun e => decide (e.2 = 0))).map Prod.fst) hD hsz (by omega)]
  rw [sortR_init (enqAll priorityq_init es) es hE]

theorem c1_amended_order_witness :
    drainAll (List.length [((0 : Pid), (12 : Nat)), (1, 3), (2, 0), (3, 100)])
      (70 * List.length [((0 : Pid), (12 : Nat)), (1, 3), (2, 0), (3, 100)] + 8)
      (enqAll priorityq_init [((0 : Pid), (12 : Nat)), (1, 3), (2, 0), (3, 100)])
      = ([((0 : Pid), (12 : Nat)), (1, 3), (2, 0), (3, 100)].filter
          (fun e => decide (e.2 = 0))).map Prod.fst
        ++ (List.range 128).flatMap
            (fun p => if p = 0 then []
              else ([((0 : Pid), (12 : Nat)), (1, 3), (2, 0), (3, 100)].filter
                (fun e => decide (e.2 = p))).map Prod.fst) :=
  c1_amended_order [((0 : Pid), (12 : Nat)), (1, 3), (2, 0), (3, 100)]
    (by decide) (by decide) (by decide) (by decide)
